import Mathlib

/-!
Verification of the simple-html-parser repository (HTML/CSS parser with a
DOM-like mutable tree, "SOM") against its specification.

The development contains two embeddings of the source:

* a pure functional embedding (`parseHtml`, `PNode.toHtml`, the CSS parser
  and the special-tag content lexer) that captures the input/output
  behaviour of `SimpleHtmlParser.parse` and `Node.toHtml`: the parser's
  mutable "current insertion point" with parent-chain matching becomes an
  explicit stack of open frames, and every position-cursor computation of
  the source (`indexOf`, `substring` with its argument-swapping semantics,
  the attribute regex `exec` loop) is reproduced on `List Char`;

* a heap embedding (`Heap`, `HNode`) with explicit parent references and
  node identities, for the mutation operations (`appendChild`, `remove`,
  `extractNode`, `insertBefore`, `insertAfter`, `replaceWith`) and the
  selector engine (`executeBasicSelector`, `findMatchingNodes`,
  `querySelectorAll`), which in the source work by object reference.

Machine strings are `List Char`; JavaScript objects used as attribute or
declaration maps are insertion-ordered association lists (exact for the
non-array-index keys all inputs here use).
-/

/-- Shorthand for the character-list strings the embedding works on. -/
abbrev Str := List Char

/-- Insertion-ordered association list standing for a JS object map. -/
abbrev AttrMap := List (Str × Str)

/-- The apostrophe character (attribute values may be single-quoted). -/
def squoteC : Char := Char.ofNat 39

/-- The backtick character (template-literal strings in the content lexer). -/
def btickC : Char := Char.ofNat 96

/-- The backslash character (escape sequences in the content lexer). -/
def bslashC : Char := Char.ofNat 92

/-- JS `\s` whitespace (the ASCII range; all inputs considered are ASCII). -/
def isJsWs (c : Char) : Bool :=
  c = ' ' || c = '\t' || c = '\n' || c = '\r' || c = Char.ofNat 11 || c = Char.ofNat 12

/-- One character of `REGEX.validTagName` = `[a-zA-Z0-9_\-]`, which is the
same set as the `[\w-]` of the attribute-name regex. -/
def isNameChar (c : Char) : Bool :=
  (Char.ofNat 97 ≤ c && c ≤ Char.ofNat 122) ||
  (Char.ofNat 65 ≤ c && c ≤ Char.ofNat 90) ||
  (Char.ofNat 48 ≤ c && c ≤ Char.ofNat 57) || c = '_' || c = '-'

/-- A decimal digit. -/
def isDigitCh (c : Char) : Bool := Char.ofNat 48 ≤ c && c ≤ Char.ofNat 57

/-- Boolean prefix test on character lists. -/
def lPre : Str → Str → Bool
  | [], _ => true
  | _ :: _, [] => false
  | a :: as, b :: bs => a = b && lPre as bs

/-- First occurrence of a substring: `splitOnSub sub cs = some (pre, post)`
when `cs = pre ++ sub ++ post` with `pre` shortest; `none` when `sub` does
not occur.  Mirrors `String.prototype.indexOf` searches of the source. -/
def splitOnSub (sub : Str) : Str → Option (Str × Str)
  | [] => if sub = [] then some ([], []) else none
  | c :: cs =>
    if lPre sub (c :: cs) then some ([], (c :: cs).drop sub.length)
    else match splitOnSub sub cs with
      | some (pre, post) => some (c :: pre, post)
      | none => none

/-- Index of the first occurrence of a character (JS `indexOf` on one char). -/
def firstIdxCh (t : Char) : Str → Option Nat
  | [] => none
  | c :: cs =>
    if c = t then some 0
    else match firstIdxCh t cs with
      | some i => some (i + 1)
      | none => none

/-- JS `String.prototype.substring(a, b)`: swaps the arguments when
`a > b` and clamps to the string's length. -/
def jsSubstring (cs : Str) (a b : Nat) : Str :=
  (cs.drop (min a b)).take (max a b - min a b)

/-- JS `Array.prototype.splice(start, deleteCount)` (the removal part). -/
def jsSplice (l : List α) (start delCount : Nat) : List α :=
  l.take start ++ l.drop (start + delCount)

/-- JS `Array.prototype.splice(i, 0, x)`: insertion at an index. -/
def insertAt (l : List α) (i : Nat) (a : α) : List α :=
  l.take i ++ a :: l.drop i

/-- JS `String.prototype.trim` (over the `\s` class above). -/
def jsTrim (cs : Str) : Str :=
  ((cs.dropWhile isJsWs).reverse.dropWhile isJsWs).reverse

/-- Field runs after the first of `split(/\s+/)` (fuelled structural
recursion; each run consumes at least the separator character). -/
def jsSplitWsGo : Nat → Str → List Str
  | 0, _ => []
  | _, [] => []
  | fuel + 1, _ :: cs =>
    let cs2 := cs.dropWhile isJsWs
    let fld := cs2.takeWhile (fun c => !isJsWs c)
    fld :: jsSplitWsGo fuel (cs2.drop fld.length)

/-- JS `String.prototype.split(/\s+/)`. -/
def jsSplitWs (cs : Str) : List Str :=
  let first := cs.takeWhile (fun c => !isJsWs c)
  first :: jsSplitWsGo (cs.length + 1) (cs.drop first.length)

/-- Fuelled worker for `jsSplitCh`. -/
def jsSplitChGo (sep : Char) : Nat → Str → List Str
  | 0, _ => []
  | fuel + 1, cs =>
    let fld := cs.takeWhile (fun c => c ≠ sep)
    match cs.drop fld.length with
    | [] => [fld]
    | _ :: rest => fld :: jsSplitChGo sep fuel rest

/-- JS `String.prototype.split(sep)` for a one-character separator. -/
def jsSplitCh (sep : Char) (cs : Str) : List Str :=
  jsSplitChGo sep (cs.length + 1) cs

/-- The boolean-attribute sentinel value `'__EMPVAL__'` of the source. -/
def EMPVAL : Str := ("__EMPVAL__").data

/-- The fixed void-element list `VOID_ELEMS` of the source. -/
def VOID_ELEMS : List Str :=
  [("img").data, ("br").data, ("hr").data, ("input").data, ("meta").data,
   ("link").data, ("area").data, ("base").data, ("col").data, ("embed").data,
   ("param").data, ("source").data, ("track").data, ("wbr").data]

/-- JS object property write `m[k] = v`: updates an existing key in place,
otherwise appends (insertion order preserved). -/
def objSet (m : AttrMap) (k v : Str) : AttrMap :=
  match m with
  | [] => [(k, v)]
  | (k0, v0) :: rest => if k0 = k then (k, v) :: rest else (k0, v0) :: objSet rest k v

/-- JS object property read `m[k]` (`none` stands for `undefined`). -/
def objGet (m : AttrMap) (k : Str) : Option Str :=
  match m with
  | [] => none
  | (k0, v0) :: rest => if k0 = k then some v0 else objGet rest k

/-- JS `delete m[k]`. -/
def objDel (m : AttrMap) (k : Str) : AttrMap :=
  match m with
  | [] => []
  | (k0, v0) :: rest => if k0 = k then rest else (k0, v0) :: objDel rest k

/-- Quoted-value alternative of the attribute regex: after the opening
quote, `([^q]*)` up to a mandatory closing quote. -/
def attrValQuoted (q : Char) (cs : Str) : Option (Str × Str) :=
  match firstIdxCh q cs with
  | none => none
  | some i => some (cs.take i, cs.drop (i + 1))

/-- The optional value part of `REGEX.attributePattern` after a matched
`=`: tries `"([^"]*)"`, then `'([^']*)'`, then `(\S+)`, in the regex's
alternative order. -/
def attrAfterEq (cs : Str) : Option (Str × Str) :=
  match cs with
  | c :: rest =>
    if c = '"' then
      match attrValQuoted '"' rest with
      | some r => some r
      | none => attrAfterEqBare cs
    else if c = squoteC then
      match attrValQuoted squoteC rest with
      | some r => some r
      | none => attrAfterEqBare cs
    else attrAfterEqBare cs
  | [] => none
where
  /-- The `(\S+)` alternative: a nonempty run of non-whitespace. -/
  attrAfterEqBare (cs : Str) : Option (Str × Str) :=
    let run := cs.takeWhile (fun c => !isJsWs c)
    if run = [] then none else some (run, cs.drop run.length)

/-- The global `exec` loop over `REGEX.attributePattern`
`([\w-]+)(?:=(?:"([^"]*)"|'([^']*)'|(\S+)))?`: each match yields the
attribute name and its value, where a missing value — or one whose matched
group is the empty string, which is falsy in `match[2] || match[3] ||
match[4] || '__EMPVAL__'` — becomes the sentinel. -/
def attrScan : Nat → Str → List (Str × Str)
  | 0, _ => []
  | _, [] => []
  | fuel + 1, c :: rest =>
    if isNameChar c then
      let name := (c :: rest).takeWhile isNameChar
      let after := (c :: rest).drop name.length
      match after with
      | '=' :: aft2 =>
        match attrAfterEq aft2 with
        | some (v, rest2) =>
          (name, if v = [] then EMPVAL else v) :: attrScan fuel rest2
        | none => (name, EMPVAL) :: attrScan fuel after
      | _ => (name, EMPVAL) :: attrScan fuel after
    else attrScan fuel rest

/-- All matches of the attribute regex over a tag's attribute text. -/
def attrScanAll (cs : Str) : List (Str × Str) := attrScan (cs.length + 1) cs

/-- The attributes object the parser builds from the scan (`attributes[name]
= value` per match). -/
def attrsObject (cs : Str) : AttrMap :=
  (attrScanAll cs).foldl (fun m kv => objSet m kv.1 kv.2) []

/-- Node `type` tags of the source (`'root'`, `'tag-open'`, ...). -/
inductive NType where
  | root | tagOpen | tagClose | text | comment | cssRoot | cssRule | cssAtRule
deriving DecidableEq, Repr

/-- The `commentType` values (`noComment` stands for the property being
absent, which serialization treats as `'html-comment'`). -/
inductive CType where
  | htmlComment | jsSingleLine | jsMultiLine | cssComment | noComment
deriving DecidableEq, Repr

/-- A pure tree node: the fields of the source's `Node` class (including the
dynamically attached `styleBlock`/`scriptBlock` flags and the CSS fields),
with children by value rather than by reference. -/
inductive PNode where
  | node (ntype : NType) (name : Str) (attrs : AttrMap) (content : Str)
      (ctype : CType) (styleBlock scriptBlock : Bool)
      (cssSelector : Str) (cssDecls : AttrMap) (cssName cssParams : Str)
      (children : List PNode)
deriving Repr

/-- Node type accessor. -/
def PNode.ntype : PNode → NType
  | .node t _ _ _ _ _ _ _ _ _ _ _ => t

/-- Node name accessor. -/
def PNode.name : PNode → Str
  | .node _ n _ _ _ _ _ _ _ _ _ _ => n

/-- Node attributes accessor. -/
def PNode.attrs : PNode → AttrMap
  | .node _ _ a _ _ _ _ _ _ _ _ _ => a

/-- Node content accessor. -/
def PNode.content : PNode → Str
  | .node _ _ _ c _ _ _ _ _ _ _ _ => c

/-- Node children accessor. -/
def PNode.children : PNode → List PNode
  | .node _ _ _ _ _ _ _ _ _ _ _ cs => cs

/-- Text node (`new Node('text')` with `content` assigned). -/
def mkText (s : Str) : PNode :=
  .node .text [] [] s .noComment false false [] [] [] [] []

/-- Comment node with a comment kind. -/
def mkComment (s : Str) (ct : CType) : PNode :=
  .node .comment [] [] s ct false false [] [] [] [] []

/-- Opening-tag node. -/
def mkOpen (name : Str) (attrs : AttrMap) (sb scb : Bool) (children : List PNode) : PNode :=
  .node .tagOpen name attrs [] .noComment sb scb [] [] [] [] children

/-- Closing-tag node (the parser attaches the style/script flags to the
closing node of a style or special block too). -/
def mkClose (name : Str) (sb scb : Bool) : PNode :=
  .node .tagClose name [] [] .noComment sb scb [] [] [] [] []

/-- Root node. -/
def mkRoot (children : List PNode) : PNode :=
  .node .root [] [] [] .noComment false false [] [] [] [] children

/-- Rendering of one attribute map as `#getNodeAttributesString` does:
`' name'` for the sentinel, `' name="value"'` otherwise. -/
def getNodeAttributesString : AttrMap → Str
  | [] => []
  | (k, v) :: rest =>
    (if v = EMPVAL then ' ' :: k
     else ' ' :: (k ++ '=' :: '"' :: (v ++ ['"']))) ++ getNodeAttributesString rest

/-- Indentation prefix `'    '.repeat(indent)` of `#cssTreeToString`. -/
def cssSpaces (indent : Nat) : Str := List.replicate (4 * indent) ' '

/-- Declaration lines `'    prop: value;\n'` inside `#cssTreeToString`. -/
def cssDeclsToString (spaces : Str) : AttrMap → Str
  | [] => []
  | (p, v) :: rest =>
    spaces ++ ("    ").data ++ p ++ ':' :: ' ' :: v ++ (';' :: '\n' :: []) ++
    cssDeclsToString spaces rest

mutual

/-- The source's `#cssTreeToString(cssNodes, indent)`: CSS tree back to CSS
text.  Nodes of unexpected type contribute nothing. -/
def cssTreeToString (indent : Nat) : List PNode → Str
  | [] => []
  | n :: rest => cssNodeToString indent n ++ cssTreeToString indent rest

/-- One node of `#cssTreeToString`'s loop. -/
def cssNodeToString (indent : Nat) : PNode → Str
  | .node nt _ _ content ct _ _ cssSelector cssDecls cssName cssParams children =>
    let spaces := cssSpaces indent
    if nt = .comment ∧ ct = .cssComment then
      spaces ++ ("/* ").data ++ content ++ (" */").data ++ ['\n']
    else if nt = .cssRule then
      spaces ++ cssSelector ++ (' ' :: '\x7b' :: '\n' :: []) ++
      cssDeclsToString spaces cssDecls ++
      (if children.length > 0 then cssTreeToString (indent + 1) children else []) ++
      spaces ++ ('\x7d' :: '\n' :: [])
    else if nt = .cssAtRule then
      spaces ++ '@' :: cssName ++
      (if cssParams ≠ [] then ' ' :: cssParams else []) ++
      (if cssName = ("import").data ∨ cssName = ("charset").data ∨
          cssName = ("namespace").data then (';' :: '\n' :: [])
       else (' ' :: '\x7b' :: '\n' :: []) ++
            (if children.length > 0 then cssTreeToString (indent + 1) children else []) ++
            spaces ++ ('\x7d' :: '\n' :: []))
    else if nt = .cssRoot then
      cssTreeToString indent children
    else []

end

mutual

/-- The source's `Node.toHtml(showComments)` on the pure tree. -/
def PNode.toHtml (showComments : Bool) : PNode → Str
  | .node nt name attrs content ct sb _ _ _ _ _ children =>
    if nt = .text then content
    else if nt = .comment then
      if showComments = false then []
      else
        let ctEff := if ct = .noComment then CType.htmlComment else ct
        if ctEff = .jsSingleLine then '/' :: '/' :: content
        else if ctEff = .jsMultiLine then '/' :: '*' :: content ++ ('*' :: '/' :: [])
        else ("<!--").data ++ content ++ ("-->").data
    else if nt = .tagOpen then
      '<' :: (name ++ getNodeAttributesString attrs ++ ['>']) ++
      (if sb = true ∧ children.length > 0 then '\n' :: cssTreeToString 0 children
       else toHtmlList showComments children)
    else if nt = .tagClose then '<' :: '/' :: name ++ ['>']
    else toHtmlList showComments children

/-- Children concatenation of `toHtml`. -/
def toHtmlList (showComments : Bool) : List PNode → Str
  | [] => []
  | c :: cs => c.toHtml showComments ++ toHtmlList showComments cs

end

/-- The opening-brace character. -/
def obrC : Char := Char.ofNat 123

/-- The closing-brace character. -/
def cbrC : Char := Char.ofNat 125

/-- One character of `REGEX.atRuleName` = `[a-zA-Z\-]`. -/
def isAtNameChar (c : Char) : Bool :=
  (Char.ofNat 97 ≤ c && c ≤ Char.ofNat 122) ||
  (Char.ofNat 65 ≤ c && c ≤ Char.ofNat 90) || c = '-'

/-- CSS comment node (`commentType = 'css'`). -/
def mkCssComment (s : Str) : PNode :=
  .node .comment [] [] s .cssComment false false [] [] [] [] []

/-- CSS rule node: `new Node('css-rule', selector, {}, parent)` with
`cssSelector` and `cssDeclarations` assigned. -/
def mkCssRule (sel : Str) (decls : AttrMap) (children : List PNode) : PNode :=
  .node .cssRule sel [] [] .noComment false false sel decls [] [] children

/-- CSS at-rule node with `cssName` and `cssParams` assigned. -/
def mkCssAtRule (nm params : Str) (decls : AttrMap) (children : List PNode) : PNode :=
  .node .cssAtRule nm [] [] .noComment false false [] decls nm params children

/-- The source's `CSSParser.#isNestedRule` lookahead: scan forward tracking
parenthesis depth; a top-level `:` whose next character is not `:` decides
declaration, a top-level brace decides nested rule, `;` or a closing brace
decides declaration/empty.  The committed scan position is untouched (here:
a pure function of the remaining input). -/
def cssIsNestedRule : Str → Int → Bool
  | [], _ => false
  | c :: rest, depth =>
    if c = '(' then cssIsNestedRule rest (depth + 1)
    else if c = ')' then cssIsNestedRule rest (depth - 1)
    else if depth = 0 then
      if c = ':' ∧ rest.head? ≠ some ':' then false
      else if c = obrC then true
      else if c = ';' ∨ c = cbrC then false
      else cssIsNestedRule rest depth
    else cssIsNestedRule rest depth

/-- Value scan of `#parseDeclaration`: consume until a depth-zero `;` or
closing brace (parentheses adjust the depth), returning (value, rest). -/
def cssValueScan : Str → Int → Str × Str
  | [], _ => ([], [])
  | c :: rest, depth =>
    if c = '(' then
      let (v, r) := cssValueScan rest (depth + 1)
      (c :: v, r)
    else if c = ')' then
      let (v, r) := cssValueScan rest (depth - 1)
      (c :: v, r)
    else if depth = 0 ∧ (c = ';' ∨ c = cbrC) then ([], c :: rest)
    else
      let (v, r) := cssValueScan rest depth
      (c :: v, r)

/-- Selector scan of `#parseRule`: consume until a depth-zero opening
brace, returning (selector text, rest). -/
def cssSelScan : Str → Int → Str × Str
  | [], _ => ([], [])
  | c :: rest, depth =>
    if c = '(' then
      let (v, r) := cssSelScan rest (depth + 1)
      (c :: v, r)
    else if c = ')' then
      let (v, r) := cssSelScan rest (depth - 1)
      (c :: v, r)
    else if c = obrC ∧ depth = 0 then ([], c :: rest)
    else
      let (v, r) := cssSelScan rest depth
      (c :: v, r)

/-- Parameter scan of `#parseAtRule` (block-form at-rules): consume until a
depth-zero opening brace. -/
def cssAtParamsScan : Str → Int → Str × Str
  | [], _ => ([], [])
  | c :: rest, depth =>
    if c = '(' then
      let (v, r) := cssAtParamsScan rest (depth + 1)
      (c :: v, r)
    else if c = ')' then
      let (v, r) := cssAtParamsScan rest (depth - 1)
      (c :: v, r)
    else if c = obrC ∧ depth = 0 then ([], c :: rest)
    else
      let (v, r) := cssAtParamsScan rest depth
      (c :: v, r)

/-- The source's `CSSParser.#parseComment` (assumes the caller checked for
the `/*` opener; unclosed comments take everything to end-of-input). -/
def cssParseComment (cs : Str) : Option (PNode × Str) :=
  match cs with
  | '/' :: '*' :: rest =>
    match splitOnSub (('*' : Char) :: '/' :: []) rest with
    | some (pre, post) => some (mkCssComment pre, post)
    | none => some (mkCssComment rest, [])
  | _ => none

/-- The source's `CSSParser.#parseDeclaration`: property up to `:` or a
closing brace; a missing `:` skips to the next `;`/closing brace without an
entry; the value is depth-aware; empty property or value records nothing;
a trailing `;` is consumed. -/
def cssParseDeclaration (decls : AttrMap) (cs : Str) : AttrMap × Str :=
  let propRun := cs.takeWhile (fun c => c ≠ ':' ∧ c ≠ cbrC)
  let property := jsTrim propRun
  let after := cs.drop propRun.length
  match after with
  | ':' :: aft2 =>
    let aft3 := aft2.dropWhile isJsWs
    let (rawv, rest) := cssValueScan aft3 0
    let value := jsTrim rawv
    let decls2 := if property ≠ [] ∧ value ≠ [] then objSet decls property value else decls
    match rest with
    | ';' :: r2 => (decls2, r2)
    | _ => (decls2, rest)
  | _ =>
    let skipped := after.dropWhile (fun c => c ≠ ';' ∧ c ≠ cbrC)
    match skipped with
    | ';' :: r2 => (decls, r2)
    | _ => (decls, skipped)

mutual

/-- The source's `CSSParser.#parseAtRule` (fuelled; the fuel only bounds
the recursion depth of the mutually recursive productions). -/
def cssParseAtRule : Nat → Str → Option PNode × Str
  | 0, cs => (none, cs)
  | fuel + 1, cs =>
    match cs with
    | '@' :: afterAt =>
      let nm := afterAt.takeWhile isAtNameChar
      let afterNm := (afterAt.drop nm.length).dropWhile isJsWs
      if nm = ("import").data ∨ nm = ("charset").data ∨ nm = ("namespace").data then
        let params := afterNm.takeWhile (fun c => c ≠ ';')
        let rest := afterNm.drop params.length
        let rest2 := match rest with
          | ';' :: r => r
          | r => r
        (some (mkCssAtRule nm (jsTrim params) [] []), rest2)
      else
        let (params, rest) := cssAtParamsScan afterNm 0
        let rest2 := rest.dropWhile isJsWs
        match rest2 with
        | c :: r3 =>
          if c = obrC then
            let (decls, kids, rest3) := cssParseBlock fuel r3 [] []
            (some (mkCssAtRule nm (jsTrim params) decls kids), rest3)
          else (some (mkCssAtRule nm (jsTrim params) [] []), rest2)
        | [] => (some (mkCssAtRule nm (jsTrim params) [] []), [])
    | _ => (none, cs)

/-- The source's `CSSParser.#parseRule`: selector up to a depth-zero
opening brace, then the block; an empty selector or missing brace yields
`null` (with the scan position as the source leaves it). -/
def cssParseRule : Nat → Str → Option PNode × Str
  | 0, cs => (none, cs)
  | fuel + 1, cs =>
    let (selRaw, rest) := cssSelScan cs 0
    let selector := jsTrim selRaw
    match rest with
    | c :: r2 =>
      if selector = [] then (none, rest)
      else if c = obrC then
        let (decls, kids, rest3) := cssParseBlock fuel r2 [] []
        (some (mkCssRule selector decls kids), rest3)
      else (none, rest)
    | [] => (none, [])

/-- The source's `CSSParser.#parseBlock` loop: comments, nested at-rules,
and the `#isNestedRule` lookahead deciding nested rule versus declaration;
a closing brace or end-of-input ends the block. -/
def cssParseBlock : Nat → Str → AttrMap → List PNode → AttrMap × List PNode × Str
  | 0, cs, decls, kids => (decls, kids, cs)
  | fuel + 1, cs, decls, kids =>
    let cs2 := cs.dropWhile isJsWs
    match cs2 with
    | [] => (decls, kids, [])
    | c :: rest =>
      if c = cbrC then (decls, kids, rest)
      else if c = '/' ∧ rest.head? = some '*' then
        match cssParseComment cs2 with
        | some (n, r2) => cssParseBlock fuel r2 decls (kids ++ [n])
        | none => cssParseBlock fuel rest decls kids
      else if c = '@' then
        match cssParseAtRule fuel cs2 with
        | (some n, r2) => cssParseBlock fuel r2 decls (kids ++ [n])
        | (none, r2) => cssParseBlock fuel r2 decls kids
      else if cssIsNestedRule cs2 0 then
        match cssParseRule fuel cs2 with
        | (some n, r2) => cssParseBlock fuel r2 decls (kids ++ [n])
        | (none, r2) => cssParseBlock fuel r2 decls kids
      else
        let (decls2, r2) := cssParseDeclaration decls cs2
        cssParseBlock fuel r2 decls2 kids

end

/-- The top-level loop of `CSSParser.parse`. -/
def cssParseTop : Nat → Str → List PNode → List PNode
  | 0, _, kids => kids
  | fuel + 1, cs, kids =>
    let cs2 := cs.dropWhile isJsWs
    match cs2 with
    | [] => kids
    | c :: rest =>
      if c = '/' ∧ rest.head? = some '*' then
        match cssParseComment cs2 with
        | some (n, r2) => cssParseTop fuel r2 (kids ++ [n])
        | none => cssParseTop fuel rest kids
      else if c = '@' then
        match cssParseAtRule fuel cs2 with
        | (some n, r2) => cssParseTop fuel r2 (kids ++ [n])
        | (none, r2) => cssParseTop fuel r2 kids
      else
        match cssParseRule fuel cs2 with
        | (some n, r2) => cssParseTop fuel r2 (kids ++ [n])
        | (none, r2) => cssParseTop fuel r2 kids

/-- The source's `CSSParser.parse`: builds the `css-root` tree.  The fuel
bounds the number of parse steps; it exceeds what any input can need
(the source itself loops forever on inputs such as an unmatched opening
brace at top level, which the exhausted-fuel fallback truncates). -/
def cssParse (cs : Str) : PNode :=
  .node .cssRoot [] [] [] .noComment false false [] [] [] []
    (cssParseTop (cs.length * 2 + 16) cs [])

/-- One character of `REGEX.jsRegexContext` = `[\(\[{,;=:&|!?]`. -/
def jsRegexContextCh (c : Char) : Bool :=
  c = '(' || c = '[' || c = obrC || c = ',' || c = ';' || c = '=' ||
  c = ':' || c = '&' || c = '|' || c = '!' || c = '?'

/-- State of the special-tag content lexer (the comment/string/regex-aware
scan over the raw content of a special tag, source lines 172-280). -/
structure LexSt where
  inString : Bool
  stringChar : Char
  inRegex : Bool
  inComment : Bool
  ctype : CType
  commentStart : Nat
  textStart : Nat
  acc : List PNode

/-- End-of-content handling of the special-tag lexer: an unterminated
comment consumes to end-of-input, otherwise any remaining text becomes a
text node. -/
def miniLexPost (sc : Str) (st : LexSt) : List PNode :=
  if st.inComment then
    st.acc ++ [mkComment (jsSubstring sc st.commentStart sc.length) st.ctype]
  else if st.textStart < sc.length then
    st.acc ++ [mkText (jsSubstring sc st.textStart sc.length)]
  else st.acc

/-- The special-tag content lexer's character loop (index-based like the
source; the fuel exceeds the iteration count, which advances the index
every step). -/
def miniLexGo : Nat → Str → Nat → LexSt → List PNode
  | 0, sc, _, st => miniLexPost sc st
  | fuel + 1, sc, i, st =>
    if sc.length ≤ i then miniLexPost sc st
    else
      let char := sc.getD i (Char.ofNat 0)
      let next := if i + 1 < sc.length then some (sc.getD (i + 1) (Char.ofNat 0)) else none
      let prev := if 0 < i then some (sc.getD (i - 1) (Char.ofNat 0)) else none
      if prev = some bslashC then miniLexGo fuel sc (i + 1) st
      else if ¬st.inComment ∧ ¬st.inRegex ∧
          (char = '"' ∨ char = squoteC ∨ char = btickC) then
        if ¬st.inString then
          miniLexGo fuel sc (i + 1) { st with inString := true, stringChar := char }
        else if char = st.stringChar then
          miniLexGo fuel sc (i + 1) { st with inString := false }
        else miniLexGo fuel sc (i + 1) st
      else if ¬st.inComment ∧ ¬st.inString ∧ char = '/' ∧ prev ≠ some '*' ∧
          (i = 0 ∨ jsRegexContextCh (sc.getD (i - 1) (Char.ofNat 0))) then
        miniLexGo fuel sc (i + 1) { st with inRegex := true }
      else if st.inRegex ∧ char = '/' ∧ prev ≠ some bslashC then
        miniLexGo fuel sc (i + 1) { st with inRegex := false }
      else if ¬st.inString ∧ ¬st.inRegex ∧ ¬st.inComment then
        if char = '/' ∧ next = some '/' then
          let acc2 := if st.textStart < i then
              st.acc ++ [mkText (jsSubstring sc st.textStart i)] else st.acc
          miniLexGo fuel sc (i + 2)
            { st with acc := acc2, inComment := true, ctype := .jsSingleLine,
                      commentStart := i + 2 }
        else if char = '/' ∧ next = some '*' then
          let acc2 := if st.textStart < i then
              st.acc ++ [mkText (jsSubstring sc st.textStart i)] else st.acc
          miniLexGo fuel sc (i + 2)
            { st with acc := acc2, inComment := true, ctype := .jsMultiLine,
                      commentStart := i + 2 }
        else miniLexGo fuel sc (i + 1) st
      else if st.inComment then
        if st.ctype = .jsSingleLine ∧ char = '\n' then
          miniLexGo fuel sc (i + 1)
            { st with acc := st.acc ++ [mkComment (jsSubstring sc st.commentStart i) .jsSingleLine],
                      inComment := false, textStart := i + 1 }
        else if st.ctype = .jsMultiLine ∧ char = '*' ∧ next = some '/' then
          miniLexGo fuel sc (i + 2)
            { st with acc := st.acc ++ [mkComment (jsSubstring sc st.commentStart i) .jsMultiLine],
                      inComment := false, textStart := i + 2 }
        else miniLexGo fuel sc (i + 1) st
      else miniLexGo fuel sc (i + 1) st

/-- The special-tag content lexer over a whole content string. -/
def miniLex (sc : Str) : List PNode :=
  miniLexGo (sc.length + 2) sc 0
    ⟨false, Char.ofNat 0, false, false, .noComment, 0, 0, []⟩

/-- One open frame of the HTML parser: an open tag whose children are still
being collected (the source's mutable "current insertion point" pointer,
viewed as the chain of currently open ancestors). -/
structure Frame where
  name : Str
  attrs : AttrMap
  scriptBlock : Bool
  children : List PNode

/-- Parser state: the stack of open frames (innermost first) and the
accumulated children of the root. -/
structure PState where
  stack : List Frame
  acc : List PNode

/-- Append one finished node at the current insertion point. -/
def pushChild (st : PState) (n : PNode) : PState :=
  match st.stack with
  | [] => { st with acc := st.acc ++ [n] }
  | f :: fs => { st with stack := { f with children := f.children ++ [n] } :: fs }

/-- Materialize a frame as its `tag-open` node (children attached). -/
def frameNode (f : Frame) : PNode :=
  mkOpen f.name f.attrs false f.scriptBlock f.children

/-- Auxiliary fold: materialize `f`, then the frames below it, into the
root's children. -/
def finAux : Frame → List Frame → List PNode → PNode
  | f, [], acc => mkRoot (acc ++ [frameNode f])
  | f, g :: gs, acc => finAux { g with children := g.children ++ [frameNode f] } gs acc

/-- Fold the whole remaining stack into the root (what the eagerly built
source tree already contains at end of input). -/
def finalizeStack : List Frame → List PNode → PNode
  | [], acc => mkRoot acc
  | f :: fs, acc => finAux f fs acc

/-- Pop `n` frames, materializing each into its parent (the source's jump
of the insertion point to the matched ancestor's parent). -/
def popFrames : Nat → PState → PState
  | 0, st => st
  | n + 1, st =>
    match st.stack with
    | [] => st
    | f :: fs => popFrames n (pushChild { st with stack := fs } (frameNode f))

/-- The "bogus non-tag `<`" test of the source on the character after `<`:
a second `<`, a space, or a character that is neither `/`, `!`, nor a valid
tag-name character.  Past the end of input the JS test is false (the regex
sees the string `'undefined'`, which has letters). -/
def nonTagAfter (rest : Str) : Bool :=
  match rest.head? with
  | some c2 => c2 == '<' || c2 == ' ' || (c2 != '/' && c2 != '!' && !isNameChar c2)
  | none => false

/-- One iteration of `SimpleHtmlParser.parse`'s scan loop: consumes a
lexical form and returns the new state and remaining input (`none` at end
of input, where the loop exits).  Branch order follows the source:
comments, bogus `<` runs, opening tags (with style, special-tag and void
handling), closing tags (with the parent-chain match), plain text. -/
def parseStep (special : List Str) (st : PState) (cs : Str) : Option (PState × Str) :=
  match cs with
  | [] => none
  | c :: rest =>
    if c = '<' ∧ lPre (("<!--").data) (c :: rest) then
      match splitOnSub (("-->").data) (c :: rest) with
      | none => some (st, rest)
      | some (pre, post) =>
        some (pushChild st (mkComment (jsSubstring (c :: rest) 4 pre.length) .htmlComment),
              post)
    else if c = '<' ∧ nonTagAfter rest then
      match firstIdxCh '<' rest with
      | none => some (pushChild st (mkText (c :: rest)), [])
      | some i => some (pushChild st (mkText ((c :: rest).take (i + 1))), rest.drop i)
    else if c = '<' ∧ rest.head? ≠ some '/' then
      match firstIdxCh '>' (c :: rest) with
      | none => some (st, rest)
      | some tagEnd =>
        let cs0 := c :: rest
        let tagContent := jsSubstring cs0 1 tagEnd
        let tagName := tagContent.takeWhile (fun ch => !isJsWs ch)
        let attrStr := tagContent.drop tagName.length
        let scanned := attrScanAll attrStr
        let attributes := scanned.foldl (fun m kv => objSet m kv.1 kv.2) []
        let afterTag := cs0.drop (tagEnd + 1)
        match (if tagName = ("style").data then splitOnSub (("</style>").data) cs0
               else none) with
        | some (preC, _) =>
          let cssContent := jsSubstring cs0 (tagEnd + 1) preC.length
          let kids := (cssParse cssContent).children
          let stOpen := pushChild st
            (.node .tagOpen tagName attributes [] .noComment true false [] [] [] [] kids)
          some (pushChild stOpen (mkClose tagName true false), cs0.drop (preC.length + 8))
        | none =>
          let isSpecial := special.contains tagName && scanned.length == 0
          match (if isSpecial then
                   splitOnSub ('<' :: '/' :: tagName ++ ['>']) (cs0.drop tagEnd)
                 else none) with
          | some (preS, _) =>
            let closeTagPos := tagEnd + preS.length
            let scriptContent := jsSubstring cs0 (tagEnd + 1) closeTagPos
            let kids := miniLex scriptContent
            let stOpen := pushChild st
              (.node .tagOpen tagName attributes [] .noComment false true [] [] [] [] kids)
            some (pushChild stOpen (mkClose tagName false true),
                  cs0.drop (closeTagPos + tagName.length + 3))
          | none =>
            if VOID_ELEMS.contains tagName then
              some (pushChild st (mkOpen tagName attributes false isSpecial []), afterTag)
            else
              some ({ st with stack := ⟨tagName, attributes, isSpecial, []⟩ :: st.stack },
                    afterTag)
    else if c = '<' then
      match firstIdxCh '>' (c :: rest) with
      | none => some (st, rest)
      | some tagEnd =>
        let tagName := jsSubstring (c :: rest) 2 tagEnd
        match st.stack.findIdx? (fun f => f.name == tagName) with
        | some i =>
          some (pushChild (popFrames (i + 1) st) (mkClose tagName false false),
                (c :: rest).drop (tagEnd + 1))
        | none =>
          some (pushChild st (mkClose tagName false false), (c :: rest).drop (tagEnd + 1))
    else
      match firstIdxCh '<' (c :: rest) with
      | none => some (pushChild st (mkText (c :: rest)), [])
      | some k => some (pushChild st (mkText ((c :: rest).take k)), (c :: rest).drop k)

/-- The scan loop of `SimpleHtmlParser.parse`, fuelled (every step consumes
at least one character, so `length + 1` steps always reach end of input). -/
def parseLoop (special : List Str) : Nat → PState → Str → PNode
  | 0, st, _ => finalizeStack st.stack st.acc
  | fuel + 1, st, cs =>
    match parseStep special st cs with
    | none => finalizeStack st.stack st.acc
    | some (st2, cs2) => parseLoop special fuel st2 cs2

/-- The source's `SimpleHtmlParser.parse` (pure tree view). -/
def parseHtml (special : List Str) (cs : Str) : PNode :=
  parseLoop special (cs.length + 1) ⟨[], []⟩ cs

/-- The constructor default `specialTags = ['jhp', 's_']`. -/
def defaultSpecialTags : List Str := [("jhp").data, ("s_").data]

/-- Grammar of the round-trip claim's inputs: text runs, HTML comments, and
well-formed already-paired elements. -/
inductive HItem where
  | htext (s : Str)
  | hcomment (s : Str)
  | helem (name : Str) (attrs : List (Str × Option Str)) (body : List HItem)

/-- Canonical attribute rendering: ` name="value"` for valued attributes,
bare ` name` for boolean (sentinel) ones — exactly what the serializer
emits, hence the only attribute syntax that can round-trip. -/
def renderAttrs : List (Str × Option Str) → Str
  | [] => []
  | (k, some v) :: rest => ' ' :: (k ++ '=' :: '"' :: (v ++ ['"'])) ++ renderAttrs rest
  | (k, none) :: rest => (' ' :: k) ++ renderAttrs rest

mutual

/-- Concrete text of one grammar item. -/
def renderItem : HItem → Str
  | .htext s => s
  | .hcomment s => ("<!--").data ++ s ++ ("-->").data
  | .helem n as b =>
    '<' :: (n ++ renderAttrs as ++ ['>']) ++ renderItems b ++ ('<' :: '/' :: (n ++ ['>']))

/-- Concrete text of a sequence of grammar items. -/
def renderItems : List HItem → Str
  | [] => []
  | i :: is => renderItem i ++ renderItems is

end

/-- Key list without duplicates (JS object keys are unique). -/
def nodupKeys : List Str → Bool
  | [] => true
  | k :: rest => !rest.contains k && nodupKeys rest

/-- A well-formed attribute: a nonempty `[\w-]+` name that is not all
digits (so the JS object keeps insertion order for it), and — when valued —
a nonempty value free of `"` and `>` that is not the sentinel literal. -/
def wfAttr : Str × Option Str → Bool
  | (k, v) =>
    k ≠ [] && k.all isNameChar && !(k.all isDigitCh) &&
    (match v with
     | some w => w ≠ [] && w.all (fun c => c ≠ '"' && c ≠ '>') && w ≠ EMPVAL
     | none => true)

/-- A well-formed element name: nonempty, all tag-name characters, and
neither void, nor `style`, nor one of the parser's special tags. -/
def wfTagName (sp : List Str) (n : Str) : Bool :=
  n ≠ [] && n.all isNameChar && !VOID_ELEMS.contains n &&
  n ≠ ("style").data && !sp.contains n

/-- Adjacency constraint: two text runs in a row would be coalesced by the
scanner, so a well-formed sequence never puts them side by side. -/
def adjOk : HItem → List HItem → Bool
  | .htext _, .htext _ :: _ => false
  | _, _ => true

mutual

/-- Well-formedness of one grammar item.  For a comment the condition says
precisely that the first `-->` of its rendering is its own terminator. -/
def wfItem (sp : List Str) : HItem → Bool
  | .htext s => s ≠ [] && !s.contains '<'
  | .hcomment s =>
    splitOnSub (("-->").data) (("<!--").data ++ s ++ ("-->").data) ==
      some ((("<!--").data ++ s : Str), ([] : Str))
  | .helem n as b =>
    wfTagName sp n && as.all wfAttr && nodupKeys (as.map Prod.fst) && wfItems sp b

/-- Well-formedness of a sequence of grammar items. -/
def wfItems (sp : List Str) : List HItem → Bool
  | [] => true
  | i :: rest => wfItem sp i && adjOk i rest && wfItems sp rest

end

/-- Attribute map as the parser stores it: missing values become the
sentinel. -/
def attrsSent : List (Str × Option Str) → AttrMap
  | [] => []
  | (k, some v) :: rest => (k, v) :: attrsSent rest
  | (k, none) :: rest => (k, EMPVAL) :: attrsSent rest

mutual

/-- The nodes the parser produces for one item (an element contributes its
open tag — children attached — and its sibling close tag). -/
def toNodes : HItem → List PNode
  | .htext s => [mkText s]
  | .hcomment s => [mkComment s .htmlComment]
  | .helem n as b =>
    [mkOpen n (attrsSent as) false false (toForest b), mkClose n false false]

/-- The node sequence for an item list. -/
def toForest : List HItem → List PNode
  | [] => []
  | i :: is => toNodes i ++ toForest is

end

/-- Append a list of finished nodes at the insertion point. -/
def pushForest (st : PState) (ns : List PNode) : PState :=
  ns.foldl pushChild st

mutual

/-- Structural size of one item (for the round-trip induction). -/
def itemSize : HItem → Nat
  | .htext _ => 1
  | .hcomment _ => 1
  | .helem _ _ b => 1 + itemsSize b

/-- Structural size of an item list. -/
def itemsSize : List HItem → Nat
  | [] => 0
  | i :: is => itemSize i + itemsSize is

end

/-- A heap node: the `Node` fields with parent and children as node ids
(object references of the source become indices into the heap). -/
structure HNode where
  ntype : NType := .text
  name : Str := []
  attrs : AttrMap := []
  content : Str := []
  ctype : CType := .noComment
  styleBlock : Bool := false
  scriptBlock : Bool := false
  parent : Option Nat := none
  children : List Nat := []
  cssSelector : Str := []
  cssDecls : AttrMap := []
  cssName : Str := []
  cssParams : Str := []
deriving DecidableEq, Repr

/-- The object heap: node ids are indices into the allocation list. -/
structure Heap where
  nodes : List HNode := []
deriving DecidableEq, Repr

/-- Node lookup (any dangling id reads as a default node). -/
def Heap.get (h : Heap) (i : Nat) : HNode := h.nodes.getD i {}

/-- Number of allocated nodes. -/
def Heap.size (h : Heap) : Nat := h.nodes.length

/-- In-place node replacement. -/
def Heap.set (h : Heap) (i : Nat) (n : HNode) : Heap := ⟨h.nodes.set i n⟩

/-- In-place node update. -/
def Heap.upd (h : Heap) (i : Nat) (f : HNode → HNode) : Heap := h.set i (f (h.get i))

/-- Allocation of a fresh node; its id is the previous heap size. -/
def Heap.alloc (h : Heap) (n : HNode) : Heap := ⟨h.nodes ++ [n]⟩

/-- `HNode` image of a pure node's scalar fields. -/
def hnodeOf (pid : Option Nat) : PNode → HNode
  | .node nt nm attrs content ct sb scb sel decls cnm cpar _ =>
    { ntype := nt, name := nm, attrs := attrs, content := content, ctype := ct,
      styleBlock := sb, scriptBlock := scb, parent := pid, children := [],
      cssSelector := sel, cssDecls := decls, cssName := cnm, cssParams := cpar }

mutual

/-- Reify one pure node into the heap.  Ordinary nodes own their children
(every attachment in the source goes through `appendChild`, which sets the
child's `parent` to the owner); a style-flagged `tag-open` reproduces the
source's style branch, where `node.children = cssTree.children` adopts the
CSS parser's nodes *without* reparenting them: the `css-root` node is
allocated, keeps the children ids, and stays their recorded parent. -/
def loadNode (h : Heap) (pid : Option Nat) : PNode → Heap × Nat
  | t@(.node nt _ _ _ _ sb _ _ _ _ _ children) =>
    if nt = .tagOpen ∧ sb = true then
      match loadForest ((h.alloc (hnodeOf pid t)).alloc { ntype := .cssRoot, parent := none })
          (some (h.size + 1)) children with
      | (h3, kidIds) =>
        ((h3.upd (h.size + 1) fun n => { n with children := kidIds }).upd h.size
          (fun n => { n with children := kidIds }), h.size)
    else
      match loadForest (h.alloc (hnodeOf pid t)) (some h.size) children with
      | (h1, kidIds) => (h1.upd h.size fun n => { n with children := kidIds }, h.size)

/-- Reify a list of pure nodes into the heap under one parent. -/
def loadForest (h : Heap) (pid : Option Nat) : List PNode → Heap × List Nat
  | [] => (h, [])
  | t :: ts =>
    match loadNode h pid t with
    | (h1, id) =>
      match loadForest h1 pid ts with
      | (h2, ids) => (h2, id :: ids)

end

/-- `SimpleHtmlParser.parse` at the reference level: the heap of `Node`
objects the parse builds, with the returned root's id. -/
def Heap.parseHtmlRef (special : List Str) (cs : Str) : Heap × Nat :=
  loadNode {} none (parseHtml special cs)

/-- The source's `Node.appendChild(...nodes)`: for each argument, set its
parent to `this` and push it onto `this.children` (no extraction). -/
def Heap.appendChild (h : Heap) (pid : Nat) (cids : List Nat) : Heap :=
  cids.foldl
    (fun hh cid =>
      (hh.upd cid fun n => { n with parent := some pid }).upd pid
        fun p => { p with children := p.children ++ [cid] })
    h

/-- The source's `Node.#findClosingTag(openingTag)`: the immediately
following sibling when it is a `tag-close` of the same name. -/
def Heap.findClosingTag (h : Heap) (oid : Nat) : Option Nat :=
  match (h.get oid).parent with
  | none => none
  | some p =>
    if (h.get oid).ntype ≠ .tagOpen then none
    else
      match (h.get p).children.findIdx? (fun x => x == oid) with
      | none => none
      | some index =>
        match (h.get p).children.get? (index + 1) with
        | some cand =>
          if (h.get cand).ntype = .tagClose ∧ (h.get cand).name = (h.get oid).name then
            some cand
          else none
        | none => none

/-- Result record of `Node.#extractNode` (`startIndex = none` models the
JS `-1`). -/
structure Extracted where
  opening : Nat
  closing : Option Nat
  whitespace : Option Nat
  removedCount : Nat
  startIndex : Option Nat
deriving DecidableEq, Repr

/-- The source's `Node.#extractNode(node)`: detaches the node from its
parent, carrying its closing tag (found before the splice) and a
whitespace-only text node immediately before it; clears the parent
reference of everything it detached. -/
def Heap.extractNode (h : Heap) (nid : Nat) : Heap × Extracted :=
  match (h.get nid).parent with
  | none => (h, ⟨nid, none, none, 0, none⟩)
  | some parentRef =>
    match (h.get parentRef).children.findIdx? (fun x => x == nid) with
    | none => (h, ⟨nid, none, none, 0, none⟩)
    | some index =>
      let kids := (h.get parentRef).children
      let whitespace : Option Nat :=
        if 0 < index then
          match kids.get? (index - 1) with
          | some prevN =>
            if (h.get prevN).ntype = .text ∧ jsTrim (h.get prevN).content = [] then
              some prevN
            else none
          | none => none
        else none
      let startIndex := if whitespace.isSome then index - 1 else index
      let closing := if (h.get nid).ntype = .tagOpen then h.findClosingTag nid else none
      let removedCount :=
        (if whitespace.isSome then 2 else 1) + (if closing.isSome then 1 else 0)
      let h2 := h.upd parentRef fun p =>
        { p with children := jsSplice p.children startIndex removedCount }
      let h3 := h2.upd nid fun n => { n with parent := none }
      let h4 := match closing with
        | some c => h3.upd c fun n => { n with parent := none }
        | none => h3
      let h5 := match whitespace with
        | some w => h4.upd w fun n => { n with parent := none }
        | none => h4
      (h5, ⟨nid, closing, whitespace, removedCount, some startIndex⟩)

/-- The source's `Node.remove()`: an opening tag whose next sibling is its
exact close (or a closing tag whose previous sibling is its exact open) is
removed together with it in one splice; otherwise only the node itself;
`this.parent` is then cleared. -/
def Heap.remove (h : Heap) (nid : Nat) : Heap :=
  match (h.get nid).parent with
  | none => h
  | some p =>
    match (h.get p).children.findIdx? (fun x => x == nid) with
    | none => h
    | some index =>
      let c := (h.get p).children
      if (h.get nid).ntype = .tagOpen ∧ index + 1 < c.length ∧
         (h.get (c.getD (index + 1) 0)).ntype = .tagClose ∧
         (h.get (c.getD (index + 1) 0)).name = (h.get nid).name then
        (h.upd p fun q => { q with children := jsSplice q.children index 2 }).upd nid
          fun n => { n with parent := none }
      else if (h.get nid).ntype = .tagClose ∧ 0 < index ∧
         (h.get (c.getD (index - 1) 0)).ntype = .tagOpen ∧
         (h.get (c.getD (index - 1) 0)).name = (h.get nid).name then
        (h.upd p fun q => { q with children := jsSplice q.children (index - 1) 2 }).upd nid
          fun n => { n with parent := none }
      else
        (h.upd p fun q => { q with children := jsSplice q.children index 1 }).upd nid
          fun n => { n with parent := none }

/-- The source's `Node.#getAllDescendants(node)` (pre-order collection;
fuelled against corrupt heaps, `size + 1` covers every wellformed tree). -/
def Heap.descendants (h : Heap) : Nat → Nat → List Nat
  | 0, _ => []
  | fuel + 1, nid =>
    (h.get nid).children.foldl (fun acc c => acc ++ [c] ++ Heap.descendants h fuel c) []

/-- JS `splice(i, 0, x)` with the signed-index semantics of the language
(negative indices count from the end, both ends clamped). -/
def jsInsertAt (l : List α) (i : Int) (a : α) : List α :=
  let n : Nat := if i < 0 then (max (Int.ofNat l.length + i) 0).toNat
                 else min i.toNat l.length
  l.take n ++ a :: l.drop n

/-- Per-argument body of the `insertBefore`/`insertAfter` loops: extract an
already-parented argument (adjusting the insertion index when the
extraction happened in the same parent before the insertion point), then
splice in leading whitespace, the node, and its closing tag.  A `TypeError`
models the source crashing on a null `targetNode.parent` dereference. -/
def Heap.insertNodesAt (h : Heap) (targetId : Nat) (insertIndex : Int) :
    List Nat → Except Str Heap
  | [] => .ok h
  | nid :: restNodes =>
    let step :
        (Heap × Option Nat × Option Nat × Int) :=
      match (h.get nid).parent with
      | some _ =>
        let isSameParent := (h.get nid).parent == (h.get targetId).parent
        let ex := h.extractNode nid
        let idx2 :=
          if isSameParent ∧ ex.2.startIndex.isSome ∧
             Int.ofNat (ex.2.startIndex.getD 0) < insertIndex then
            insertIndex - Int.ofNat ex.2.removedCount
          else insertIndex
        (ex.1, ex.2.closing, ex.2.whitespace, idx2)
      | none => (h, none, none, insertIndex)
    let h1 := step.1
    let closingTag := step.2.1
    let whitespace := step.2.2.1
    let idx := step.2.2.2
    match (h1.get targetId).parent with
    | none => .error ("TypeError: parent is null").data
    | some tp =>
      let r1 :=
        match whitespace with
        | some w =>
          (((h1.upd w fun n => { n with parent := some tp }).upd tp
             fun p => { p with children := jsInsertAt p.children idx w }), idx + 1)
        | none => (h1, idx)
      match (r1.1.get targetId).parent with
      | none => .error ("TypeError: parent is null").data
      | some tp2 =>
        let h2 := (r1.1.upd nid fun n => { n with parent := some tp2 }).upd tp2
          fun p => { p with children := jsInsertAt p.children r1.2 nid }
        let idx3 := r1.2 + 1
        match closingTag with
        | some ct =>
          match (h2.get targetId).parent with
          | none => .error ("TypeError: parent is null").data
          | some tp3 =>
            let h3 := (h2.upd ct fun n => { n with parent := some tp3 }).upd tp3
              fun p => { p with children := jsInsertAt p.children idx3 ct }
            Heap.insertNodesAt h3 targetId (idx3 + 1) restNodes
        | none => Heap.insertNodesAt h2 targetId idx3 restNodes

/-- The source's `Node.insertAfter(...nodes)`: fails fast without a parent;
a non-void `tag-open` anchors after its closing tag; each argument is
extracted first when already in the tree. -/
def Heap.insertAfter (h : Heap) (selfId : Nat) (nids : List Nat) : Except Str Heap :=
  match (h.get selfId).parent with
  | none => .error ("Cannot insert after a node with no parent").data
  | some _ =>
    let targetId :=
      if (h.get selfId).ntype = .tagOpen ∧ ¬VOID_ELEMS.contains (h.get selfId).name then
        match h.findClosingTag selfId with
        | some c => c
        | none => selfId
      else selfId
    match (h.get targetId).parent with
    | none => .error ("TypeError: parent is null").data
    | some tp =>
      match (h.get tp).children.findIdx? (fun x => x == targetId) with
      | none => .error ("Node not found in parents children").data
      | some i0 => h.insertNodesAt targetId (Int.ofNat (i0 + 1)) nids

/-- The source's `Node.insertBefore(...nodes)`: fails fast without a
parent; a `tag-close` whose previous sibling is its exact open redirects
the anchor to that opening tag. -/
def Heap.insertBefore (h : Heap) (selfId : Nat) (nids : List Nat) : Except Str Heap :=
  match (h.get selfId).parent with
  | none => .error ("Cannot insert before a node with no parent").data
  | some sp0 =>
    let redirected : Except Str Nat :=
      if (h.get selfId).ntype = .tagClose then
        match (h.get sp0).children.findIdx? (fun x => x == selfId) with
        | none => .error ("Node not found in parents children").data
        | some closeIndex =>
          if 0 < closeIndex then
            match (h.get sp0).children.get? (closeIndex - 1) with
            | some cand =>
              if (h.get cand).ntype = .tagOpen ∧ (h.get cand).name = (h.get selfId).name then
                .ok cand
              else .ok selfId
            | none => .ok selfId
          else .ok selfId
      else .ok selfId
    match redirected with
    | .error e => .error e
    | .ok targetId =>
      match (h.get targetId).parent with
      | none => .error ("TypeError: parent is null").data
      | some tp =>
        match (h.get tp).children.findIdx? (fun x => x == targetId) with
        | none => .error ("Node not found in parents children").data
        | some i0 => h.insertNodesAt targetId (Int.ofNat i0) nids

/-- One extraction record of `replaceWith`'s replacement loop. -/
structure RWExtract where
  opening : Nat
  closing : Option Nat
  whitespace : Option Nat
deriving DecidableEq, Repr

/-- The extraction pass of `replaceWith`: every replacement argument that
is still in the tree is extracted (with closing tag and leading
whitespace) before the bulk deletion. -/
def Heap.extractAll (h : Heap) : List Nat → Heap × List RWExtract
  | [] => (h, [])
  | nid :: rest =>
    let step :=
      match (h.get nid).parent with
      | some _ =>
        let ex := h.extractNode nid
        (ex.1, (⟨nid, ex.2.closing, ex.2.whitespace⟩ : RWExtract))
      | none => (h, (⟨nid, none, none⟩ : RWExtract))
    let r := Heap.extractAll step.1 rest
    (r.1, step.2 :: r.2)

/-- The insertion pass of `replaceWith`: whitespace, opening, closing of
each extracted record spliced back at the advancing index. -/
def Heap.insertExtracted (h : Heap) (parent : Nat) (idx : Nat) :
    List RWExtract → Heap
  | [] => h
  | ex :: rest =>
    let r1 :=
      match ex.whitespace with
      | some w =>
        (((h.upd w fun n => { n with parent := some parent }).upd parent
           fun p => { p with children := insertAt p.children idx w }), idx + 1)
      | none => (h, idx)
    let h2 := (r1.1.upd ex.opening fun n => { n with parent := some parent }).upd parent
      fun p => { p with children := insertAt p.children r1.2 ex.opening }
    let i2 := r1.2 + 1
    match ex.closing with
    | some ct =>
      let h3 := (h2.upd ct fun n => { n with parent := some parent }).upd parent
        fun p => { p with children := insertAt p.children i2 ct }
      Heap.insertExtracted h3 parent (i2 + 1) rest
    | none => Heap.insertExtracted h2 parent i2 rest

/-- The source's `Node.replaceWith(...newNodes)`: fails fast without a
parent; for a `tag-open` deletes the pair and every descendant; the
replacement arguments are extracted *before* the deletion splice; finally
the parent reference of everything deleted is cleared (including, as in
the source, any replacement node that was itself among the descendants). -/
def Heap.replaceWith (h : Heap) (selfId : Nat) (nids : List Nat) : Except Str Heap :=
  match (h.get selfId).parent with
  | none => .error ("Cannot replace a node with no parent").data
  | some parent =>
    match (h.get parent).children.findIdx? (fun x => x == selfId) with
    | none => .error ("Node not found in parents children").data
    | some index =>
      let closingTag :=
        if (h.get selfId).ntype = .tagOpen then h.findClosingTag selfId else none
      let deleteCount := if closingTag.isSome then 2 else 1
      let descs :=
        if (h.get selfId).ntype = .tagOpen then h.descendants (h.size + 1) selfId else []
      let nodesToDelete :=
        [selfId] ++ (match closingTag with | some c => [c] | none => []) ++ descs
      let exAll := h.extractAll nids
      let h3 := exAll.1.upd parent fun p =>
        { p with children := jsSplice p.children index deleteCount }
      let h4 := h3.insertExtracted parent index exAll.2
      .ok (nodesToDelete.foldl (fun hh n => hh.upd n fun x => { x with parent := none }) h4)

/-- The source's `Node.getAttribute(name)`. -/
def Heap.getAttribute (h : Heap) (nid : Nat) (name : Str) : Option Str :=
  objGet (h.get nid).attrs name

/-- The source's `Node.setAttribute(name, value)`. -/
def Heap.setAttribute (h : Heap) (nid : Nat) (name value : Str) : Heap :=
  h.upd nid fun n => { n with attrs := objSet n.attrs name value }

mutual

/-- The source's `Node.toHtml(showComments)` over the heap (fuelled: every
recursive call burns one unit, so `2 * size + 4` units cover any tree). -/
def Heap.toHtmlF (h : Heap) (sc : Bool) : Nat → Nat → Str
  | 0, _ => []
  | fuel + 1, nid =>
    let n := h.get nid
    if n.ntype = .text then n.content
    else if n.ntype = .comment then
      if sc = false then []
      else
        let ctEff := if n.ctype = .noComment then CType.htmlComment else n.ctype
        if ctEff = .jsSingleLine then '/' :: '/' :: n.content
        else if ctEff = .jsMultiLine then '/' :: '*' :: n.content ++ ('*' :: '/' :: [])
        else ("<!--").data ++ n.content ++ ("-->").data
    else if n.ntype = .tagOpen then
      '<' :: (n.name ++ getNodeAttributesString n.attrs ++ ['>']) ++
      (if n.styleBlock = true ∧ n.children.length > 0 then
        '\n' :: Heap.cssTreeToStringF h fuel 0 n.children
       else Heap.toHtmlListF h sc fuel n.children)
    else if n.ntype = .tagClose then '<' :: '/' :: n.name ++ ['>']
    else Heap.toHtmlListF h sc fuel n.children

/-- Children concatenation of the heap `toHtml`. -/
def Heap.toHtmlListF (h : Heap) (sc : Bool) : Nat → List Nat → Str
  | 0, _ => []
  | _ + 1, [] => []
  | fuel + 1, c :: cs => Heap.toHtmlF h sc fuel c ++ Heap.toHtmlListF h sc fuel cs

/-- The source's `#cssTreeToString` over the heap. -/
def Heap.cssTreeToStringF (h : Heap) : Nat → Nat → List Nat → Str
  | 0, _, _ => []
  | _ + 1, _, [] => []
  | fuel + 1, indent, nid :: rest =>
    let n := h.get nid
    let spaces := cssSpaces indent
    (if n.ntype = .comment ∧ n.ctype = .cssComment then
      spaces ++ ("/* ").data ++ n.content ++ (" */").data ++ ['\n']
    else if n.ntype = .cssRule then
      spaces ++ n.cssSelector ++ (' ' :: '\x7b' :: '\n' :: []) ++
      cssDeclsToString spaces n.cssDecls ++
      (if n.children.length > 0 then Heap.cssTreeToStringF h fuel (indent + 1) n.children
       else []) ++
      spaces ++ ('\x7d' :: '\n' :: [])
    else if n.ntype = .cssAtRule then
      spaces ++ '@' :: n.cssName ++
      (if n.cssParams ≠ [] then ' ' :: n.cssParams else []) ++
      (if n.cssName = ("import").data ∨ n.cssName = ("charset").data ∨
          n.cssName = ("namespace").data then (';' :: '\n' :: [])
       else (' ' :: '\x7b' :: '\n' :: []) ++
            (if n.children.length > 0 then
              Heap.cssTreeToStringF h fuel (indent + 1) n.children
             else []) ++
            spaces ++ ('\x7d' :: '\n' :: []))
    else if n.ntype = .cssRoot then
      Heap.cssTreeToStringF h fuel indent n.children
    else []) ++ Heap.cssTreeToStringF h fuel indent rest

end

/-- Heap serialization with the standard fuel. -/
def Heap.toHtml (h : Heap) (sc : Bool) (nid : Nat) : Str :=
  Heap.toHtmlF h sc (2 * h.size + 4) nid

mutual

/-- Fast decidable equality on pure nodes (field-wise). -/
def pnodeBEq : PNode → PNode → Bool
  | .node t1 n1 a1 c1 ct1 sb1 scb1 sel1 d1 cn1 cp1 ch1,
    .node t2 n2 a2 c2 ct2 sb2 scb2 sel2 d2 cn2 cp2 ch2 =>
    t1 == t2 && n1 == n2 && a1 == a2 && c1 == c2 && ct1 == ct2 && sb1 == sb2 &&
    scb1 == scb2 && sel1 == sel2 && d1 == d2 && cn1 == cn2 && cp1 == cp2 &&
    pforestBEq ch1 ch2

/-- Fast decidable equality on pure node lists. -/
def pforestBEq : List PNode → List PNode → Bool
  | [], [] => true
  | x :: xs, y :: ys => pnodeBEq x y && pforestBEq xs ys
  | _, _ => false

end

/-- The source's `Node.#findRoot()`: walk the parent chain to the top. -/
def Heap.findRoot (h : Heap) : Nat → Nat → Nat
  | 0, nid => nid
  | fuel + 1, nid =>
    match (h.get nid).parent with
    | none => nid
    | some p => Heap.findRoot h fuel p

/-- Breadth-first queue traversal collecting ids that satisfy a predicate,
pushing every node's children (the queue loop shared by the find/query
operations of the source). -/
def Heap.bfsCollect (h : Heap) : Nat → List Nat → (Nat → Bool) → List Nat → List Nat
  | 0, _, _, acc => acc
  | fuel + 1, queue, p, acc =>
    match queue with
    | [] => acc
    | nid :: restQ =>
      Heap.bfsCollect h fuel (restQ ++ (h.get nid).children) p
        (if p nid then acc ++ [nid] else acc)

/-- Queue fuel that covers every heap whose reachability graph is a forest. -/
def Heap.bfsFuel (h : Heap) : Nat := (h.size + 2) * (h.size + 2)

/-- The `#id` part of `REGEX.querySelectorParts` at the current position. -/
def qspIdPart (cs : Str) : Str × Str :=
  match cs with
  | '#' :: rest =>
    let run := rest.takeWhile isNameChar
    if run = [] then ([], cs) else ('#' :: run, rest.drop run.length)
  | _ => ([], cs)

/-- The `(\.[a-zA-Z0-9\-_]+)*` part at the current position. -/
def qspClassParts : Nat → Str → Str × Str
  | 0, cs => ([], cs)
  | fuel + 1, cs =>
    match cs with
    | '.' :: rest =>
      let run := rest.takeWhile isNameChar
      if run = [] then ([], cs)
      else
        let r := qspClassParts fuel (rest.drop run.length)
        ('.' :: run ++ r.1, r.2)
    | _ => ([], cs)

/-- The `(\[[^\]]+\])*` part at the current position. -/
def qspAttrParts : Nat → Str → Str × Str
  | 0, cs => ([], cs)
  | fuel + 1, cs =>
    match cs with
    | '[' :: rest =>
      let run := rest.takeWhile (fun c => c ≠ ']')
      if run = [] then ([], cs)
      else
        match rest.drop run.length with
        | ']' :: after =>
          let r := qspAttrParts fuel after
          ('[' :: run ++ ']' :: r.1, r.2)
        | _ => ([], cs)
    | _ => ([], cs)

/-- One (possibly empty) match of `REGEX.querySelectorParts` at the current
position: optional tag, optional `#id`, classes, attribute selectors. -/
def qspMatchAt (cs : Str) : Str × Str :=
  let tag := cs.takeWhile isNameChar
  let r1 := qspIdPart (cs.drop tag.length)
  let r2 := qspClassParts (r1.2.length + 1) r1.2
  let r3 := qspAttrParts (r2.2.length + 1) r2.2
  (tag ++ r1.1 ++ r2.1 ++ r3.1, r3.2)

/-- `selector.match(REGEX.querySelectorParts)?.filter(Boolean)?.join('')`:
the concatenation of all nonempty global matches (a zero-length match
advances the scan by one character). -/
def jsMatchQSPjoin : Nat → Str → Str
  | 0, _ => []
  | _ + 1, [] => []
  | fuel + 1, c :: rest =>
    match qspMatchAt (c :: rest) with
    | ([], _) => jsMatchQSPjoin fuel rest
    | (m, after) => m ++ jsMatchQSPjoin fuel after

/-- `REGEX.queryTagMatch` (`/^[a-zA-Z0-9\-_]+/`). -/
def queryTagMatch (cs : Str) : Option Str :=
  let r := cs.takeWhile isNameChar
  if r = [] then none else some r

/-- First match of `REGEX.queryIdMatch` (`/#([a-zA-Z0-9\-_]+)/`), captured
group only. -/
def queryIdMatch : Str → Option Str
  | [] => none
  | '#' :: rest =>
    let run := rest.takeWhile isNameChar
    if run = [] then queryIdMatch rest else some run
  | _ :: rest => queryIdMatch rest

/-- All matches of `REGEX.queryClassMatches` (captured groups; the source
strips the leading dot from each full match). -/
def queryClassMatchesAll : Nat → Str → List Str
  | 0, _ => []
  | _ + 1, [] => []
  | fuel + 1, '.' :: rest =>
    let run := rest.takeWhile isNameChar
    if run = [] then queryClassMatchesAll fuel rest
    else run :: queryClassMatchesAll fuel (rest.drop run.length)
  | fuel + 1, _ :: rest => queryClassMatchesAll fuel rest

/-- All matches of `REGEX.queryAttributeMatches` (`/\[([^\]]+)\]/g`),
contents only (the source slices away the brackets). -/
def queryAttrMatchesAll : Nat → Str → List Str
  | 0, _ => []
  | _ + 1, [] => []
  | fuel + 1, '[' :: rest =>
    let run := rest.takeWhile (fun c => c ≠ ']')
    if run ≠ [] ∧ (rest.drop run.length).head? = some ']' then
      run :: queryAttrMatchesAll fuel (rest.drop (run.length + 1))
    else queryAttrMatchesAll fuel rest
  | fuel + 1, _ :: rest => queryAttrMatchesAll fuel rest

/-- `rawValue.replace(REGEX.rawValue, '$1')`: strip one leading and one
trailing quote character when both are present. -/
def rawValueStrip (cs : Str) : Str :=
  match cs with
  | c :: rest =>
    if (c = '"' ∨ c = squoteC) ∧ rest ≠ [] ∧
       (rest.getLast? = some '"' ∨ rest.getLast? = some squoteC) then
      rest.dropLast
    else cs
  | [] => cs

/-- One parsed `[attr]` / `[attr=value]` selector. -/
structure AttrSel where
  name : Str
  value : Str
  hasValue : Bool
deriving DecidableEq, Repr

/-- Attribute-selector parsing of `#executeBasicSelector` (`split('=')`
takes the first two fields; quoted values are unquoted). -/
def parseAttrSels (ms : List Str) : List AttrSel :=
  ms.map fun content =>
    if content.contains '=' then
      let parts := jsSplitCh '=' content
      ⟨parts.getD 0 [], rawValueStrip (parts.getD 1 []), true⟩
    else ⟨content, [], false⟩

/-- The per-node match test of `#executeBasicSelector`'s queue loop
(the caller restricts to `tag-open` nodes). -/
def Heap.nodeMatches (h : Heap) (nid : Nat) (tagName : Option Str) (idSel : Option Str)
    (classes : List Str) (attrSels : List AttrSel) : Bool :=
  (match tagName with
   | some t => (h.get nid).name == t
   | none => true) &&
  (match idSel with
   | some i => h.getAttribute nid (("id").data) == some i
   | none => true) &&
  (classes.all fun cls =>
    (jsSplitWs ((h.getAttribute nid (("class").data)).getD [])).contains cls) &&
  (attrSels.all fun a =>
    if a.hasValue then h.getAttribute nid a.name == some a.value
    else (h.getAttribute nid a.name).isSome)

/-- Join with single spaces (`parts.slice(1).join(' ')`). -/
def joinSpace : List Str → Str
  | [] => []
  | [x] => x
  | x :: rest => x ++ ' ' :: joinSpace rest

/-- The source's `Node.#executeBasicSelector(selector)`: descendant
selectors split on whitespace and recurse (first component from `this`,
remainder from each ancestor match, de-duplicated); simple selectors parse
the tag/id/class/attribute pieces and breadth-first-scan the subtree. -/
def Heap.executeBasicSelector (h : Heap) : Nat → Nat → Str → List Nat
  | 0, _, _ => []
  | fr + 1, selfId, selector =>
    if selector.contains ' ' then
      let parts := jsSplitWs selector
      let ancestors := Heap.executeBasicSelector h fr selfId (parts.getD 0 [])
      let descendantSelector := joinSpace (parts.drop 1)
      ancestors.foldl
        (fun results ancestor =>
          (Heap.executeBasicSelector h fr ancestor descendantSelector).foldl
            (fun rs d => if rs.contains d then rs else rs ++ [d]) results)
        []
    else
      let selectorParts := jsMatchQSPjoin (selector.length + 1) selector
      let tagName := queryTagMatch selectorParts
      let idSel := queryIdMatch selectorParts
      let classes := queryClassMatchesAll (selectorParts.length + 1) selectorParts
      let attrSels := parseAttrSels (queryAttrMatchesAll (selectorParts.length + 1) selectorParts)
      h.bfsCollect h.bfsFuel [selfId]
        (fun nid => (h.get nid).ntype == .tagOpen &&
          h.nodeMatches nid tagName idSel classes attrSels)
        []

/-- The global `:not(...)` extraction of `#findMatchingNodes`
(`selector.replace(REGEX.notSelector, ...)`): collects each inner selector
(trimmed) and removes the `:not(...)` text. -/
def notExtract : Nat → Str → List Str × Str
  | 0, cs => ([], cs)
  | _ + 1, [] => ([], [])
  | fuel + 1, c :: rest =>
    if lPre ((":not(").data) (c :: rest) then
      let inner := ((c :: rest).drop 5).takeWhile (fun ch => ch ≠ ')')
      let after := (c :: rest).drop (5 + inner.length)
      if inner ≠ [] ∧ after.head? = some ')' then
        let r := notExtract fuel (after.drop 1)
        (jsTrim inner :: r.1, r.2)
      else
        let r := notExtract fuel rest
        (r.1, c :: r.2)
    else
      let r := notExtract fuel rest
      (r.1, c :: r.2)

/-- The source's `Node.#findMatchingNodes(selector)`: candidates from the
main selector (all `tag-open` nodes when only `:not()` remains), then
tree-global subtraction — each `:not` inner selector is evaluated from
`#findRoot()` (the top of the parent chain), not from `this`. -/
def Heap.findMatchingNodes (h : Heap) (selfId : Nat) (selector : Str) : List Nat :=
  let ex := notExtract (selector.length + 1) selector
  let notSelectors := ex.1
  let mainSelector := jsTrim ex.2
  let candidateNodes :=
    if mainSelector = [] then
      h.bfsCollect h.bfsFuel [selfId] (fun nid => (h.get nid).ntype == .tagOpen) []
    else h.executeBasicSelector (mainSelector.length + 1) selfId mainSelector
  candidateNodes.foldl
    (fun results nid =>
      if notSelectors.all (fun ns =>
          !(h.executeBasicSelector (ns.length + 1) (h.findRoot (h.size + 1) selfId) ns).contains
            nid) then
        results ++ [nid]
      else results)
    []

/-- The source's `Node.querySelectorAll(selector)`: comma-separated
selector lists union their matches, de-duplicated by identity. -/
def Heap.querySelectorAll (h : Heap) (selfId : Nat) (selector : Str) : List Nat :=
  if selector.contains ',' then
    (jsSplitCh ',' selector).map jsTrim |>.foldl
      (fun results s =>
        (h.findMatchingNodes selfId s).foldl
          (fun rs r => if rs.contains r then rs else rs ++ [r]) results)
      []
  else h.findMatchingNodes selfId selector

/-- The source's `Node.querySelector(selector)`. -/
def Heap.querySelector (h : Heap) (selfId : Nat) (selector : Str) : Option Nat :=
  (h.querySelectorAll selfId selector).head?

/-- The replaceWith-descendant example input of the specification. -/
def c3input : Str :=
  ("<div id=\"outer\"><div id=\"middle\"><div id=\"inner\"><p>Keep</p></div></div></div>").data

/-- The tree `parse` builds for `c3input` (checked against `parseHtml` in
the C3 theorem). -/
def c3tree : PNode :=
  mkRoot [mkOpen ("div").data [(("id").data, ("outer").data)] false false
    [mkOpen ("div").data [(("id").data, ("middle").data)] false false
      [mkOpen ("div").data [(("id").data, ("inner").data)] false false
        [mkOpen ("p").data [] false false [mkText ("Keep").data],
         mkClose ("p").data false false],
       mkClose ("div").data false false],
     mkClose ("div").data false false],
   mkClose ("div").data false false]

/-- The heap of `Node` objects for `c3input` (root id 0). -/
def c3heap0 : Heap := ⟨[
  { ntype := .root, children := [1, 9] },
  { ntype := .tagOpen, name := ("div").data, attrs := [(("id").data, ("outer").data)],
    parent := some 0, children := [2, 8] },
  { ntype := .tagOpen, name := ("div").data, attrs := [(("id").data, ("middle").data)],
    parent := some 1, children := [3, 7] },
  { ntype := .tagOpen, name := ("div").data, attrs := [(("id").data, ("inner").data)],
    parent := some 2, children := [4, 6] },
  { ntype := .tagOpen, name := ("p").data, parent := some 3, children := [5] },
  { ntype := .text, content := ("Keep").data, parent := some 4 },
  { ntype := .tagClose, name := ("p").data, parent := some 3 },
  { ntype := .tagClose, name := ("div").data, parent := some 2 },
  { ntype := .tagClose, name := ("div").data, parent := some 1 },
  { ntype := .tagClose, name := ("div").data, parent := some 0 }]⟩

/-- The heap after `outer.replaceWith(inner)`: the root holds exactly the
`inner` pair; `outer`, `middle` and the deleted pair/descendants are
detached (the source also nulls `inner`'s own parent, a side effect of the
deletion loop that does not affect serialization from the root). -/
def c3heap1 : Heap := ⟨[
  { ntype := .root, children := [3, 7] },
  { ntype := .tagOpen, name := ("div").data, attrs := [(("id").data, ("outer").data)],
    children := [2, 8] },
  { ntype := .tagOpen, name := ("div").data, attrs := [(("id").data, ("middle").data)] },
  { ntype := .tagOpen, name := ("div").data, attrs := [(("id").data, ("inner").data)],
    children := [4, 6] },
  { ntype := .tagOpen, name := ("p").data, children := [5] },
  { ntype := .text, content := ("Keep").data },
  { ntype := .tagClose, name := ("p").data },
  { ntype := .tagClose, name := ("div").data },
  { ntype := .tagClose, name := ("div").data },
  { ntype := .tagClose, name := ("div").data }]⟩

/-- The `:not()` example input of the specification. -/
def c6input : Str := ("<div><p class=\"a\">1</p><p class=\"b\">2</p></div>").data

/-- The tree `parse` builds for `c6input`. -/
def c6tree : PNode :=
  mkRoot [mkOpen ("div").data [] false false
    [mkOpen ("p").data [(("class").data, ("a").data)] false false [mkText ("1").data],
     mkClose ("p").data false false,
     mkOpen ("p").data [(("class").data, ("b").data)] false false [mkText ("2").data],
     mkClose ("p").data false false],
   mkClose ("div").data false false]

/-- The heap of `Node` objects for `c6input` (root id 0; the first `p` is
node 2, the second node 5). -/
def c6heap : Heap := ⟨[
  { ntype := .root, children := [1, 8] },
  { ntype := .tagOpen, name := ("div").data, parent := some 0, children := [2, 4, 5, 7] },
  { ntype := .tagOpen, name := ("p").data, attrs := [(("class").data, ("a").data)],
    parent := some 1, children := [3] },
  { ntype := .text, content := ("1").data, parent := some 2 },
  { ntype := .tagClose, name := ("p").data, parent := some 1 },
  { ntype := .tagOpen, name := ("p").data, attrs := [(("class").data, ("b").data)],
    parent := some 1, children := [6] },
  { ntype := .text, content := ("2").data, parent := some 5 },
  { ntype := .tagClose, name := ("p").data, parent := some 1 },
  { ntype := .tagClose, name := ("div").data, parent := some 0 }]⟩

/-- A minimal style input for the parent-coherence counterexample. -/
def c5input : Str := ("<style>a\x7bb:c\x7d</style>").data

/-- The tree `parse` builds for `c5input`: the style `tag-open` carries the
CSS rule as its child. -/
def c5tree : PNode :=
  .node .tagOpen ("style").data [] [] .noComment true false [] [] [] []
    [mkCssRule ("a").data [(("b").data, ("c").data)] []]

/-- The heap for `c5input`: node 1 (the style tag) lists node 3 as its
child, but node 3's recorded parent is node 2 — the abandoned `css-root`. -/
def c5heap : Heap := ⟨[
  { ntype := .root, children := [1, 4] },
  { ntype := .tagOpen, name := ("style").data, styleBlock := true, parent := some 0,
    children := [3] },
  { ntype := .cssRoot, children := [3] },
  { ntype := .cssRule, name := ("a").data, parent := some 2, cssSelector := ("a").data,
    cssDecls := [(("b").data, ("c").data)] },
  { ntype := .tagClose, name := ("style").data, styleBlock := true, parent := some 0 }]⟩

/-- Input for the remove-pair example. -/
def c4input : Str := ("<div><p>Remove me</p></div>").data

/-- The tree `parse` builds for `c4input`. -/
def c4tree : PNode :=
  mkRoot [mkOpen ("div").data [] false false
    [mkOpen ("p").data [] false false [mkText ("Remove me").data],
     mkClose ("p").data false false],
   mkClose ("div").data false false]

/-- The heap for `c4input` (p open = 2, p close = 4, div open = 1). -/
def c4heap0 : Heap := ⟨[
  { ntype := .root, children := [1, 5] },
  { ntype := .tagOpen, name := ("div").data, parent := some 0, children := [2, 4] },
  { ntype := .tagOpen, name := ("p").data, parent := some 1, children := [3] },
  { ntype := .text, content := ("Remove me").data, parent := some 2 },
  { ntype := .tagClose, name := ("p").data, parent := some 1 },
  { ntype := .tagClose, name := ("div").data, parent := some 0 }]⟩

/-- The heap after `p.remove()`: both pair nodes left the `div`'s children
in one splice and node 2's parent is cleared — but node 4 (the detached
closing tag) still records `parent := some 1`. -/
def c4heap1 : Heap := ⟨[
  { ntype := .root, children := [1, 5] },
  { ntype := .tagOpen, name := ("div").data, parent := some 0 },
  { ntype := .tagOpen, name := ("p").data, children := [3] },
  { ntype := .text, content := ("Remove me").data, parent := some 2 },
  { ntype := .tagClose, name := ("p").data, parent := some 1 },
  { ntype := .tagClose, name := ("div").data, parent := some 0 }]⟩

/-- Input for the appendChild no-op-move example: the text node is already
the element's last child. -/
def c2input : Str := ("<div>Hi</div>").data

/-- The tree `parse` builds for `c2input`. -/
def c2tree : PNode :=
  mkRoot [mkOpen ("div").data [] false false [mkText ("Hi").data],
   mkClose ("div").data false false]

/-- The heap for `c2input` (div = 1, text = 2). -/
def c2heap0 : Heap := ⟨[
  { ntype := .root, children := [1, 3] },
  { ntype := .tagOpen, name := ("div").data, parent := some 0, children := [2] },
  { ntype := .text, content := ("Hi").data, parent := some 1 },
  { ntype := .tagClose, name := ("div").data, parent := some 0 }]⟩

/-- The heap after `div.appendChild(text)`: the text node now appears twice
in the `div`'s children. -/
def c2heap1 : Heap := ⟨[
  { ntype := .root, children := [1, 3] },
  { ntype := .tagOpen, name := ("div").data, parent := some 0, children := [2, 2] },
  { ntype := .text, content := ("Hi").data, parent := some 1 },
  { ntype := .tagClose, name := ("div").data, parent := some 0 }]⟩

/-- Occurrence count of an id in a full pre-order traversal from a node
(the node itself plus its descendants). -/
def Heap.countOccurrences (h : Heap) (root target : Nat) : Nat :=
  (root :: h.descendants (h.size + 1) root).foldl
    (fun acc n => if n = target then acc + 1 else acc) 0

mutual

/-- Number of nodes of a given type in a pure tree (counterpart of the
source's `getNodesByType(...).length`). -/
def countType (t : NType) : PNode → Nat
  | .node nt _ _ _ _ _ _ _ _ _ _ children =>
    (if nt = t then 1 else 0) + countTypeList t children

/-- Number of nodes of a given type in a forest. -/
def countTypeList (t : NType) : List PNode → Nat
  | [] => 0
  | c :: cs => countType t c + countTypeList t cs

end

mutual

/-- Soundness of the fast node comparison. -/
theorem pnodeBEq_eq : ∀ {a b : PNode}, pnodeBEq a b = true → a = b
  | .node t1 n1 a1 c1 ct1 sb1 scb1 sel1 d1 cn1 cp1 ch1,
    .node t2 n2 a2 c2 ct2 sb2 scb2 sel2 d2 cn2 cp2 ch2, h => by
    simp only [pnodeBEq, Bool.and_eq_true, beq_iff_eq] at h
    obtain ⟨⟨⟨⟨⟨⟨⟨⟨⟨⟨⟨e1, e2⟩, e3⟩, e4⟩, e5⟩, e6⟩, e7⟩, e8⟩, e9⟩, e10⟩, e11⟩, e12⟩ := h
    subst e1; subst e2; subst e3; subst e4; subst e5; subst e6
    subst e7; subst e8; subst e9; subst e10; subst e11
    rw [pforestBEq_eq e12]

/-- Soundness of the fast forest comparison. -/
theorem pforestBEq_eq : ∀ {xs ys : List PNode}, pforestBEq xs ys = true → xs = ys
  | [], [], _ => rfl
  | x :: xs, y :: ys, h => by
    simp only [pforestBEq, Bool.and_eq_true] at h
    rw [pnodeBEq_eq h.1, pforestBEq_eq h.2]
  | [], _ :: _, h => by simp [pforestBEq] at h
  | _ :: _, [], h => by simp [pforestBEq] at h

end

/-- Decidable equality for operation results (`Except` carries the thrown
message or the updated heap). -/
instance : DecidableEq (Except Str Heap) := fun a b =>
  match a, b with
  | .ok x, .ok y =>
    if h : x = y then .isTrue (by rw [h]) else .isFalse (by intro hc; cases hc; exact h rfl)
  | .error x, .error y =>
    if h : x = y then .isTrue (by rw [h]) else .isFalse (by intro hc; cases hc; exact h rfl)
  | .ok _, .error _ => .isFalse (by intro hc; cases hc)
  | .error _, .ok _ => .isFalse (by intro hc; cases hc)

set_option maxHeartbeats 4000000 in
/-- C3: for the nested `outer`/`middle`/`inner` input, `replaceWith(inner)`
on the `outer` tag-open extracts the descendant replacement before the bulk
deletion and leaves exactly `inner`'s subtree: the parse yields `c3heap0`
(root 0, `outer` = 1, `inner` = 3), the call succeeds with `c3heap1`, whose
root children are just the `inner` pair, and serialization emits
`<div id="inner"><p>Keep</p></div>` with `outer` and `middle` absent. -/
theorem c3_replaceWith_descendant :
    parseHtml defaultSpecialTags c3input = c3tree ∧
    Heap.parseHtmlRef defaultSpecialTags c3input = (c3heap0, 0) ∧
    c3heap0.querySelectorAll 0 (("#outer").data) = [1] ∧
    c3heap0.querySelectorAll 0 (("#inner").data) = [3] ∧
    Heap.replaceWith c3heap0 1 [3] = .ok c3heap1 ∧
    (c3heap1.get 0).children = [3, 7] ∧
    c3heap1.toHtml true 0 = ("<div id=\"inner\"><p>Keep</p></div>").data := by
  have hp : parseHtml defaultSpecialTags c3input = c3tree := pnodeBEq_eq (by decide)
  refine ⟨hp, ?_, by decide, by decide, by decide, by decide, by decide⟩
  show loadNode {} none (parseHtml defaultSpecialTags c3input) = (c3heap0, 0)
  rw [hp]
  decide

set_option maxHeartbeats 4000000 in
/-- C2 (evaluation at the failing input): `appendChild` does not extract.
For `<div>Hi</div>` the text node (id 2) is already the `div`'s last
child; after `div.appendChild(text)` the child list is `[2, 2]`, the node
occurs twice in a full traversal, and the serialized output changes from
`<div>Hi</div>` to `<div>HiHi</div>` — against both the claim and the
repository's own `appendChild` move tests. -/
theorem c2_appendChild_no_extraction :
    parseHtml defaultSpecialTags c2input = c2tree ∧
    Heap.parseHtmlRef defaultSpecialTags c2input = (c2heap0, 0) ∧
    (c2heap0.get 1).children = [2] ∧
    Heap.appendChild c2heap0 1 [2] = c2heap1 ∧
    (c2heap1.get 1).children = [2, 2] ∧
    c2heap1.countOccurrences 0 2 = 2 ∧
    c2heap0.toHtml true 0 = c2input ∧
    c2heap1.toHtml true 0 = ("<div>HiHi</div>").data := by
  have hp : parseHtml defaultSpecialTags c2input = c2tree := pnodeBEq_eq (by decide)
  refine ⟨hp, ?_, by decide, by decide, by decide, by decide, by decide, by decide⟩
  show loadNode {} none (parseHtml defaultSpecialTags c2input) = (c2heap0, 0)
  rw [hp]
  decide

set_option maxHeartbeats 4000000 in
/-- C4 (counterexample): removing the `p` tag-open of
`<div><p>Remove me</p></div>` splices out both pair nodes and clears the
invoked node's parent, but the detached closing tag (node 4) still records
`parent = some 1` — the claim's "parent back-reference is cleared on every
node detached by the call, including the paired tag" fails. -/
theorem c4_remove_pair_parent_stale :
    parseHtml defaultSpecialTags c4input = c4tree ∧
    Heap.parseHtmlRef defaultSpecialTags c4input = (c4heap0, 0) ∧
    (c4heap0.get 2).ntype = .tagOpen ∧
    (c4heap0.get 1).children = [2, 4] ∧
    (c4heap0.get 4).ntype = .tagClose ∧
    (c4heap0.get 4).name = (c4heap0.get 2).name ∧
    Heap.remove c4heap0 2 = c4heap1 ∧
    (c4heap1.get 1).children = [] ∧
    (c4heap1.get 2).parent = none ∧
    ¬((c4heap1.get 4).parent = none) := by
  have hp : parseHtml defaultSpecialTags c4input = c4tree := pnodeBEq_eq (by decide)
  refine ⟨hp, ?_, by decide, by decide, by decide, by decide, by decide, by decide,
    by decide, by decide⟩
  show loadNode {} none (parseHtml defaultSpecialTags c4input) = (c4heap0, 0)
  rw [hp]
  decide

set_option maxHeartbeats 4000000 in
/-- C5 (counterexample): for `<style>a{b:c}</style>` the style `tag-open`
(node 1) lists the CSS rule (node 3) among its children, but node 3's
recorded parent is node 2 — the CSS parser's abandoned `css-root` — not
node 1: parent-child coherence fails exactly where the claim asserts it
("including the children of a style-flagged tag-open"). -/
theorem c5_style_child_parent_mismatch :
    parseHtml defaultSpecialTags c5input =
      mkRoot [c5tree, mkClose ("style").data true false] ∧
    Heap.parseHtmlRef defaultSpecialTags c5input = (c5heap, 0) ∧
    (c5heap.get 1).ntype = .tagOpen ∧
    (c5heap.get 1).styleBlock = true ∧
    (c5heap.get 1).children = [3] ∧
    (c5heap.get 2).ntype = .cssRoot ∧
    (c5heap.get 3).parent = some 2 ∧
    ¬((c5heap.get 3).parent = some 1) := by
  have hp : parseHtml defaultSpecialTags c5input =
      mkRoot [c5tree, mkClose ("style").data true false] := pnodeBEq_eq (by decide)
  refine ⟨hp, ?_, by decide, by decide, by decide, by decide, by decide, by decide⟩
  show loadNode {} none (parseHtml defaultSpecialTags c5input) = (c5heap, 0)
  rw [hp]
  decide

/-- C7 (evaluation at the failing input): inside a block body the
`#isNestedRule` lookahead classifies `div::before { color: red; }` as a
declaration — the second colon of `::` trips the top-level-colon test — so
`x { div::before { color: red; } }` records the declaration
`div : ":before { color: red"` and no nested rule, while a selector
without `::` is classified as a nested rule. -/
theorem c7_pseudo_element_misclassified :
    cssIsNestedRule (("div::before \x7b color: red; \x7d").data) 0 = false ∧
    cssIsNestedRule (("div \x7b color: red; \x7d").data) 0 = true ∧
    cssParse (("x \x7b div::before \x7b color: red; \x7d \x7d").data) =
      .node .cssRoot [] [] [] .noComment false false [] [] [] []
        [mkCssRule ("x").data
          [(("div").data, (":before \x7b color: red").data)] []] := by
  refine ⟨by decide, by decide, pnodeBEq_eq (by decide)⟩

/-- C8 (counterexample): for the input `<!--abc`, in which `<!--` has no
subsequent `-->`, the parser does not produce a comment running to
end-of-input: the result contains no comment node at all — the `<` is
dropped and `!--abc` becomes a text node. -/
theorem c8_unterminated_comment_not_comment :
    parseHtml defaultSpecialTags (("<!--abc").data) = mkRoot [mkText ("!--abc").data] ∧
    countType .comment (parseHtml defaultSpecialTags (("<!--abc").data)) = 0 ∧
    PNode.toHtml true (parseHtml defaultSpecialTags (("<!--abc").data)) = ("!--abc").data := by
  refine ⟨pnodeBEq_eq (by decide), by decide, by decide⟩

/-- Folding the stack into the root always yields a `root`-typed node. -/
theorem finAux_root (fs : List Frame) : ∀ (f : Frame) (acc : List PNode),
    (finAux f fs acc).ntype = .root := by
  induction fs with
  | nil => intro f acc; rfl
  | cons g gs ih => intro f acc; simpa [finAux] using ih _ acc

/-- `finalizeStack` always yields a `root`-typed node. -/
theorem finalizeStack_root (fs : List Frame) (acc : List PNode) :
    (finalizeStack fs acc).ntype = .root := by
  cases fs with
  | nil => rfl
  | cons f gs => simpa [finalizeStack] using finAux_root gs f acc

/-- The scan loop always returns a `root`-typed node, whatever the input
and state: parsing recovers from every malformed form and never throws. -/
theorem parseLoop_root (special : List Str) :
    ∀ (fuel : Nat) (st : PState) (cs : Str), (parseLoop special fuel st cs).ntype = .root := by
  intro fuel
  induction fuel with
  | zero => intro st cs; simpa [parseLoop] using finalizeStack_root st.stack st.acc
  | succ n ih =>
    intro st cs
    simp only [parseLoop]
    cases hstep : parseStep special st cs with
    | none => simpa using finalizeStack_root st.stack st.acc
    | some p => simpa using ih p.1 p.2

/-- C9: `insertBefore`, `insertAfter` and `replaceWith` invoked on a node
whose parent is null raise an error (never proceed silently), while the
parser's tolerance paths never raise: the scan loop returns a root node
for every input and state. -/
theorem c9_fail_fast_on_detached :
    (∀ (h : Heap) (nid : Nat) (nids : List Nat), (h.get nid).parent = none →
      Heap.insertBefore h nid nids =
        .error (("Cannot insert before a node with no parent").data)) ∧
    (∀ (h : Heap) (nid : Nat) (nids : List Nat), (h.get nid).parent = none →
      Heap.insertAfter h nid nids =
        .error (("Cannot insert after a node with no parent").data)) ∧
    (∀ (h : Heap) (nid : Nat) (nids : List Nat), (h.get nid).parent = none →
      Heap.replaceWith h nid nids =
        .error (("Cannot replace a node with no parent").data)) ∧
    (∀ (sp : List Str) (cs : Str), (parseHtml sp cs).ntype = .root) := by
  refine ⟨?_, ?_, ?_, ?_⟩
  · intro h nid nids h1
    simp [Heap.insertBefore, h1]
  · intro h nid nids h1
    simp [Heap.insertAfter, h1]
  · intro h nid nids h1
    simp [Heap.replaceWith, h1]
  · intro sp cs
    exact parseLoop_root sp (cs.length + 1) ⟨[], []⟩ cs

/-- C9 witness: the fail-fast behaviour at a concrete detached node (a
lone text node in a one-node heap) and parse totality at a concrete
input. -/
theorem c9_fail_fast_on_detached_witness :
    Heap.insertBefore (⟨[{ ntype := .text }]⟩ : Heap) 0 [] =
      .error (("Cannot insert before a node with no parent").data) ∧
    Heap.insertAfter (⟨[{ ntype := .text }]⟩ : Heap) 0 [] =
      .error (("Cannot insert after a node with no parent").data) ∧
    Heap.replaceWith (⟨[{ ntype := .text }]⟩ : Heap) 0 [] =
      .error (("Cannot replace a node with no parent").data) ∧
    (parseHtml defaultSpecialTags (("<p>x").data)).ntype = .root :=
  ⟨c9_fail_fast_on_detached.1 _ 0 [] (by decide),
   c9_fail_fast_on_detached.2.1 _ 0 [] (by decide),
   c9_fail_fast_on_detached.2.2.1 _ 0 [] (by decide),
   c9_fail_fast_on_detached.2.2.2 defaultSpecialTags (("<p>x").data)⟩

/-- The include-or-skip accumulation loop is a filter. -/
theorem foldl_filter (p : α → Bool) (l : List α) :
    ∀ acc, l.foldl (fun rs x => if p x then rs ++ [x] else rs) acc = acc ++ l.filter p := by
  induction l with
  | nil => intro acc; simp
  | cons x xs ih =>
    intro acc
    by_cases h : p x
    · simp [List.foldl_cons, h, ih]
    · simp [List.foldl_cons, h, ih]

set_option maxHeartbeats 4000000 in
/-- C6: `:not(inner)` subtraction is tree-global.  In general,
`#findMatchingNodes` filters the candidate set (computed from the rest of
the selector under the invoked node) by excluding every node that the
inner selector matches when evaluated from `#findRoot()` — the top of the
parent chain — not from the invoked node.  In particular, for
`<div><p class="a">1</p><p class="b">2</p></div>`, the candidates of `p`
are both paragraphs and `querySelectorAll('p:not(.b)')` returns exactly
the first `p` (node 2). -/
theorem c6_not_subtraction_tree_global :
    (∀ (h : Heap) (selfId : Nat) (selector : Str),
      Heap.findMatchingNodes h selfId selector =
        (let ex := notExtract (selector.length + 1) selector
         let mainSelector := jsTrim ex.2
         (if mainSelector = [] then
            h.bfsCollect h.bfsFuel [selfId] (fun nid => (h.get nid).ntype == .tagOpen) []
          else h.executeBasicSelector (mainSelector.length + 1) selfId mainSelector).filter
           (fun nid => ex.1.all (fun ns =>
             !(h.executeBasicSelector (ns.length + 1) (h.findRoot (h.size + 1) selfId)
                ns).contains nid)))) ∧
    Heap.parseHtmlRef defaultSpecialTags c6input = (c6heap, 0) ∧
    (c6heap.get 2).name = ("p").data ∧
    c6heap.getAttribute 2 (("class").data) = some (("a").data) ∧
    (c6heap.get 5).name = ("p").data ∧
    c6heap.getAttribute 5 (("class").data) = some (("b").data) ∧
    c6heap.executeBasicSelector 2 0 (("p").data) = [2, 5] ∧
    c6heap.querySelectorAll 0 (("p:not(.b)").data) = [2] := by
  refine ⟨?_, ?_, by decide, by decide, by decide, by decide, by decide, by decide⟩
  · intro h selfId selector
    simp only [Heap.findMatchingNodes]
    rw [foldl_filter]
    simp
  · have hp : parseHtml defaultSpecialTags c6input = c6tree := pnodeBEq_eq (by decide)
    show loadNode {} none (parseHtml defaultSpecialTags c6input) = (c6heap, 0)
    rw [hp]
    decide

/-- `set` then `getD` at the same in-range index reads the new value. -/
theorem listSetGetDEq : ∀ (l : List α) (i : Nat) (x d : α), i < l.length →
    (l.set i x).getD i d = x := by
  intro l
  induction l with
  | nil => intro i x d h; simp at h
  | cons a as ih =>
    intro i x d h
    cases i with
    | zero => rfl
    | succ j => simpa [List.set, List.getD] using ih j x d (by simpa using h)

/-- `set` leaves other indices unread. -/
theorem listSetGetDNe : ∀ (l : List α) (i j : Nat) (x d : α), i ≠ j →
    (l.set i x).getD j d = l.getD j d := by
  intro l
  induction l with
  | nil => intro i j x d _; simp [List.set]
  | cons a as ih =>
    intro i j x d hne
    cases i with
    | zero =>
      cases j with
      | zero => exact absurd rfl hne
      | succ k => rfl
    | succ i2 =>
      cases j with
      | zero => rfl
      | succ k => simpa [List.set, List.getD] using ih i2 k x d (by omega)

/-- Updates preserve the heap size. -/
theorem Heap.size_upd (h : Heap) (i : Nat) (f : HNode → HNode) :
    (h.upd i f).size = h.size := by
  simp [Heap.upd, Heap.set, Heap.size]

/-- Reading an updated in-range node. -/
theorem Heap.get_upd_self (h : Heap) (i : Nat) (f : HNode → HNode) (hi : i < h.size) :
    (h.upd i f).get i = f (h.get i) := by
  simp only [Heap.upd, Heap.set, Heap.get]
  exact listSetGetDEq _ _ _ _ hi

/-- Reading another node after an update. -/
theorem Heap.get_upd_ne (h : Heap) (i j : Nat) (f : HNode → HNode) (hne : i ≠ j) :
    (h.upd i f).get j = h.get j := by
  simp only [Heap.upd, Heap.set, Heap.get]
  exact listSetGetDNe _ _ _ _ _ hne

/-- C4 (amended): `remove()` on a node with a parent splices an exact
adjacent pair out in one operation (next sibling for a `tag-open`,
previous for a `tag-close`), otherwise only the node itself — but it
clears the parent back-reference only on the invoked node: the paired tag
keeps its old parent reference. -/
theorem c4_remove_amended (h : Heap) (nid p i : Nat)
    (hpar : (h.get nid).parent = some p)
    (hidx : (h.get p).children.findIdx? (fun x => x == nid) = some i)
    (hn : nid < h.size) (hne : nid ≠ p) :
    (((h.get nid).ntype = .tagOpen ∧ i + 1 < (h.get p).children.length ∧
      (h.get ((h.get p).children.getD (i + 1) 0)).ntype = .tagClose ∧
      (h.get ((h.get p).children.getD (i + 1) 0)).name = (h.get nid).name) →
      ((Heap.remove h nid).get p).children = jsSplice (h.get p).children i 2 ∧
      ((Heap.remove h nid).get nid).parent = none ∧
      ((h.get p).children.getD (i + 1) 0 ≠ nid → (h.get p).children.getD (i + 1) 0 ≠ p →
        ((Heap.remove h nid).get ((h.get p).children.getD (i + 1) 0)).parent =
          (h.get ((h.get p).children.getD (i + 1) 0)).parent)) ∧
    (¬((h.get nid).ntype = .tagOpen ∧ i + 1 < (h.get p).children.length ∧
       (h.get ((h.get p).children.getD (i + 1) 0)).ntype = .tagClose ∧
       (h.get ((h.get p).children.getD (i + 1) 0)).name = (h.get nid).name) →
     ((h.get nid).ntype = .tagClose ∧ 0 < i ∧
      (h.get ((h.get p).children.getD (i - 1) 0)).ntype = .tagOpen ∧
      (h.get ((h.get p).children.getD (i - 1) 0)).name = (h.get nid).name) →
      ((Heap.remove h nid).get p).children = jsSplice (h.get p).children (i - 1) 2 ∧
      ((Heap.remove h nid).get nid).parent = none ∧
      ((h.get p).children.getD (i - 1) 0 ≠ nid → (h.get p).children.getD (i - 1) 0 ≠ p →
        ((Heap.remove h nid).get ((h.get p).children.getD (i - 1) 0)).parent =
          (h.get ((h.get p).children.getD (i - 1) 0)).parent)) ∧
    (¬((h.get nid).ntype = .tagOpen ∧ i + 1 < (h.get p).children.length ∧
       (h.get ((h.get p).children.getD (i + 1) 0)).ntype = .tagClose ∧
       (h.get ((h.get p).children.getD (i + 1) 0)).name = (h.get nid).name) →
     ¬((h.get nid).ntype = .tagClose ∧ 0 < i ∧
       (h.get ((h.get p).children.getD (i - 1) 0)).ntype = .tagOpen ∧
       (h.get ((h.get p).children.getD (i - 1) 0)).name = (h.get nid).name) →
      ((Heap.remove h nid).get p).children = jsSplice (h.get p).children i 1 ∧
      ((Heap.remove h nid).get nid).parent = none) := by
  have hp : p < h.size := by
    by_contra hcon
    have : h.get p = {} := by
      simp only [Heap.get]
      exact List.getD_eq_default _ _ (by simpa [Heap.size] using Nat.le_of_not_lt hcon)
    rw [this] at hidx
    simp [List.findIdx?] at hidx
  refine ⟨?_, ?_, ?_⟩
  · intro hcond
    have hrw : Heap.remove h nid =
        (h.upd p fun q => { q with children := jsSplice q.children i 2 }).upd nid
          fun n => { n with parent := none } := by
      simp only [Heap.remove, hpar, hidx]
      rw [if_pos hcond]
    refine ⟨?_, ?_, ?_⟩
    · rw [hrw, Heap.get_upd_ne _ _ _ _ hne,
        Heap.get_upd_self _ _ _ hp]
    · rw [hrw, Heap.get_upd_self _ _ _ (by simpa [Heap.size_upd] using hn)]
    · intro hne1 hne2
      rw [hrw, Heap.get_upd_ne _ _ _ _ (fun e => hne1 e.symm),
        Heap.get_upd_ne _ _ _ _ (fun e => hne2 e.symm)]
  · intro hnot hcond
    have hrw : Heap.remove h nid =
        (h.upd p fun q => { q with children := jsSplice q.children (i - 1) 2 }).upd nid
          fun n => { n with parent := none } := by
      simp only [Heap.remove, hpar, hidx]
      rw [if_neg hnot, if_pos hcond]
    refine ⟨?_, ?_, ?_⟩
    · rw [hrw, Heap.get_upd_ne _ _ _ _ hne, Heap.get_upd_self _ _ _ hp]
    · rw [hrw, Heap.get_upd_self _ _ _ (by simpa [Heap.size_upd] using hn)]
    · intro hne1 hne2
      rw [hrw, Heap.get_upd_ne _ _ _ _ (fun e => hne1 e.symm),
        Heap.get_upd_ne _ _ _ _ (fun e => hne2 e.symm)]
  · intro hnot1 hnot2
    have hrw : Heap.remove h nid =
        (h.upd p fun q => { q with children := jsSplice q.children i 1 }).upd nid
          fun n => { n with parent := none } := by
      simp only [Heap.remove, hpar, hidx]
      rw [if_neg hnot1, if_neg hnot2]
    refine ⟨?_, ?_⟩
    · rw [hrw, Heap.get_upd_ne _ _ _ _ hne, Heap.get_upd_self _ _ _ hp]
    · rw [hrw, Heap.get_upd_self _ _ _ (by simpa [Heap.size_upd] using hn)]

/-- C4 witness: the amended behaviour at the concrete `c4heap0` (removing
the `p` tag-open, node 2, whose next sibling node 4 is its exact close). -/
theorem c4_remove_amended_witness :
    ((Heap.remove c4heap0 2).get 1).children = jsSplice (c4heap0.get 1).children 0 2 ∧
    ((Heap.remove c4heap0 2).get 2).parent = none ∧
    ((Heap.remove c4heap0 2).get 4).parent = (c4heap0.get 4).parent :=
  have hmain := c4_remove_amended c4heap0 2 1 0 (by decide) (by decide) (by decide)
    (by decide)
  have h1 := hmain.1 (by decide)
  ⟨h1.1, h1.2.1, h1.2.2 (by decide) (by decide)⟩

/-- Allocation grows the heap by one. -/
theorem Heap.alloc_size (h : Heap) (n : HNode) : (h.alloc n).size = h.size + 1 := by
  simp [Heap.alloc, Heap.size]

/-- Allocation leaves old nodes unread. -/
theorem Heap.get_alloc_old (h : Heap) (n : HNode) (i : Nat) (hi : i < h.size) :
    (h.alloc n).get i = h.get i := by
  simp only [Heap.alloc, Heap.get]
  exact List.getD_append _ _ _ _ hi

/-- Reading the freshly allocated node. -/
theorem Heap.get_alloc_new (h : Heap) (n : HNode) : (h.alloc n).get h.size = n := by
  simp only [Heap.alloc, Heap.get, Heap.size]
  induction h.nodes with
  | nil => rfl
  | cons a as ih => simpa [List.getD] using ih

/-- Every child id stored anywhere in the heap points at an allocated node. -/
def ChildrenBounded (h : Heap) : Prop :=
  ∀ pid, pid < h.size → ∀ cid, cid ∈ (h.get pid).children → cid < h.size

/-- Parent-child coherence except at style-flagged nodes: every child of a
non-style-flagged node records that node as its parent. -/
def CoherentExceptStyle (h : Heap) : Prop :=
  ∀ pid, pid < h.size → (h.get pid).styleBlock = false →
    ∀ cid, cid ∈ (h.get pid).children → (h.get cid).parent = some pid

/-- Allocating a childless node preserves boundedness. -/
theorem ChildrenBounded_alloc (h : Heap) (n : HNode) (hn : n.children = [])
    (hb : ChildrenBounded h) : ChildrenBounded (h.alloc n) := by
  intro pid hpid cid hcid
  rw [Heap.alloc_size] at hpid
  by_cases hlt : pid < h.size
  · rw [Heap.get_alloc_old _ _ _ hlt] at hcid
    rw [Heap.alloc_size]
    exact Nat.lt_succ_of_lt (hb pid hlt cid hcid)
  · have hpe : pid = h.size := by omega
    rw [hpe, Heap.get_alloc_new, hn] at hcid
    simp at hcid

/-- Allocating a childless node preserves coherence. -/
theorem CoherentExceptStyle_alloc (h : Heap) (n : HNode) (hn : n.children = [])
    (hb : ChildrenBounded h) (hc : CoherentExceptStyle h) :
    CoherentExceptStyle (h.alloc n) := by
  intro pid hpid hsb cid hcid
  rw [Heap.alloc_size] at hpid
  by_cases hlt : pid < h.size
  · rw [Heap.get_alloc_old _ _ _ hlt] at hcid hsb
    have hcb := hb pid hlt cid hcid
    rw [Heap.get_alloc_old _ _ _ hcb]
    exact hc pid hlt hsb cid hcid
  · have hpe : pid = h.size := by omega
    rw [hpe, Heap.get_alloc_new, hn] at hcid
    simp at hcid

/-- Rewriting a node's child list preserves boundedness when the new
children are allocated. -/
theorem ChildrenBounded_updChildren (h : Heap) (id : Nat) (c : List Nat)
    (hid : id < h.size) (hk : ∀ k, k ∈ c → k < h.size) (hb : ChildrenBounded h) :
    ChildrenBounded (h.upd id fun n => { n with children := c }) := by
  intro pid hpid cid hcid
  rw [Heap.size_upd] at hpid ⊢
  by_cases he : pid = id
  · rw [he, Heap.get_upd_self _ _ _ hid] at hcid
    exact hk cid hcid
  · rw [Heap.get_upd_ne _ _ _ _ (fun e => he e.symm)] at hcid
    exact hb pid hpid cid hcid

/-- Rewriting a node's child list preserves coherence when (unless the
node is style-flagged) the new children record it as their parent. -/
theorem CoherentExceptStyle_updChildren (h : Heap) (id : Nat) (c : List Nat)
    (hid : id < h.size)
    (hnew : (h.get id).styleBlock = false →
      ∀ k, k ∈ c → k ≠ id ∧ (h.get k).parent = some id)
    (hc : CoherentExceptStyle h) :
    CoherentExceptStyle (h.upd id fun n => { n with children := c }) := by
  intro pid hpid hsb cid hcid
  rw [Heap.size_upd] at hpid
  have hparent : ∀ j, ((h.upd id fun n => { n with children := c }).get j).parent =
      (h.get j).parent := by
    intro j
    by_cases hj : j = id
    · rw [hj, Heap.get_upd_self _ _ _ hid]
    · rw [Heap.get_upd_ne _ _ _ _ (fun e => hj e.symm)]
  by_cases he : pid = id
  · rw [he, Heap.get_upd_self _ _ _ hid] at hcid hsb
    have hx := hnew hsb cid hcid
    rw [hparent cid, he]
    exact hx.2
  · rw [Heap.get_upd_ne _ _ _ _ (fun e => he e.symm)] at hcid hsb
    rw [hparent cid]
    exact hc pid hpid hsb cid hcid

mutual

/-- Reifying one node preserves old nodes, returns a fresh id whose parent
field is the requested owner, and preserves boundedness and
coherence-except-style. -/
theorem loadNode_spec : ∀ (t : PNode) (h : Heap) (pid : Option Nat),
    ChildrenBounded h → CoherentExceptStyle h →
    (h.size ≤ (loadNode h pid t).2 ∧
     (loadNode h pid t).2 < (loadNode h pid t).1.size ∧
     h.size ≤ (loadNode h pid t).1.size ∧
     (∀ i, i < h.size → (loadNode h pid t).1.get i = h.get i) ∧
     ((loadNode h pid t).1.get (loadNode h pid t).2).parent = pid ∧
     ChildrenBounded (loadNode h pid t).1 ∧
     CoherentExceptStyle (loadNode h pid t).1)
  | .node nt nm a c ct sb scb sel d cn cp ch, h, pid, hb, hc => by
    have hbase : ∀ q : Option Nat,
        (hnodeOf q (.node nt nm a c ct sb scb sel d cn cp ch)).children = [] := by
      intro q; rfl
    by_cases hsty : nt = NType.tagOpen ∧ sb = true
    · -- style branch: the css-root is allocated and keeps the children
      rw [loadNode.eq_1, if_pos hsty]
      have hb1 := ChildrenBounded_alloc h _ (hbase pid) hb
      have hc1 := CoherentExceptStyle_alloc h _ (hbase pid) hb hc
      have hb2 := ChildrenBounded_alloc _ { ntype := .cssRoot, parent := none } rfl hb1
      have hc2 := CoherentExceptStyle_alloc _ { ntype := .cssRoot, parent := none } rfl hb1 hc1
      have hspec := loadForest_spec ch
        ((h.alloc (hnodeOf pid (.node nt nm a c ct sb scb sel d cn cp ch))).alloc
          { ntype := .cssRoot, parent := none }) (some (h.size + 1)) hb2 hc2
      have hsz2 : ((h.alloc (hnodeOf pid (.node nt nm a c ct sb scb sel d cn cp ch))).alloc
          { ntype := .cssRoot, parent := none }).size = h.size + 2 := by
        rw [Heap.alloc_size, Heap.alloc_size]
      split
      rename_i h3 kidIds hlf
      rw [hlf] at hspec
      simp only [hsz2] at hspec
      obtain ⟨hs3, hpres3, hids3, hb3, hc3⟩ := hspec
      dsimp only
      refine ⟨le_refl _, ?_, ?_, ?_, ?_, ?_, ?_⟩
      · rw [Heap.size_upd, Heap.size_upd]
        omega
      · rw [Heap.size_upd, Heap.size_upd]
        omega
      · intro i hi
        rw [Heap.get_upd_ne _ _ _ _ (by omega), Heap.get_upd_ne _ _ _ _ (by omega),
          hpres3 i (by omega), Heap.get_alloc_old _ _ _ (by rw [Heap.alloc_size]; omega),
          Heap.get_alloc_old _ _ _ hi]
      · rw [Heap.get_upd_self _ _ _ (by rw [Heap.size_upd]; omega),
          Heap.get_upd_ne _ _ _ _ (by omega)]
        rw [hpres3 h.size (by omega),
          Heap.get_alloc_old _ _ _ (by rw [Heap.alloc_size]; omega),
          Heap.get_alloc_new]
        rfl
      · apply ChildrenBounded_updChildren
        · rw [Heap.size_upd]; omega
        · intro k hk
          rw [Heap.size_upd]
          exact (hids3 k hk).2.1
        · apply ChildrenBounded_updChildren _ _ _ (by omega) _ hb3
          intro k hk
          exact (hids3 k hk).2.1
      · apply CoherentExceptStyle_updChildren
        · rw [Heap.size_upd]; omega
        · intro hsb0
          exfalso
          rw [Heap.get_upd_ne _ _ _ _ (by omega), hpres3 h.size (by omega),
            Heap.get_alloc_old _ _ _ (by rw [Heap.alloc_size]; omega),
            Heap.get_alloc_new] at hsb0
          have hsbf : sb = false := hsb0
          rw [hsbf] at hsty
          exact absurd hsty.2 (by simp)
        · apply CoherentExceptStyle_updChildren _ _ _ (by omega) _ hc3
          intro _ k hk
          refine ⟨by have := (hids3 k hk).1; omega, (hids3 k hk).2.2⟩
    · -- ordinary branch: children are owned by the allocated node
      rw [loadNode.eq_1, if_neg hsty]
      have hb1 := ChildrenBounded_alloc h _ (hbase pid) hb
      have hc1 := CoherentExceptStyle_alloc h _ (hbase pid) hb hc
      have hspec := loadForest_spec ch
        (h.alloc (hnodeOf pid (.node nt nm a c ct sb scb sel d cn cp ch)))
        (some h.size) hb1 hc1
      have hsz1 : (h.alloc (hnodeOf pid (.node nt nm a c ct sb scb sel d cn cp ch))).size
          = h.size + 1 := Heap.alloc_size _ _
      split
      rename_i h1 kidIds hlf
      rw [hlf] at hspec
      simp only [hsz1] at hspec
      obtain ⟨hs3, hpres3, hids3, hb3, hc3⟩ := hspec
      dsimp only
      refine ⟨le_refl _, ?_, ?_, ?_, ?_, ?_, ?_⟩
      · rw [Heap.size_upd]
        omega
      · rw [Heap.size_upd]
        omega
      · intro i hi
        rw [Heap.get_upd_ne _ _ _ _ (by omega), hpres3 i (by omega),
          Heap.get_alloc_old _ _ _ hi]
      · rw [Heap.get_upd_self _ _ _ (by omega)]
        rw [hpres3 h.size (by omega), Heap.get_alloc_new]
        rfl
      · apply ChildrenBounded_updChildren _ _ _ (by omega) _ hb3
        intro k hk
        exact (hids3 k hk).2.1
      · apply CoherentExceptStyle_updChildren _ _ _ (by omega) _ hc3
        intro _ k hk
        refine ⟨by have := (hids3 k hk).1; omega, (hids3 k hk).2.2⟩

/-- Reifying a forest: every returned id is fresh, allocated, and records
the requested owner as parent; boundedness and coherence are preserved. -/
theorem loadForest_spec : ∀ (ts : List PNode) (h : Heap) (pid : Option Nat),
    ChildrenBounded h → CoherentExceptStyle h →
    (h.size ≤ (loadForest h pid ts).1.size ∧
     (∀ i, i < h.size → (loadForest h pid ts).1.get i = h.get i) ∧
     (∀ id, id ∈ (loadForest h pid ts).2 → h.size ≤ id ∧ id < (loadForest h pid ts).1.size ∧
        ((loadForest h pid ts).1.get id).parent = pid) ∧
     ChildrenBounded (loadForest h pid ts).1 ∧
     CoherentExceptStyle (loadForest h pid ts).1)
  | [], h, pid, hb, hc => by
    refine ⟨le_refl _, fun i _ => rfl, ?_, hb, hc⟩
    intro id hid
    simp [loadForest.eq_1] at hid
  | t :: ts, h, pid, hb, hc => by
    have hn := loadNode_spec t h pid hb hc
    rw [loadForest.eq_2]
    split
    rename_i h1 id1 hln
    rw [hln] at hn
    dsimp only at hn
    obtain ⟨hle1, hlt1, hsz1, hpres1, hpar1, hb1, hc1⟩ := hn
    have hf := loadForest_spec ts h1 pid hb1 hc1
    split
    rename_i h2 ids2 hlf
    rw [hlf] at hf
    dsimp only at hf
    obtain ⟨hs2, hpres2, hids2, hb2, hc2⟩ := hf
    dsimp only
    refine ⟨by omega, ?_, ?_, hb2, hc2⟩
    · intro i hi
      rw [hpres2 i (by omega), hpres1 i hi]
    · intro id hid
      simp only [List.mem_cons] at hid
      rcases hid with hid | hid
      · subst hid
        refine ⟨hle1, by omega, ?_⟩
        rw [hpres2 _ hlt1]
        exact hpar1
      · obtain ⟨ha, hbb, hcc⟩ := hids2 id hid
        exact ⟨by omega, hbb, hcc⟩

end

/-- C8 (amended): on an unterminated comment the parser does not consume to
end-of-input; the comment branch merely drops the leading `<` and rescans
from the next character, so `parse` on `"<!--" ++ s` (with no `"-->"`)
equals `parse` on `"!--" ++ s`, which renders the sequence as text. -/
theorem c8_unterminated_comment_amended (sp : List Str) (s : Str)
    (hns : splitOnSub (("-->").data) ('<' :: '!' :: '-' :: '-' :: s) = none) :
    parseHtml sp ('<' :: '!' :: '-' :: '-' :: s)
      = parseHtml sp ('!' :: '-' :: '-' :: s) := by
  show parseLoop sp (('<' :: '!' :: '-' :: '-' :: s).length + 1) ⟨[], []⟩
        ('<' :: '!' :: '-' :: '-' :: s)
      = parseLoop sp (('!' :: '-' :: '-' :: s).length + 1) ⟨[], []⟩
        ('!' :: '-' :: '-' :: s)
  have hfuel : ('<' :: '!' :: '-' :: '-' :: s).length + 1
      = (('!' :: '-' :: '-' :: s).length + 1) + 1 := by simp
  rw [hfuel]
  have hstep : parseStep sp ⟨[], []⟩ ('<' :: '!' :: '-' :: '-' :: s)
      = some (⟨[], []⟩, '!' :: '-' :: '-' :: s) := by
    have hm : parseStep sp ⟨[], []⟩ ('<' :: '!' :: '-' :: '-' :: s)
        = match splitOnSub (("-->").data) ('<' :: '!' :: '-' :: '-' :: s) with
          | none => some (⟨[], []⟩, '!' :: '-' :: '-' :: s)
          | some (pre, post) =>
            some (pushChild ⟨[], []⟩
              (mkComment (jsSubstring ('<' :: '!' :: '-' :: '-' :: s) 4 pre.length)
                .htmlComment), post) := rfl
    rw [hm, hns]
  conv_lhs => rw [parseLoop, hstep]

/-- Closed instance of the amended C8 theorem at `"<!-- oops"`. -/
theorem c8_unterminated_comment_amended_witness :
    splitOnSub (("-->").data) ('<' :: '!' :: '-' :: '-' :: (" oops").data) = none ∧
    parseHtml defaultSpecialTags ('<' :: '!' :: '-' :: '-' :: (" oops").data)
      = parseHtml defaultSpecialTags ('!' :: '-' :: '-' :: (" oops").data) :=
  ⟨by decide, c8_unterminated_comment_amended defaultSpecialTags ((" oops").data) (by decide)⟩

/-- The attribute scan on empty text yields no matches, for any fuel. -/
theorem attrScan_fuel_nil (fuel : Nat) : attrScan fuel [] = [] := by
  cases fuel <;> rfl

set_option maxHeartbeats 1000000 in
/-- C10: an attribute written as a bare name (no `=value`) is stored with
the literal sentinel string `__EMPVAL__` as its value; `getAttribute` then
returns exactly that sentinel string; and `#getNodeAttributesString` emits
the bare attribute name precisely when the stored value is the sentinel. -/
theorem c10_bare_attribute_sentinel (nm : Str)
    (hne : nm ≠ []) (hch : ∀ c ∈ nm, isNameChar c = true) :
    attrsObject nm = [(nm, EMPVAL)] ∧
    (∀ (h : Heap) (nid : Nat), (h.get nid).attrs = [(nm, EMPVAL)] →
        h.getAttribute nid nm = some EMPVAL) ∧
    (∀ w, getNodeAttributesString [(nm, w)] = ' ' :: nm ↔ w = EMPVAL) := by
  refine ⟨?_, ?_, ?_⟩
  · obtain ⟨c, rest, rfl⟩ : ∃ c rest, nm = c :: rest := by
      cases nm with
      | nil => exact absurd rfl hne
      | cons c rest => exact ⟨c, rest, rfl⟩
    have hc : isNameChar c = true := hch c (by simp)
    have htw : (c :: rest).takeWhile isNameChar = c :: rest := by
      rw [List.takeWhile_eq_self_iff]
      exact hch
    show (attrScan ((c :: rest).length + 1) (c :: rest)).foldl
        (fun m kv => objSet m kv.1 kv.2) [] = _
    rw [attrScan, if_pos hc]
    simp only [htw, List.drop_length, attrScan_fuel_nil]
    rfl
  · intro h nid hattrs
    show objGet (h.get nid).attrs nm = some EMPVAL
    rw [hattrs]
    simp [objGet]
  · intro w
    constructor
    · intro hser
      by_contra hw
      rw [getNodeAttributesString, getNodeAttributesString, if_neg hw,
        List.append_nil] at hser
      have hlen := congrArg List.length hser
      simp at hlen
    · intro hw
      rw [getNodeAttributesString, getNodeAttributesString, if_pos hw,
        List.append_nil]

/-- Closed instance of C10 at `disabled`, with the end-to-end parse of
`<input disabled>` and its serialization back to `<input disabled>`. -/
theorem c10_bare_attribute_sentinel_witness :
    ((("disabled").data : Str) ≠ [] ∧ ∀ c ∈ ("disabled").data, isNameChar c = true) ∧
    (attrsObject (("disabled").data) = [(("disabled").data, EMPVAL)] ∧
     (∀ (h : Heap) (nid : Nat),
        (h.get nid).attrs = [(("disabled").data, EMPVAL)] →
        h.getAttribute nid (("disabled").data) = some EMPVAL) ∧
     (∀ w, getNodeAttributesString [((("disabled").data), w)] = ' ' :: ("disabled").data
        ↔ w = EMPVAL)) ∧
    parseHtml defaultSpecialTags (("<input disabled>").data)
      = mkRoot [mkOpen (("input").data) [((("disabled").data), EMPVAL)] false false []] ∧
    PNode.toHtml true
        (mkRoot [mkOpen (("input").data) [((("disabled").data), EMPVAL)] false false []])
      = ("<input disabled>").data :=
  ⟨⟨by decide, by decide⟩,
   c10_bare_attribute_sentinel (("disabled").data) (by decide) (by decide),
   pnodeBEq_eq (by decide), by decide⟩

example (a b : List Char) : (a ++ b).drop a.length = b := List.drop_left a b
example (a b : List Char) : (a ++ b).take a.length = a := List.take_left a b

theorem lPre_length : ∀ (sub xs : Str), lPre sub xs = true → sub.length ≤ xs.length
  | [], xs, _ => Nat.zero_le _
  | _ :: _, [], h => by simp [lPre] at h
  | a :: as, b :: bs, h => by
    simp only [lPre, Bool.and_eq_true] at h
    simpa using lPre_length as bs h.2

theorem lPre_append : ∀ (sub xs t : Str), lPre sub xs = true → lPre sub (xs ++ t) = true
  | [], xs, t, _ => rfl
  | _ :: _, [], t, h => by simp [lPre] at h
  | a :: as, b :: bs, t, h => by
    simp only [lPre, Bool.and_eq_true] at h
    simp only [List.cons_append, lPre, Bool.and_eq_true]
    exact ⟨h.1, lPre_append as bs t h.2⟩

theorem lPre_of_append : ∀ (sub xs t : Str), lPre sub (xs ++ t) = true →
    sub.length ≤ xs.length → lPre sub xs = true
  | [], xs, t, _, _ => rfl
  | a :: as, [], t, _, hl => by simp at hl
  | a :: as, b :: bs, t, h, hl => by
    simp only [List.cons_append, lPre, Bool.and_eq_true] at h
    simp only [lPre, Bool.and_eq_true]
    exact ⟨h.1, lPre_of_append as bs t h.2 (by simpa using hl)⟩

theorem lPre_drop : ∀ (sub xs : Str), lPre sub xs = true → xs = sub ++ xs.drop sub.length
  | [], xs, _ => rfl
  | _ :: _, [], h => by simp [lPre] at h
  | a :: as, b :: bs, h => by
    simp only [lPre, Bool.and_eq_true] at h
    have ih := lPre_drop as bs h.2
    simp only [List.length_cons, List.cons_append, List.drop_succ_cons]
    have hab : a = b := by simpa using h.1
    rw [← hab]
    exact congrArg (a :: ·) ih

theorem splitOnSub_decomp : ∀ (sub xs pre post : Str),
    splitOnSub sub xs = some (pre, post) → xs = pre ++ sub ++ post
  | sub, [], pre, post, h => by
    by_cases hs : sub = []
    · subst hs
      simp [splitOnSub] at h
      simp [h.1, h.2]
    · simp [splitOnSub, hs] at h
  | sub, c :: cs, pre, post, h => by
    by_cases hp : lPre sub (c :: cs) = true
    · rw [splitOnSub, if_pos hp] at h
      simp only [Option.some.injEq, Prod.mk.injEq] at h
      rw [← h.1, ← h.2]
      simpa using lPre_drop sub (c :: cs) hp
    · rw [splitOnSub, if_neg hp] at h
      cases hcs : splitOnSub sub cs with
      | none => rw [hcs] at h; simp at h
      | some pr =>
        obtain ⟨pre0, post0⟩ := pr
        rw [hcs] at h
        simp only [Option.some.injEq, Prod.mk.injEq] at h
        have ih := splitOnSub_decomp sub cs pre0 post0 hcs
        rw [← h.1, ← h.2]
        simp [ih]

theorem splitOnSub_ext : ∀ (sub xs t pre : Str), sub ≠ [] →
    splitOnSub sub xs = some (pre, []) →
    splitOnSub sub (xs ++ t) = some (pre, t)
  | sub, [], t, pre, hs, h => by
    simp [splitOnSub, hs] at h
  | sub, c :: cs, t, pre, hs, h => by
    by_cases hp : lPre sub (c :: cs) = true
    · rw [splitOnSub, if_pos hp] at h
      simp only [Option.some.injEq, Prod.mk.injEq] at h
      obtain ⟨hpre, hdrop⟩ := h
      have hlen : sub.length = (c :: cs).length := by
        have h1 := lPre_length sub (c :: cs) hp
        have h2 := congrArg List.length hdrop
        simp [List.length_drop] at h2
        simp only [List.length_cons] at h1 ⊢
        omega
      have hgoal : (c :: cs) ++ t = c :: (cs ++ t) := rfl
      rw [show ((c :: cs) ++ t : Str) = c :: (cs ++ t) from rfl, splitOnSub,
        if_pos (by simpa using lPre_append sub (c :: cs) t hp), ← hpre]
      rw [show (c : Char) :: (cs ++ t) = ((c :: cs) ++ t : Str) from rfl, hlen,
        List.drop_left]
    · rw [splitOnSub, if_neg hp] at h
      cases hcs : splitOnSub sub cs with
      | none => rw [hcs] at h; simp at h
      | some pr =>
        obtain ⟨pre0, post0⟩ := pr
        rw [hcs] at h
        simp only [Option.some.injEq, Prod.mk.injEq] at h
        obtain ⟨hpre, hpost⟩ := h
        rw [hpost] at hcs
        have ih := splitOnSub_ext sub cs t pre0 hs hcs
        have hdec := splitOnSub_decomp sub cs pre0 [] hcs
        have hple : sub.length ≤ (c :: cs).length := by
          have hlen := congrArg List.length hdec
          simp only [List.append_nil, List.length_append] at hlen
          simp only [List.length_cons]
          omega
        have hpf : ¬ lPre sub (c :: (cs ++ t)) = true := by
          intro hcon
          exact hp (lPre_of_append sub (c :: cs) t (by simpa using hcon) hple)
        rw [show ((c :: cs) ++ t : Str) = c :: (cs ++ t) from rfl, splitOnSub,
          if_neg hpf, ih, ← hpre]

theorem firstIdxCh_append : ∀ (xs : Str) (ch : Char) (r : Str),
    (∀ c ∈ xs, c ≠ ch) → firstIdxCh ch (xs ++ ch :: r) = some xs.length
  | [], ch, r, _ => by simp [firstIdxCh]
  | x :: xs, ch, r, h => by
    have hx : x ≠ ch := h x (by simp)
    have ih := firstIdxCh_append xs ch r (fun c hc => h c (by simp [hc]))
    show firstIdxCh ch (x :: (xs ++ ch :: r)) = some (x :: xs).length
    rw [firstIdxCh, if_neg hx, ih]
    simp

theorem firstIdxCh_none : ∀ (xs : Str) (ch : Char),
    (∀ c ∈ xs, c ≠ ch) → firstIdxCh ch xs = none
  | [], ch, _ => rfl
  | x :: xs, ch, h => by
    have hx : x ≠ ch := h x (by simp)
    have ih := firstIdxCh_none xs ch (fun c hc => h c (by simp [hc]))
    simp only [firstIdxCh, if_neg hx, ih]

theorem takeWhile_all_append (p : Char → Bool) :
    ∀ (xs ys : Str), (∀ c ∈ xs, p c = true) →
    (xs ++ ys).takeWhile p = xs ++ ys.takeWhile p
  | [], ys, _ => rfl
  | x :: xs, ys, h => by
    have hx : p x = true := h x (by simp)
    have ih := takeWhile_all_append p xs ys (fun c hc => h c (by simp [hc]))
    simp only [List.cons_append, List.takeWhile_cons, hx, ih]
    simp

theorem takeWhile_all (p : Char → Bool) (xs : Str) (h : ∀ c ∈ xs, p c = true) :
    xs.takeWhile p = xs := by
  have := takeWhile_all_append p xs [] h
  simpa using this

theorem nameChar_ne (c x : Char) (hc : isNameChar c = true) (hx : isNameChar x = false) :
    c ≠ x := by
  intro he
  rw [he, hx] at hc
  exact absurd hc (by simp)

theorem nameChar_not_ws (c : Char) (hc : isNameChar c = true) : isJsWs c = false := by
  by_contra hcon
  have hw : isJsWs c = true := by
    cases h : isJsWs c
    · exact absurd h hcon
    · rfl
  simp only [isJsWs, Bool.or_eq_true, decide_eq_true_eq] at hw
  rcases hw with ((((h1 | h1) | h1) | h1) | h1) | h1 <;> rw [h1] at hc <;>
    exact absurd hc (by decide)

theorem contains_all_ne (xs : Str) (ch : Char) (h : xs.contains ch = false) :
    ∀ c ∈ xs, c ≠ ch := by
  intro c hc he
  subst he
  rw [List.contains_eq_any_beq] at h
  have : xs.any (fun x => c == x) = true := List.any_of_mem hc (by simp)
  rw [this] at h
  exact absurd h (by simp)

theorem attrScan_space (f : Nat) (rest : Str) :
    attrScan (f + 1) (' ' :: rest) = attrScan f rest := by
  rw [attrScan, if_neg (by decide)]

theorem attrValQuoted_run (v tail : Str) (hvq : ∀ c ∈ v, c ≠ '"') :
    attrValQuoted '"' (v ++ '"' :: tail) = some (v, tail) := by
  simp only [attrValQuoted]
  rw [firstIdxCh_append v '"' tail hvq]
  show some ((v ++ '"' :: tail).take v.length, (v ++ '"' :: tail).drop (v.length + 1))
      = some (v, tail)
  rw [List.take_left, List.drop_append]
  rfl

theorem attrAfterEq_quoted (v tail : Str) (hvq : ∀ c ∈ v, c ≠ '"') :
    attrAfterEq ('"' :: (v ++ '"' :: tail)) = some (v, tail) := by
  rw [attrAfterEq, if_pos rfl, attrValQuoted_run v tail hvq]

theorem attrScan_valued (f : Nat) (k v tail : Str)
    (hk : k ≠ []) (hkch : ∀ c ∈ k, isNameChar c = true)
    (hv : v ≠ []) (hvq : ∀ c ∈ v, c ≠ '"') :
    attrScan (f + 1) (k ++ '=' :: '"' :: (v ++ '"' :: tail))
      = (k, v) :: attrScan f tail := by
  obtain ⟨c, k0, rfl⟩ : ∃ c k0, k = c :: k0 := by
    cases k with
    | nil => exact absurd rfl hk
    | cons c k0 => exact ⟨c, k0, rfl⟩
  have hc : isNameChar c = true := hkch c (by simp)
  have hname : ((c :: k0) ++ '=' :: '"' :: (v ++ '"' :: tail)).takeWhile isNameChar
      = c :: k0 := by
    rw [takeWhile_all_append isNameChar (c :: k0) _ hkch]
    have h0 : ('=' :: '"' :: (v ++ '"' :: tail)).takeWhile isNameChar = [] := rfl
    rw [h0, List.append_nil]
  have hafter : ((c :: k0) ++ ('=' :: '"' :: (v ++ '"' :: tail))).drop
      ((c :: k0) : Str).length = '=' :: '"' :: (v ++ '"' :: tail) :=
    List.drop_left _ _
  show attrScan (f + 1) (c :: (k0 ++ '=' :: '"' :: (v ++ '"' :: tail))) = _
  rw [attrScan, if_pos hc]
  simp only [show (c :: (k0 ++ '=' :: '"' :: (v ++ '"' :: tail)) : Str)
      = (c :: k0) ++ ('=' :: '"' :: (v ++ '"' :: tail)) from rfl, hname, hafter]
  rw [attrAfterEq_quoted v tail hvq]
  simp only [if_neg hv]

theorem attrScan_bare (f : Nat) (k tail : Str) (hk : k ≠ [])
    (hkch : ∀ c ∈ k, isNameChar c = true)
    (htail : tail = [] ∨ ∃ t0, tail = ' ' :: t0) :
    attrScan (f + 1) (k ++ tail) = (k, EMPVAL) :: attrScan f tail := by
  obtain ⟨c, k0, rfl⟩ : ∃ c k0, k = c :: k0 := by
    cases k with
    | nil => exact absurd rfl hk
    | cons c k0 => exact ⟨c, k0, rfl⟩
  have hc : isNameChar c = true := hkch c (by simp)
  have hname : ((c :: k0) ++ tail).takeWhile isNameChar = c :: k0 := by
    rw [takeWhile_all_append isNameChar (c :: k0) _ hkch]
    rcases htail with rfl | ⟨t0, rfl⟩
    · simp
    · simp [List.takeWhile_cons]
      decide
  have hafter : ((c :: k0) ++ tail).drop ((c :: k0) : Str).length = tail :=
    List.drop_left _ _
  show attrScan (f + 1) (c :: (k0 ++ tail)) = _
  rw [attrScan, if_pos hc]
  simp only [show (c :: (k0 ++ tail) : Str) = (c :: k0) ++ tail from rfl, hname, hafter]
  rcases htail with rfl | ⟨t0, rfl⟩
  · rfl
  · rfl

/-- Shape of a rendered attribute list: empty, or starting with a space. -/
theorem renderAttrs_shape (as : List (Str × Option Str)) :
    renderAttrs as = [] ∨ ∃ t0, renderAttrs as = ' ' :: t0 := by
  match as with
  | [] => exact Or.inl rfl
  | (k, some v) :: rest => exact Or.inr ⟨_, rfl⟩
  | (k, none) :: rest => exact Or.inr ⟨_, rfl⟩

theorem wfAttr_parts (k : Str) (v : Option Str) (h : wfAttr (k, v) = true) :
    k ≠ [] ∧ (∀ c ∈ k, isNameChar c = true) ∧
    (∀ w, v = some w → w ≠ [] ∧ (∀ c ∈ w, c ≠ '"' ∧ c ≠ '>') ∧ w ≠ EMPVAL) := by
  simp only [wfAttr, Bool.and_eq_true, decide_eq_true_eq, List.all_eq_true] at h
  obtain ⟨⟨⟨hk, hkch⟩, _⟩, hv⟩ := h
  refine ⟨hk, fun c hc => hkch c hc, ?_⟩
  intro w hw
  subst hw
  simp only [Bool.and_eq_true, decide_eq_true_eq, List.all_eq_true] at hv
  obtain ⟨⟨hw1, hw2⟩, hw3⟩ := hv
  refine ⟨hw1, ?_, hw3⟩
  intro c hc
  have := hw2 c hc
  simp only [Bool.and_eq_true, decide_eq_true_eq] at this
  exact this

theorem attrScan_render : ∀ (as : List (Str × Option Str)) (f : Nat),
    (∀ a ∈ as, wfAttr a = true) → 2 * as.length ≤ f →
    attrScan f (renderAttrs as) = attrsSent as
  | [], f, _, _ => by
    cases f <;> rfl
  | (k, some v) :: rest, f, hwf, hf => by
    obtain ⟨f0, rfl⟩ : ∃ f0, f = f0 + 2 := by
      refine ⟨f - 2, ?_⟩
      simp only [List.length_cons] at hf
      omega
    obtain ⟨hk, hkch, hv⟩ := wfAttr_parts k (some v) (hwf _ (by simp))
    obtain ⟨hv1, hv2, hv3⟩ := hv v rfl
    have hrw : renderAttrs ((k, some v) :: rest)
        = ' ' :: (k ++ '=' :: '"' :: (v ++ '"' :: renderAttrs rest)) := by
      simp [renderAttrs, List.append_assoc]
    rw [hrw, show f0 + 2 = (f0 + 1) + 1 from rfl, attrScan_space,
      attrScan_valued f0 k v (renderAttrs rest) hk hkch hv1
        (fun c hc => (hv2 c hc).1),
      attrScan_render rest f0 (fun a ha => hwf a (by simp [ha]))
        (by simp only [List.length_cons] at hf; omega)]
    rfl
  | (k, none) :: rest, f, hwf, hf => by
    obtain ⟨f0, rfl⟩ : ∃ f0, f = f0 + 2 := by
      refine ⟨f - 2, ?_⟩
      simp only [List.length_cons] at hf
      omega
    obtain ⟨hk, hkch, _⟩ := wfAttr_parts k none (hwf _ (by simp))
    have hrw : renderAttrs ((k, none) :: rest) = ' ' :: (k ++ renderAttrs rest) := by
      simp [renderAttrs]
    rw [hrw, show f0 + 2 = (f0 + 1) + 1 from rfl, attrScan_space,
      attrScan_bare f0 k (renderAttrs rest) hk hkch (renderAttrs_shape rest),
      attrScan_render rest f0 (fun a ha => hwf a (by simp [ha]))
        (by simp only [List.length_cons] at hf; omega)]
    rfl

theorem renderAttrs_length : ∀ (as : List (Str × Option Str)),
    (∀ a ∈ as, wfAttr a = true) → 2 * as.length ≤ (renderAttrs as).length
  | [], _ => by simp [renderAttrs]
  | (k, some v) :: rest, h => by
    have ih := renderAttrs_length rest (fun a ha => h a (by simp [ha]))
    obtain ⟨hk, _, _⟩ := wfAttr_parts k (some v) (h _ (by simp))
    have hk1 : 1 ≤ k.length := by
      cases k with
      | nil => exact absurd rfl hk
      | cons _ _ => simp
    simp only [renderAttrs, List.length_cons, List.length_append]
    simp only [List.length_cons, List.length_append] at ih ⊢
    omega
  | (k, none) :: rest, h => by
    have ih := renderAttrs_length rest (fun a ha => h a (by simp [ha]))
    obtain ⟨hk, _, _⟩ := wfAttr_parts k none (h _ (by simp))
    have hk1 : 1 ≤ k.length := by
      cases k with
      | nil => exact absurd rfl hk
      | cons _ _ => simp
    simp only [renderAttrs, List.length_cons, List.length_append]
    omega

theorem objSet_append : ∀ (m : AttrMap) (k v : Str),
    (m.map Prod.fst).contains k = false → objSet m k v = m ++ [(k, v)]
  | [], k, v, _ => rfl
  | (k0, v0) :: rest, k, v, h => by
    simp only [List.map_cons, List.contains_cons, Bool.or_eq_false_iff] at h
    have hne : ¬ k0 = k := by
      intro he
      subst he
      simp at h
    rw [objSet, if_neg hne, objSet_append rest k v h.2]
    rfl

theorem objSet_foldl_nodup : ∀ (kvs : AttrMap) (acc : AttrMap),
    nodupKeys (kvs.map Prod.fst) = true →
    (∀ k ∈ kvs.map Prod.fst, (acc.map Prod.fst).contains k = false) →
    kvs.foldl (fun m kv => objSet m kv.1 kv.2) acc = acc ++ kvs
  | [], acc, _, _ => by simp
  | (k, v) :: rest, acc, hnd, hfresh => by
    simp only [List.map_cons, nodupKeys, Bool.and_eq_true] at hnd
    have hndk : (rest.map Prod.fst).contains k = false := by
      have hh := hnd.1
      cases hcc : (rest.map Prod.fst).contains k
      · rfl
      · rw [hcc] at hh
        exact absurd hh (by simp)
    have hk : (acc.map Prod.fst).contains k = false := hfresh k (by simp)
    rw [List.foldl_cons]
    rw [show objSet acc k v = acc ++ [(k, v)] from objSet_append acc k v hk]
    rw [objSet_foldl_nodup rest (acc ++ [(k, v)]) hnd.2 ?_]
    · simp
    · intro k0 hk0
      have h1 : (acc.map Prod.fst).contains k0 = false := hfresh k0 (by simp [hk0])
      have hkk : k0 ≠ k := by
        intro he
        subst he
        rw [List.contains_eq_any_beq] at hndk
        have hany : (rest.map Prod.fst).any (fun x => k0 == x) = true :=
          List.any_of_mem hk0 (by simp)
        rw [hany] at hndk
        exact absurd hndk (by simp)
      have hmap : ((acc ++ [(k, v)]).map Prod.fst) = acc.map Prod.fst ++ [k] := by
        simp
      rw [hmap, List.contains_eq_any_beq, List.any_append]
      rw [List.contains_eq_any_beq] at h1
      simp only [h1, List.any_cons, List.any_nil, Bool.false_or, Bool.or_false]
      simp [hkk]

theorem attrsSent_keys : ∀ (as : List (Str × Option Str)),
    (attrsSent as).map Prod.fst = as.map Prod.fst
  | [] => rfl
  | (k, some v) :: rest => by
    simp only [attrsSent, List.map_cons, attrsSent_keys rest]
  | (k, none) :: rest => by
    simp only [attrsSent, List.map_cons, attrsSent_keys rest]

/-- The attribute object the parser builds from a rendered attribute list
is the sentinel-completed map, in order. -/
theorem attrsObject_render (as : List (Str × Option Str))
    (hwf : ∀ a ∈ as, wfAttr a = true)
    (hnd : nodupKeys (as.map Prod.fst) = true) :
    (attrScanAll (renderAttrs as)).foldl (fun m kv => objSet m kv.1 kv.2) []
      = attrsSent as := by
  have hscan : attrScanAll (renderAttrs as) = attrsSent as := by
    rw [attrScanAll]
    exact attrScan_render as _ hwf
      (by have := renderAttrs_length as hwf; omega)
  rw [hscan, objSet_foldl_nodup (attrsSent as) [] (by rw [attrsSent_keys]; exact hnd)
    (by intro k _; rfl)]
  rfl

/-- Serializing the sentinel-completed attribute map reproduces the
rendered attribute text. -/
theorem getNodeAttributesString_sent : ∀ (as : List (Str × Option Str)),
    (∀ a ∈ as, wfAttr a = true) →
    getNodeAttributesString (attrsSent as) = renderAttrs as
  | [], _ => rfl
  | (k, some v) :: rest, h => by
    obtain ⟨_, _, hv⟩ := wfAttr_parts k (some v) (h _ (by simp))
    have hne : ¬ v = EMPVAL := (hv v rfl).2.2
    show (if v = EMPVAL then ' ' :: k
        else ' ' :: (k ++ '=' :: '"' :: (v ++ ['"']))) ++
        getNodeAttributesString (attrsSent rest) = _
    rw [if_neg hne, getNodeAttributesString_sent rest (fun a ha => h a (by simp [ha]))]
    rfl
  | (k, none) :: rest, h => by
    show (if EMPVAL = EMPVAL then ' ' :: k
        else ' ' :: (k ++ '=' :: '"' :: (EMPVAL ++ ['"']))) ++
        getNodeAttributesString (attrsSent rest) = _
    rw [if_pos rfl, getNodeAttributesString_sent rest (fun a ha => h a (by simp [ha]))]
    rfl

theorem parseStep_text (sp : List Str) (st : PState) (s t : Str)
    (hs : s ≠ []) (hlt : ∀ c ∈ s, c ≠ '<')
    (ht : t = [] ∨ ∃ t0, t = '<' :: t0) :
    parseStep sp st (s ++ t) = some (pushChild st (mkText s), t) := by
  obtain ⟨c, s0, rfl⟩ : ∃ c s0, s = c :: s0 := by
    cases s with
    | nil => exact absurd rfl hs
    | cons c s0 => exact ⟨c, s0, rfl⟩
  have hc : c ≠ '<' := hlt c (by simp)
  show parseStep sp st (c :: (s0 ++ t)) = _
  rw [parseStep, if_neg (fun h => hc h.1), if_neg (fun h => hc h.1),
    if_neg (fun h => hc h.1), if_neg hc]
  rcases ht with rfl | ⟨t0, rfl⟩
  · rw [show (c :: (s0 ++ ([] : Str))) = c :: s0 from by simp]
    rw [firstIdxCh_none (c :: s0) '<' hlt]
  · have hidx : firstIdxCh '<' ((c :: s0) ++ '<' :: t0) = some (c :: s0).length :=
      firstIdxCh_append (c :: s0) '<' t0 hlt
    rw [show (c :: (s0 ++ ('<' :: t0)) : Str) = (c :: s0) ++ '<' :: t0 from rfl, hidx]
    show some (pushChild st (mkText (((c :: s0) ++ '<' :: t0).take (c :: s0).length)),
        ((c :: s0) ++ '<' :: t0).drop (c :: s0).length) = _
    rw [List.take_left, List.drop_left]

theorem parseStep_close (sp : List Str) (fs : List Frame) (acc0 : List PNode)
    (fr : Frame) (n t : Str) (hfr : fr.name = n)
    (hn : n ≠ []) (hnch : ∀ c ∈ n, isNameChar c = true) :
    parseStep sp ⟨fr :: fs, acc0⟩ ('<' :: '/' :: (n ++ '>' :: t))
      = some (pushChild (pushChild ⟨fs, acc0⟩ (frameNode fr))
          (mkClose n false false), t) := by
  have h1 : lPre (("<!--").data) ('<' :: '/' :: (n ++ '>' :: t)) = false := rfl
  have h2 : nonTagAfter ('/' :: (n ++ '>' :: t)) = false := rfl
  have hidx : firstIdxCh '>' ('<' :: '/' :: (n ++ '>' :: t)) = some (n.length + 1 + 1) := by
    have hne : ∀ c ∈ ('<' :: '/' :: n : Str), c ≠ '>' := by
      intro c hc
      simp only [List.mem_cons] at hc
      rcases hc with rfl | rfl | hc
      · decide
      · decide
      · exact nameChar_ne c '>' (hnch c hc) (by decide)
    have := firstIdxCh_append ('<' :: '/' :: n) '>' t hne
    simpa using this
  have htn : jsSubstring ('<' :: '/' :: (n ++ '>' :: t)) 2 (n.length + 1 + 1) = n := by
    unfold jsSubstring
    have hmin : min 2 (n.length + 1 + 1) = 2 := by omega
    have hmax : max 2 (n.length + 1 + 1) = n.length + 1 + 1 := by omega
    rw [hmin, hmax]
    show ((n ++ '>' :: t).take (n.length + 1 + 1 - 2)) = n
    rw [show n.length + 1 + 1 - 2 = n.length from by omega]
    exact List.take_left n _
  have hdrop : ('<' :: '/' :: (n ++ '>' :: t) : Str).drop (n.length + 1 + 1 + 1) = t := by
    show (n ++ '>' :: t).drop (n.length + 1) = t
    rw [List.drop_append]
    rfl
  have hfind : List.findIdx? (fun f => f.name == n) (fr :: fs) = some 0 := by
    rw [List.findIdx?_cons]
    simp [hfr]
  rw [parseStep, if_neg (fun h => by simp [h1] at h),
    if_neg (fun h => by simp [h2] at h),
    if_neg (fun h => h.2 rfl), if_pos rfl, hidx]
  simp only [htn]
  show (match List.findIdx? (fun f => f.name == n) (fr :: fs) with
    | some i =>
      some (pushChild (popFrames (i + 1) ⟨fr :: fs, acc0⟩) (mkClose n false false),
            ('<' :: '/' :: (n ++ '>' :: t) : Str).drop (n.length + 1 + 1 + 1))
    | none =>
      some (pushChild ⟨fr :: fs, acc0⟩ (mkClose n false false),
            ('<' :: '/' :: (n ++ '>' :: t) : Str).drop (n.length + 1 + 1 + 1))) = _
  rw [hfind]
  simp only [hdrop]
  rfl

theorem parseStep_comment (sp : List Str) (st : PState) (s t : Str)
    (hwf : splitOnSub (("-->").data) ((("<!--").data ++ s) ++ ("-->").data)
      = some ((("<!--").data ++ s : Str), ([] : Str))) :
    parseStep sp st (((("<!--").data ++ s) ++ ("-->").data) ++ t)
      = some (pushChild st (mkComment s .htmlComment), t) := by
  have hsplit := splitOnSub_ext (("-->").data) ((("<!--").data ++ s) ++ ("-->").data) t
    (("<!--").data ++ s) (by decide) hwf
  have hshape : ((((("<!--").data ++ s) ++ ("-->").data) ++ t : Str))
      = '<' :: '!' :: '-' :: '-' :: (s ++ (("-->").data ++ t)) := by
    simp [List.append_assoc]
  rw [hshape] at hsplit ⊢
  have hlenpre : ((("<!--").data ++ s : Str)).length = s.length + 4 := by
    simp [List.length_append]
  have hjs : jsSubstring ('<' :: '!' :: '-' :: '-' :: (s ++ (("-->").data ++ t))) 4
      ((("<!--").data ++ s : Str)).length = s := by
    rw [hlenpre]
    unfold jsSubstring
    have hmin : min 4 (s.length + 4) = 4 := by omega
    have hmax : max 4 (s.length + 4) = s.length + 4 := by omega
    rw [hmin, hmax]
    show (s ++ (("-->").data ++ t)).take (s.length + 4 - 4) = s
    rw [show s.length + 4 - 4 = s.length from by omega]
    exact List.take_left s _
  rw [parseStep, if_pos ⟨rfl, rfl⟩, hsplit]
  show some (pushChild st (mkComment (jsSubstring
      ('<' :: '!' :: '-' :: '-' :: (s ++ (("-->").data ++ t))) 4
      ((("<!--").data ++ s : Str)).length) CType.htmlComment), t) = _
  rw [hjs]

theorem renderAttrs_ne : ∀ (as : List (Str × Option Str)),
    (∀ a ∈ as, wfAttr a = true) →
    ∀ c ∈ renderAttrs as, c ≠ '>'
  | [], _, c, hc => by simp [renderAttrs] at hc
  | (k, some v) :: rest, h, c, hc => by
    obtain ⟨hk, hkch, hv⟩ := wfAttr_parts k (some v) (h _ (by simp))
    obtain ⟨_, hv2, _⟩ := hv v rfl
    simp only [renderAttrs, List.mem_cons, List.mem_append, List.mem_singleton] at hc
    rcases hc with (rfl | hc | rfl | rfl | hc | rfl | hc0) | hc
    · decide
    · exact nameChar_ne c '>' (hkch c hc) (by decide)
    · decide
    · decide
    · exact (hv2 c hc).2
    · decide
    · exact absurd hc0 (by simp)
    · exact renderAttrs_ne rest (fun a ha => h a (by simp [ha])) c hc
  | (k, none) :: rest, h, c, hc => by
    obtain ⟨hk, hkch, _⟩ := wfAttr_parts k none (h _ (by simp))
    simp only [renderAttrs, List.mem_cons, List.mem_append, List.mem_singleton] at hc
    rcases hc with (rfl | hc) | hc
    · decide
    · exact nameChar_ne c '>' (hkch c hc) (by decide)
    · exact renderAttrs_ne rest (fun a ha => h a (by simp [ha])) c hc

theorem wfTagName_parts (sp : List Str) (n : Str) (h : wfTagName sp n = true) :
    n ≠ [] ∧ (∀ c ∈ n, isNameChar c = true) ∧ VOID_ELEMS.contains n = false ∧
    n ≠ ("style").data ∧ sp.contains n = false := by
  simp only [wfTagName, Bool.and_eq_true, decide_eq_true_eq, List.all_eq_true,
    Bool.not_eq_true'] at h
  obtain ⟨⟨⟨⟨h1, h2⟩, h3⟩, h4⟩, h5⟩ := h
  exact ⟨h1, fun c hc => h2 c hc, h3, h4, h5⟩

theorem parseStep_open (sp : List Str) (st : PState) (n : Str)
    (as : List (Str × Option Str)) (t : Str)
    (hwfn : wfTagName sp n = true)
    (hwfa : ∀ a ∈ as, wfAttr a = true)
    (hnd : nodupKeys (as.map Prod.fst) = true) :
    parseStep sp st ('<' :: ((n ++ renderAttrs as) ++ '>' :: t))
      = some ({ st with stack := ⟨n, attrsSent as, false, []⟩ :: st.stack }, t) := by
  obtain ⟨hn, hnch, hnv, hnsty, hnsp⟩ := wfTagName_parts sp n hwfn
  obtain ⟨c1, n0, rfl⟩ : ∃ c1 n0, n = c1 :: n0 := by
    cases n with
    | nil => exact absurd rfl hn
    | cons c1 n0 => exact ⟨c1, n0, rfl⟩
  have hc1 : isNameChar c1 = true := hnch c1 (by simp)
  have hb1 : lPre (("<!--").data) ('<' :: (((c1 :: n0) ++ renderAttrs as) ++ '>' :: t))
      = false := by
    show (decide (('!' : Char) = c1) &&
      lPre (("--").data) ((n0 ++ renderAttrs as) ++ '>' :: t)) = false
    rw [decide_eq_false (fun he => nameChar_ne c1 '!' hc1 (by decide) he.symm)]
    rfl
  have hb2 : nonTagAfter (((c1 :: n0) ++ renderAttrs as) ++ '>' :: t) = false := by
    show (c1 == '<' || c1 == ' ' || (c1 != '/' && c1 != '!' && !isNameChar c1)) = false
    have e1 : (c1 == '<') = false := by
      cases hq : c1 == '<'
      · rfl
      · exact absurd (by simpa using hq) (nameChar_ne c1 '<' hc1 (by decide))
    have e2 : (c1 == ' ') = false := by
      cases hq : c1 == ' '
      · rfl
      · exact absurd (by simpa using hq) (nameChar_ne c1 ' ' hc1 (by decide))
    rw [e1, e2, hc1]
    simp
  have hhead : ((((c1 :: n0) ++ renderAttrs as) ++ '>' :: t : Str)).head? ≠ some '/' := by
    show some c1 ≠ some '/'
    intro he
    exact nameChar_ne c1 '/' hc1 (by decide) (Option.some.inj he)
  have hragt := renderAttrs_ne as hwfa
  have hidx : firstIdxCh '>' ('<' :: (((c1 :: n0) ++ renderAttrs as) ++ '>' :: t))
      = some ((((c1 :: n0) ++ renderAttrs as : Str)).length + 1) := by
    have hne : ∀ c ∈ ('<' :: ((c1 :: n0) ++ renderAttrs as) : Str), c ≠ '>' := by
      intro c hc
      simp only [List.mem_cons, List.mem_append] at hc
      rcases hc with rfl | ((rfl | hc) | hc)
      · decide
      · exact nameChar_ne c '>' hc1 (by decide)
      · exact nameChar_ne c '>' (hnch c (by simp [hc])) (by decide)
      · exact hragt c hc
    have := firstIdxCh_append ('<' :: ((c1 :: n0) ++ renderAttrs as)) '>' t hne
    simpa using this
  have hjs : jsSubstring ('<' :: (((c1 :: n0) ++ renderAttrs as) ++ '>' :: t)) 1
      ((((c1 :: n0) ++ renderAttrs as : Str)).length + 1)
      = (c1 :: n0) ++ renderAttrs as := by
    unfold jsSubstring
    rw [show min 1 ((((c1 :: n0) ++ renderAttrs as : Str)).length + 1) = 1 from by omega,
      show max 1 ((((c1 :: n0) ++ renderAttrs as : Str)).length + 1)
        = (((c1 :: n0) ++ renderAttrs as : Str)).length + 1 from by omega]
    show (((c1 :: n0) ++ renderAttrs as) ++ '>' :: t).take
        ((((c1 :: n0) ++ renderAttrs as : Str)).length + 1 - 1) = _
    rw [show (((c1 :: n0) ++ renderAttrs as : Str)).length + 1 - 1
        = (((c1 :: n0) ++ renderAttrs as : Str)).length from by omega]
    exact List.take_left _ _
  have htn : ((c1 :: n0) ++ renderAttrs as : Str).takeWhile (fun ch => !isJsWs ch)
      = c1 :: n0 := by
    rw [takeWhile_all_append _ (c1 :: n0) _
      (fun c hc => by rw [nameChar_not_ws c (hnch c hc)]; rfl)]
    rcases renderAttrs_shape as with he | ⟨t0, he⟩
    · rw [he]
      simp
    · rw [he, show ((' ' :: t0 : Str)).takeWhile (fun ch => !isJsWs ch) = [] from rfl]
      simp
  have hdropA : ((c1 :: n0) ++ renderAttrs as : Str).drop ((c1 :: n0 : Str)).length
      = renderAttrs as := List.drop_left _ _
  have hscan : attrScanAll (renderAttrs as) = attrsSent as := by
    rw [attrScanAll]
    exact attrScan_render as _ hwfa (by have := renderAttrs_length as hwfa; omega)
  have hfold : (attrsSent as).foldl (fun m kv => objSet m kv.1 kv.2) [] = attrsSent as := by
    rw [objSet_foldl_nodup (attrsSent as) [] (by rw [attrsSent_keys]; exact hnd)
      (by intro k _; rfl)]
    rfl
  have hstyleEq : (if (c1 :: n0 : Str) = ("style").data then
      splitOnSub (("</style>").data) ('<' :: (((c1 :: n0) ++ renderAttrs as) ++ '>' :: t))
      else none) = none := if_neg hnsty
  have hdropEnd : ('<' :: (((c1 :: n0) ++ renderAttrs as) ++ '>' :: t) : Str).drop
      ((((c1 :: n0) ++ renderAttrs as : Str)).length + 1 + 1) = t := by
    show (((c1 :: n0) ++ renderAttrs as) ++ '>' :: t).drop
        ((((c1 :: n0) ++ renderAttrs as : Str)).length + 1) = t
    rw [List.drop_append]
    rfl
  rw [parseStep, if_neg (fun h => by rw [hb1] at h; simp at h),
    if_neg (fun h => by rw [hb2] at h; simp at h),
    if_pos ⟨rfl, hhead⟩, hidx]
  simp only [hjs, htn, hdropA, hscan, hfold, hstyleEq, hnsp, hnv, hdropEnd,
    Bool.false_and]
  simp

theorem firstIdxCh_cons_pos (ch c : Char) (cs : Str) (k : Nat) (hc : c ≠ ch)
    (h : firstIdxCh ch (c :: cs) = some k) : 1 ≤ k := by
  rw [firstIdxCh, if_neg hc] at h
  cases hq : firstIdxCh ch cs with
  | none => rw [hq] at h; simp at h
  | some i =>
    rw [hq] at h
    simp only [Option.some.injEq] at h
    omega

theorem parseStep_progress (sp : List Str) (st : PState) (cs : Str)
    (st2 : PState) (cs2 : Str) (h : parseStep sp st cs = some (st2, cs2)) :
    cs2.length < cs.length := by
  cases cs with
  | nil => rw [parseStep] at h; exact absurd h (by simp)
  | cons c rest =>
    rw [parseStep] at h
    simp only [List.length_cons]
    split at h
    · -- comment branch
      cases hsp : splitOnSub (("-->").data) (c :: rest) with
      | none =>
        rw [hsp] at h
        dsimp only at h
        simp only [Option.some.injEq, Prod.mk.injEq] at h
        rw [← h.2]
        omega
      | some pr =>
        obtain ⟨pre, post⟩ := pr
        rw [hsp] at h
        dsimp only at h
        simp only [Option.some.injEq, Prod.mk.injEq] at h
        have hdec := splitOnSub_decomp _ _ _ _ hsp
        have hlen := congrArg List.length hdec
        simp only [List.length_cons, List.length_append] at hlen
        rw [← h.2]
        have h3 : (("-->").data : Str).length = 3 := rfl
        omega
    · -- not a comment
      split at h
      · -- bogus-< branch
        cases hix : firstIdxCh '<' rest with
        | none =>
          rw [hix] at h
          dsimp only at h
          simp only [Option.some.injEq, Prod.mk.injEq] at h
          rw [← h.2]
          simp
        | some i =>
          rw [hix] at h
          dsimp only at h
          simp only [Option.some.injEq, Prod.mk.injEq] at h
          rw [← h.2]
          simp only [List.length_drop]
          omega
      · split at h
        · -- opening-tag branch
          cases hix : firstIdxCh '>' (c :: rest) with
          | none =>
            rw [hix] at h
            dsimp only at h
            simp only [Option.some.injEq, Prod.mk.injEq] at h
            rw [← h.2]
            omega
          | some tagEnd =>
            rw [hix] at h
            dsimp only at h
            split at h
            · rename_i pr preC hsty
              simp only [Option.some.injEq, Prod.mk.injEq] at h
              rw [← h.2]
              simp only [List.length_drop, List.length_cons]
              omega
            · split at h
              · rename_i pr preS hspec
                simp only [Option.some.injEq, Prod.mk.injEq] at h
                rw [← h.2]
                simp only [List.length_drop, List.length_cons]
                omega
              · split at h
                · simp only [Option.some.injEq, Prod.mk.injEq] at h
                  rw [← h.2]
                  simp only [List.length_drop, List.length_cons]
                  omega
                · simp only [Option.some.injEq, Prod.mk.injEq] at h
                  rw [← h.2]
                  simp only [List.length_drop, List.length_cons]
                  omega
        · split at h
          · -- closing-tag branch
            cases hix : firstIdxCh '>' (c :: rest) with
            | none =>
              rw [hix] at h
              dsimp only at h
              simp only [Option.some.injEq, Prod.mk.injEq] at h
              rw [← h.2]
              omega
            | some tagEnd =>
              rw [hix] at h
              dsimp only at h
              split at h
              · simp only [Option.some.injEq, Prod.mk.injEq] at h
                rw [← h.2]
                simp only [List.length_drop, List.length_cons]
                omega
              · simp only [Option.some.injEq, Prod.mk.injEq] at h
                rw [← h.2]
                simp only [List.length_drop, List.length_cons]
                omega
          · -- text branch
            rename_i hc1 hc2 hc3 hc4
            cases hix : firstIdxCh '<' (c :: rest) with
            | none =>
              rw [hix] at h
              dsimp only at h
              simp only [Option.some.injEq, Prod.mk.injEq] at h
              rw [← h.2]
              simp
            | some k =>
              rw [hix] at h
              dsimp only at h
              simp only [Option.some.injEq, Prod.mk.injEq] at h
              have hcne : c ≠ '<' := fun he => hc4 he
              have hk1 : 1 ≤ k := firstIdxCh_cons_pos '<' c rest k hcne hix
              rw [← h.2]
              simp only [List.length_drop, List.length_cons]
              omega

theorem parseLoop_fuel : ∀ (f1 : Nat) (sp : List Str) (f2 : Nat) (st : PState) (cs : Str),
    cs.length < f1 → cs.length < f2 →
    parseLoop sp f1 st cs = parseLoop sp f2 st cs
  | 0, sp, f2, st, cs, h1, _ => by omega
  | f1 + 1, sp, 0, st, cs, _, h2 => by omega
  | f1 + 1, sp, f2 + 1, st, cs, h1, h2 => by
    cases hs : parseStep sp st cs with
    | none => rw [parseLoop, parseLoop, hs]
    | some pr =>
      obtain ⟨st2, cs2⟩ := pr
      have hp := parseStep_progress sp st cs st2 cs2 hs
      rw [parseLoop, parseLoop, hs]
      exact parseLoop_fuel f1 sp f2 st2 cs2 (by omega) (by omega)

theorem pushForest_stack : ∀ (ns : List PNode) (f : Frame) (fs : List Frame)
    (acc : List PNode),
    pushForest ⟨f :: fs, acc⟩ ns = ⟨{ f with children := f.children ++ ns } :: fs, acc⟩
  | [], f, fs, acc => by simp [pushForest]
  | n :: ns, f, fs, acc => by
    show pushForest (pushChild ⟨f :: fs, acc⟩ n) ns = _
    rw [show pushChild ⟨f :: fs, acc⟩ n
        = ⟨{ f with children := f.children ++ [n] } :: fs, acc⟩ from rfl]
    rw [pushForest_stack ns _ fs acc]
    simp

theorem itemSize_pos : ∀ (i : HItem), 1 ≤ itemSize i
  | .htext _ => le_refl _
  | .hcomment _ => le_refl _
  | .helem _ _ b => by simp [itemSize]

theorem wfItems_cons (sp : List Str) (i : HItem) (rest : List HItem)
    (h : wfItems sp (i :: rest) = true) :
    wfItem sp i = true ∧ adjOk i rest = true ∧ wfItems sp rest = true := by
  simp only [wfItems, Bool.and_eq_true] at h
  exact ⟨h.1.1, h.1.2, h.2⟩

theorem wfItem_elem (sp : List Str) (n : Str) (as : List (Str × Option Str))
    (b : List HItem) (h : wfItem sp (.helem n as b) = true) :
    wfTagName sp n = true ∧ (∀ a ∈ as, wfAttr a = true) ∧
    nodupKeys (as.map Prod.fst) = true ∧ wfItems sp b = true := by
  simp only [wfItem, Bool.and_eq_true, List.all_eq_true] at h
  exact ⟨h.1.1.1, fun a ha => h.1.1.2 a ha, h.1.2, h.2⟩

theorem next_start (sp : List Str) (rest : List HItem) (tail : Str)
    (hwf : wfItems sp rest = true)
    (htail : tail = [] ∨ ∃ t0, tail = '<' :: t0)
    (hadj : ∀ s0 r0, rest = HItem.htext s0 :: r0 → False) :
    renderItems rest ++ tail = [] ∨ ∃ t0, renderItems rest ++ tail = '<' :: t0 := by
  cases rest with
  | nil =>
    rcases htail with rfl | ⟨t0, rfl⟩
    · exact Or.inl rfl
    · exact Or.inr ⟨t0, rfl⟩
  | cons i r0 =>
    cases i with
    | htext s0 => exact absurd (hadj s0 r0 rfl) (fun hf => hf)
    | hcomment s0 => exact Or.inr ⟨_, rfl⟩
    | helem n as b => exact Or.inr ⟨_, rfl⟩

theorem parse_run : ∀ (N : Nat) (items : List HItem) (sp : List Str) (st : PState)
    (tail : Str) (fuel : Nat),
    itemsSize items ≤ N →
    wfItems sp items = true →
    (tail = [] ∨ ∃ t0, tail = '<' :: t0) →
    (renderItems items ++ tail).length < fuel →
    parseLoop sp fuel st (renderItems items ++ tail)
      = parseLoop sp (tail.length + 1) (pushForest st (toForest items)) tail
  | N, [], sp, st, tail, fuel, _, _, _, hfuel => by
    simp only [renderItems, List.nil_append] at hfuel ⊢
    exact parseLoop_fuel fuel sp (tail.length + 1) st tail hfuel (by omega)
  | 0, i :: rest, sp, st, tail, fuel, hN, _, _, _ => by
    have h1 := itemSize_pos i
    simp only [itemsSize] at hN
    omega
  | N + 1, .htext s :: rest, sp, st, tail, fuel, hN, hwf, htail, hfuel => by
    obtain ⟨hwi, hadj, hwrest⟩ := wfItems_cons sp _ rest hwf
    have hs : s ≠ [] ∧ s.contains '<' = false := by
      simp only [wfItem, Bool.and_eq_true, decide_eq_true_eq, Bool.not_eq_true'] at hwi
      exact hwi
    have hnext := next_start sp rest tail hwrest htail
      (fun s0 r0 he => by rw [he] at hadj; simp [adjOk] at hadj)
    have heq : renderItems (.htext s :: rest) ++ tail
        = s ++ (renderItems rest ++ tail) := by
      simp [renderItems, renderItem, List.append_assoc]
    rw [heq] at hfuel ⊢
    cases fuel with
    | zero => exact absurd hfuel (by omega)
    | succ f =>
      rw [parseLoop, parseStep_text sp st s (renderItems rest ++ tail)
        hs.1 (contains_all_ne s '<' hs.2) hnext]
      show parseLoop sp f (pushChild st (mkText s)) (renderItems rest ++ tail) = _
      rw [parse_run N rest sp (pushChild st (mkText s)) tail f
        (by simp only [itemsSize, itemSize] at hN; omega) hwrest htail
        (by have hl : 1 ≤ s.length := List.length_pos.mpr hs.1
            simp only [List.length_append] at hfuel ⊢
            omega)]
      rfl
  | N + 1, .hcomment s :: rest, sp, st, tail, fuel, hN, hwf, htail, hfuel => by
    obtain ⟨hwi, hadj, hwrest⟩ := wfItems_cons sp _ rest hwf
    have hsp : splitOnSub (("-->").data) ((("<!--").data ++ s) ++ ("-->").data)
        = some ((("<!--").data ++ s : Str), ([] : Str)) := by
      simp only [wfItem, beq_iff_eq] at hwi
      exact hwi
    have heq : renderItems (.hcomment s :: rest) ++ tail
        = ((("<!--").data ++ s) ++ ("-->").data) ++ (renderItems rest ++ tail) := by
      simp [renderItems, renderItem, List.append_assoc]
    rw [heq] at hfuel ⊢
    cases fuel with
    | zero => exact absurd hfuel (by omega)
    | succ f =>
      rw [parseLoop, parseStep_comment sp st s (renderItems rest ++ tail) hsp]
      show parseLoop sp f (pushChild st (mkComment s .htmlComment))
        (renderItems rest ++ tail) = _
      rw [parse_run N rest sp (pushChild st (mkComment s .htmlComment)) tail f
        (by simp only [itemsSize, itemSize] at hN; omega) hwrest htail
        (by simp only [List.length_append, List.length_cons, List.length_nil]
              at hfuel ⊢
            omega)]
      rfl
  | N + 1, .helem n as b :: rest, sp, st, tail, fuel, hN, hwf, htail, hfuel => by
    obtain ⟨hwi, hadj, hwrest⟩ := wfItems_cons sp _ rest hwf
    obtain ⟨hwfn, hwfa, hnd, hwfb⟩ := wfItem_elem sp n as b hwi
    have heq : renderItems (.helem n as b :: rest) ++ tail
        = '<' :: ((n ++ renderAttrs as) ++ '>' :: (renderItems b ++
            ('<' :: '/' :: (n ++ '>' :: (renderItems rest ++ tail))))) := by
      simp [renderItems, renderItem, List.append_assoc]
    rw [heq] at hfuel ⊢
    cases fuel with
    | zero => exact absurd hfuel (by omega)
    | succ f =>
      rw [parseLoop, parseStep_open sp st n as
        (renderItems b ++ ('<' :: '/' :: (n ++ '>' :: (renderItems rest ++ tail))))
        hwfn hwfa hnd]
      show parseLoop sp f { st with stack := ⟨n, attrsSent as, false, []⟩ :: st.stack }
        (renderItems b ++ ('<' :: '/' :: (n ++ '>' :: (renderItems rest ++ tail)))) = _
      rw [parse_run N b sp _ ('<' :: '/' :: (n ++ '>' :: (renderItems rest ++ tail))) f
        (by simp only [itemsSize, itemSize] at hN; omega) hwfb
        (Or.inr ⟨_, rfl⟩)
        (by simp only [List.length_append, List.length_cons] at hfuel ⊢
            omega)]
      rw [show ({ st with stack := ⟨n, attrsSent as, false, []⟩ :: st.stack } : PState)
          = ⟨(⟨n, attrsSent as, false, []⟩ : Frame) :: st.stack, st.acc⟩ from rfl]
      rw [pushForest_stack (toForest b) _ st.stack st.acc]
      simp only [List.nil_append]
      rw [parseLoop, parseStep_close sp st.stack st.acc
        ⟨n, attrsSent as, false, toForest b⟩ n (renderItems rest ++ tail) rfl
        (by
          obtain ⟨h1, _, _, _, _⟩ := wfTagName_parts sp n hwfn
          exact h1)
        (by
          obtain ⟨_, h2, _, _, _⟩ := wfTagName_parts sp n hwfn
          exact h2)]
      show parseLoop sp ('<' :: '/' :: (n ++ '>' :: (renderItems rest ++ tail)) : Str).length
        (pushChild (pushChild ⟨st.stack, st.acc⟩
          (frameNode ⟨n, attrsSent as, false, toForest b⟩)) (mkClose n false false))
        (renderItems rest ++ tail) = _
      rw [parse_run N rest sp _ tail _
        (by simp only [itemsSize, itemSize] at hN; omega) hwrest htail
        (by simp only [List.length_append, List.length_cons]
            omega)]
      rfl

theorem pushForest_nilstack : ∀ (ns : List PNode) (acc : List PNode),
    pushForest ⟨[], acc⟩ ns = ⟨[], acc ++ ns⟩
  | [], acc => by simp [pushForest]
  | n :: ns, acc => by
    show pushForest (pushChild ⟨[], acc⟩ n) ns = _
    rw [show pushChild ⟨[], acc⟩ n = ⟨[], acc ++ [n]⟩ from rfl,
      pushForest_nilstack ns (acc ++ [n])]
    simp

theorem parseHtml_items (sp : List Str) (items : List HItem)
    (hwf : wfItems sp items = true) :
    parseHtml sp (renderItems items) = mkRoot (toForest items) := by
  have hrun := parse_run (itemsSize items) items sp ⟨[], []⟩ []
    ((renderItems items).length + 1) (le_refl _) hwf (Or.inl rfl) (by simp)
  rw [List.append_nil] at hrun
  show parseLoop sp ((renderItems items).length + 1) ⟨[], []⟩ (renderItems items)
      = mkRoot (toForest items)
  rw [hrun, pushForest_nilstack]
  rw [show parseLoop sp (List.length ([] : Str) + 1) ⟨[], [] ++ toForest items⟩ []
      = finalizeStack [] ([] ++ toForest items) from rfl]
  simp [finalizeStack]

theorem toHtmlList_append (sc : Bool) : ∀ (a b : List PNode),
    toHtmlList sc (a ++ b) = toHtmlList sc a ++ toHtmlList sc b
  | [], b => rfl
  | n :: ns, b => by
    show n.toHtml sc ++ toHtmlList sc (ns ++ b) = (n.toHtml sc ++ toHtmlList sc ns) ++ _
    rw [toHtmlList_append sc ns b, List.append_assoc]

mutual

theorem toHtml_toNodes : ∀ (sp : List Str) (i : HItem), wfItem sp i = true →
    toHtmlList true (toNodes i) = renderItem i
  | sp, .htext s, _ => by
    show (mkText s).toHtml true ++ toHtmlList true [] = s
    rw [show ((mkText s).toHtml true : Str) = s from rfl]
    simp [toHtmlList]
  | sp, .hcomment s, _ => by
    show (mkComment s .htmlComment).toHtml true ++ toHtmlList true [] = _
    rw [show ((mkComment s .htmlComment).toHtml true : Str)
        = ("<!--").data ++ s ++ ("-->").data from rfl]
    show (("<!--").data ++ s ++ ("-->").data) ++ [] = ("<!--").data ++ s ++ ("-->").data
    simp
  | sp, .helem n as b, h => by
    obtain ⟨hwfn, hwfa, hnd, hwfb⟩ := wfItem_elem sp n as b h
    show ('<' :: (n ++ getNodeAttributesString (attrsSent as) ++ ['>'])
        ++ toHtmlList true (toForest b)) ++ (('<' :: '/' :: (n ++ ['>'])) ++ []) = _
    rw [getNodeAttributesString_sent as hwfa, toHtmlList_toForest sp b hwfb]
    show _ = '<' :: (n ++ renderAttrs as ++ ['>']) ++ renderItems b
      ++ ('<' :: '/' :: (n ++ ['>']))
    simp [List.append_assoc]

theorem toHtmlList_toForest : ∀ (sp : List Str) (items : List HItem),
    wfItems sp items = true →
    toHtmlList true (toForest items) = renderItems items
  | sp, [], _ => rfl
  | sp, i :: is, h => by
    obtain ⟨hwi, _, hwis⟩ := wfItems_cons sp i is h
    show toHtmlList true (toNodes i ++ toForest is) = _
    rw [toHtmlList_append, toHtml_toNodes sp i hwi, toHtmlList_toForest sp is hwis]
    rfl

end

/-- C1: for inputs made of text runs, well-formed comments, and well-formed
already-paired (non-void, non-style, non-special) elements with well-formed
attributes, serialization with comments shown is exactly inverse to
parsing: `toHtml true (parse input) = input`. -/
theorem c1_round_trip (sp : List Str) (items : List HItem)
    (hwf : wfItems sp items = true) :
    PNode.toHtml true (parseHtml sp (renderItems items)) = renderItems items := by
  rw [parseHtml_items sp items hwf]
  show toHtmlList true (toForest items) = renderItems items
  exact toHtmlList_toForest sp items hwf

/-- Closed instance of the C1 round-trip on
`Hello <div id="a" hidden><!-- hi -->text</div><!--done-->`. -/
theorem c1_round_trip_witness :
    wfItems defaultSpecialTags
      [HItem.htext (("Hello ").data),
       HItem.helem (("div").data)
         [((("id").data), some (("a").data)), ((("hidden").data), none)]
         [HItem.hcomment ((" hi ").data), HItem.htext (("text").data)],
       HItem.hcomment (("done").data)] = true ∧
    renderItems
      [HItem.htext (("Hello ").data),
       HItem.helem (("div").data)
         [((("id").data), some (("a").data)), ((("hidden").data), none)]
         [HItem.hcomment ((" hi ").data), HItem.htext (("text").data)],
       HItem.hcomment (("done").data)]
      = (("Hello <div id=\"a\" hidden><!-- hi -->text</div><!--done-->").data) ∧
    PNode.toHtml true (parseHtml defaultSpecialTags (renderItems
      [HItem.htext (("Hello ").data),
       HItem.helem (("div").data)
         [((("id").data), some (("a").data)), ((("hidden").data), none)]
         [HItem.hcomment ((" hi ").data), HItem.htext (("text").data)],
       HItem.hcomment (("done").data)]))
      = renderItems
      [HItem.htext (("Hello ").data),
       HItem.helem (("div").data)
         [((("id").data), some (("a").data)), ((("hidden").data), none)]
         [HItem.hcomment ((" hi ").data), HItem.htext (("text").data)],
       HItem.hcomment (("done").data)] :=
  ⟨by decide, by decide,
   c1_round_trip defaultSpecialTags
     [HItem.htext (("Hello ").data),
      HItem.helem (("div").data)
        [((("id").data), some (("a").data)), ((("hidden").data), none)]
        [HItem.hcomment ((" hi ").data), HItem.htext (("text").data)],
      HItem.hcomment (("done").data)] (by decide)⟩

mutual

/-- Style-flag discipline of parser-produced trees: a `styleBlock`-flagged
node is either a `tag-open` (the style element, whose children are owned
by the css-root) or childless (the synthetic style close tag). -/
def styleOkN : PNode → Bool
  | .node nt _ _ _ _ sb _ _ _ _ _ ch =>
    (decide (sb = false) || decide (nt = NType.tagOpen) || ch.isEmpty) && styleOkL ch

/-- `styleOkN` over a node list. -/
def styleOkL : List PNode → Bool
  | [] => true
  | n :: ns => styleOkN n && styleOkL ns

end

theorem styleOkL_append : ∀ (a b : List PNode),
    styleOkL (a ++ b) = (styleOkL a && styleOkL b)
  | [], b => by simp [styleOkL]
  | n :: ns, b => by
    show (styleOkN n && styleOkL (ns ++ b)) = ((styleOkN n && styleOkL ns) && styleOkL b)
    rw [styleOkL_append ns b, Bool.and_assoc]

theorem styleOk_mkText (s : Str) : styleOkN (mkText s) = true := rfl

theorem styleOk_mkComment (s : Str) (ct : CType) : styleOkN (mkComment s ct) = true := rfl

theorem styleOk_mkClose (n : Str) (sb scb : Bool) :
    styleOkN (mkClose n sb scb) = true := by
  cases sb <;> rfl

theorem miniLexPost_ok (sc : Str) (st : LexSt) (h : styleOkL st.acc = true) :
    styleOkL (miniLexPost sc st) = true := by
  unfold miniLexPost
  split
  · rw [styleOkL_append, h]
    rfl
  · split
    · rw [styleOkL_append, h]
      rfl
    · exact h

theorem miniLexGo_ok : ∀ (fuel : Nat) (sc : Str) (i : Nat) (st : LexSt),
    styleOkL st.acc = true → styleOkL (miniLexGo fuel sc i st) = true
  | 0, sc, i, st, h => miniLexPost_ok sc st h
  | fuel + 1, sc, i, st, h => by
    have hstep : ∀ (j : Nat) (st2 : LexSt), styleOkL st2.acc = true →
        styleOkL (miniLexGo fuel sc j st2) = true :=
      fun j st2 h2 => miniLexGo_ok fuel sc j st2 h2
    have happ : ∀ (n : PNode), styleOkN n = true →
        styleOkL (st.acc ++ [n]) = true := by
      intro n hn
      rw [styleOkL_append, h]
      show (true && (styleOkN n && styleOkL [])) = true
      rw [hn]
      rfl
    rw [miniLexGo]
    by_cases h1 : sc.length ≤ i
    · rw [if_pos h1]
      exact miniLexPost_ok sc st h
    · rw [if_neg h1]
      lift_lets
      extract_lets char next prev a1
      have ha1 : styleOkL a1 = true := by
        show styleOkL (if st.textStart < i then
            st.acc ++ [mkText (jsSubstring sc st.textStart i)] else st.acc) = true
        split
        · exact happ _ (styleOk_mkText _)
        · exact h
      by_cases h2 : prev = some bslashC
      · rw [if_pos h2]
        exact hstep _ _ h
      · rw [if_neg h2]
        by_cases h3 : ¬st.inComment = true ∧ ¬st.inRegex = true ∧
            (char = '"' ∨ char = squoteC ∨ char = btickC)
        · rw [if_pos h3]
          by_cases h3a : ¬st.inString = true
          · rw [if_pos h3a]
            exact hstep _ _ h
          · rw [if_neg h3a]
            by_cases h3b : char = st.stringChar
            · rw [if_pos h3b]
              exact hstep _ _ h
            · rw [if_neg h3b]
              exact hstep _ _ h
        · rw [if_neg h3]
          by_cases h4 : ¬st.inComment = true ∧ ¬st.inString = true ∧ char = '/' ∧
              prev ≠ some '*' ∧ (i = 0 ∨ jsRegexContextCh (sc.getD (i - 1) (Char.ofNat 0)) = true)
          · rw [if_pos h4]
            exact hstep _ _ h
          · rw [if_neg h4]
            by_cases h5 : st.inRegex = true ∧ char = '/' ∧ prev ≠ some bslashC
            · rw [if_pos h5]
              exact hstep _ _ h
            · rw [if_neg h5]
              by_cases h6 : ¬st.inString = true ∧ ¬st.inRegex = true ∧ ¬st.inComment = true
              · rw [if_pos h6]
                by_cases h6a : char = '/' ∧ next = some '/'
                · rw [if_pos h6a]
                  exact hstep _ _ ha1
                · rw [if_neg h6a]
                  by_cases h6b : char = '/' ∧ next = some '*'
                  · rw [if_pos h6b]
                    exact hstep _ _ ha1
                  · rw [if_neg h6b]
                    exact hstep _ _ h
              · rw [if_neg h6]
                by_cases h7 : st.inComment = true
                · rw [if_pos h7]
                  by_cases h7a : st.ctype = CType.jsSingleLine ∧ char = '\n'
                  · rw [if_pos h7a]
                    exact hstep _ _ (happ _ (styleOk_mkComment _ _))
                  · rw [if_neg h7a]
                    by_cases h7b : st.ctype = CType.jsMultiLine ∧ char = '*' ∧ next = some '/'
                    · rw [if_pos h7b]
                      exact hstep _ _ (happ _ (styleOk_mkComment _ _))
                    · rw [if_neg h7b]
                      exact hstep _ _ h
                · rw [if_neg h7]
                  exact hstep _ _ h

theorem miniLex_ok (sc : Str) : styleOkL (miniLex sc) = true :=
  miniLexGo_ok _ sc 0 _ rfl

theorem styleOk_mkCssComment (s : Str) : styleOkN (mkCssComment s) = true := rfl

theorem styleOk_mkCssRule (s : Str) (d : AttrMap) (k : List PNode) :
    styleOkN (mkCssRule s d k) = styleOkL k := rfl

theorem styleOk_mkCssAtRule (nm p : Str) (d : AttrMap) (k : List PNode) :
    styleOkN (mkCssAtRule nm p d k) = styleOkL k := rfl

theorem cssParseComment_ok (cs : Str) (n : PNode) (r : Str)
    (h : cssParseComment cs = some (n, r)) : styleOkN n = true := by
  unfold cssParseComment at h
  split at h
  · split at h
    · simp only [Option.some.injEq, Prod.mk.injEq] at h
      rw [← h.1]
      exact styleOk_mkCssComment _
    · simp only [Option.some.injEq, Prod.mk.injEq] at h
      rw [← h.1]
      exact styleOk_mkCssComment _
  · exact absurd h (by simp)

theorem cssParseAtRule_ok : ∀ (fuel : Nat) (cs : Str) (n : PNode),
    (cssParseAtRule fuel cs).1 = some n →
    (∀ f2 cs2 d2 k2, f2 < fuel → styleOkL k2 = true →
      styleOkL (cssParseBlock f2 cs2 d2 k2).2.1 = true) →
    styleOkN n = true := by
  intro fuel cs n h hblk
  match fuel, h with
  | 0, h => exact absurd (by rw [cssParseAtRule] at h; exact h) (by simp)
  | fuel + 1, h =>
    rw [cssParseAtRule.eq_def] at h
    dsimp only at h
    split at h
    · -- '@' :: afterAt
      try dsimp only at h
      split at h
      · -- import/charset/namespace
        simp only [Option.some.injEq] at h
        rw [← h, styleOk_mkCssAtRule]
        rfl
      · -- general at-rule: params, then block or bare
        split at h
        · -- after params: c :: r3
          split at h
          · -- c = obrC: block form
            simp only [Option.some.injEq] at h
            rw [← h, styleOk_mkCssAtRule]
            exact hblk _ _ _ _ (by omega) (show styleOkL [] = true from rfl)
          · simp only [Option.some.injEq] at h
            rw [← h, styleOk_mkCssAtRule]
            rfl
        · -- after params: end of input
          simp only [Option.some.injEq] at h
          rw [← h, styleOk_mkCssAtRule]
          rfl
    · exact Option.noConfusion h

theorem cssParseRule_ok : ∀ (fuel : Nat) (cs : Str) (n : PNode),
    (cssParseRule fuel cs).1 = some n →
    (∀ f2 cs2 d2 k2, f2 < fuel → styleOkL k2 = true →
      styleOkL (cssParseBlock f2 cs2 d2 k2).2.1 = true) →
    styleOkN n = true := by
  intro fuel cs n h hblk
  match fuel, h with
  | 0, h => exact absurd (by rw [cssParseRule] at h; exact h) (by simp)
  | fuel + 1, h =>
    rw [cssParseRule.eq_def] at h
    dsimp only at h
    split at h
    · -- rest = c :: r2
      split at h
      · -- empty selector
        exact Option.noConfusion h
      · split at h
        · -- c = obrC: rule with block
          simp only [Option.some.injEq] at h
          rw [← h, styleOk_mkCssRule]
          exact hblk _ _ _ _ (by omega) (show styleOkL [] = true from rfl)
        · exact Option.noConfusion h
    · exact Option.noConfusion h
theorem cssParseBlock_ok : ∀ (fuel : Nat) (cs : Str) (decls : AttrMap)
    (kids : List PNode), styleOkL kids = true →
    styleOkL (cssParseBlock fuel cs decls kids).2.1 = true := by
  intro fuel
  induction fuel using Nat.strong_induction_on with
  | _ fuel ih =>
    match fuel with
    | 0 => exact fun cs decls kids h => h
    | fuel + 1 =>
      intro cs decls kids h
      rw [cssParseBlock.eq_def]
      dsimp only
      split
      · exact h
      · split
        · exact h
        · split
          · split
            · rename_i nn rr hcm
              refine ih fuel (by omega) _ _ _ ?_
              rw [styleOkL_append, h]
              rw [show styleOkL [nn] = (styleOkN nn && true) from rfl,
                cssParseComment_ok _ nn rr hcm]
              rfl
            · exact ih fuel (by omega) _ _ _ h
          · split
            · split
              · rename_i pr nn rr hat
                refine ih fuel (by omega) _ _ _ ?_
                rw [styleOkL_append, h]
                rw [show styleOkL [nn] = (styleOkN nn && true) from rfl]
                rw [cssParseAtRule_ok fuel _ nn (congrArg Prod.fst hat)
                  (fun f2 cs2 d2 k2 hf hk => ih f2 (by omega) cs2 d2 k2 hk)]
                rfl
              · exact ih fuel (by omega) _ _ _ h
            · split
              · split
                · rename_i pr nn rr hru
                  refine ih fuel (by omega) _ _ _ ?_
                  rw [styleOkL_append, h]
                  rw [show styleOkL [nn] = (styleOkN nn && true) from rfl]
                  rw [cssParseRule_ok fuel _ nn (congrArg Prod.fst hru)
                    (fun f2 cs2 d2 k2 hf hk => ih f2 (by omega) cs2 d2 k2 hk)]
                  rfl
                · exact ih fuel (by omega) _ _ _ h
              · exact ih fuel (by omega) _ _ _ h
theorem cssParseTop_ok : ∀ (fuel : Nat) (cs : Str) (kids : List PNode),
    styleOkL kids = true → styleOkL (cssParseTop fuel cs kids) = true
  | 0, cs, kids, h => h
  | fuel + 1, cs, kids, h => by
    rw [cssParseTop.eq_def]
    dsimp only
    split
    · exact h
    · split
      · split
        · rename_i nn rr hcm
          refine cssParseTop_ok fuel _ _ ?_
          rw [styleOkL_append, h]
          rw [show styleOkL [nn] = (styleOkN nn && true) from rfl,
            cssParseComment_ok _ nn rr hcm]
          rfl
        · exact cssParseTop_ok fuel _ _ h
      · split
        · split
          · rename_i pr nn rr hat
            refine cssParseTop_ok fuel _ _ ?_
            rw [styleOkL_append, h]
            rw [show styleOkL [nn] = (styleOkN nn && true) from rfl]
            rw [cssParseAtRule_ok fuel _ nn (congrArg Prod.fst hat)
              (fun f2 cs2 d2 k2 hf hk => cssParseBlock_ok f2 cs2 d2 k2 hk)]
            rfl
          · exact cssParseTop_ok fuel _ _ h
        · split
          · rename_i pr nn rr hru
            refine cssParseTop_ok fuel _ _ ?_
            rw [styleOkL_append, h]
            rw [show styleOkL [nn] = (styleOkN nn && true) from rfl]
            rw [cssParseRule_ok fuel _ nn (congrArg Prod.fst hru)
              (fun f2 cs2 d2 k2 hf hk => cssParseBlock_ok f2 cs2 d2 k2 hk)]
            rfl
          · exact cssParseTop_ok fuel _ _ h

theorem cssParse_children_ok (cs : Str) : styleOkL ((cssParse cs).children) = true := by
  show styleOkL (cssParseTop (cs.length * 2 + 16) cs []) = true
  exact cssParseTop_ok _ cs [] rfl

/-- `styleOk` for one open frame of the HTML parser. -/
def frameOkB (f : Frame) : Bool := styleOkL f.children

/-- `styleOk` for the whole parser state. -/
def stateOkB (st : PState) : Bool := st.stack.all frameOkB && styleOkL st.acc

theorem styleOk_mkOpen (n : Str) (a : AttrMap) (scb : Bool) (ch : List PNode) :
    styleOkN (mkOpen n a false scb ch) = styleOkL ch := rfl

theorem styleOk_mkRoot (ch : List PNode) : styleOkN (mkRoot ch) = styleOkL ch := rfl

theorem styleOk_styleNode (nm : Str) (a : AttrMap) (kids : List PNode) :
    styleOkN (.node .tagOpen nm a [] .noComment true false [] [] [] [] kids)
      = styleOkL kids := rfl

theorem styleOk_specialNode (nm : Str) (a : AttrMap) (kids : List PNode) :
    styleOkN (.node .tagOpen nm a [] .noComment false true [] [] [] [] kids)
      = styleOkL kids := rfl

theorem pushChild_ok (st : PState) (n : PNode)
    (hst : stateOkB st = true) (hn : styleOkN n = true) :
    stateOkB (pushChild st n) = true := by
  obtain ⟨stack, acc⟩ := st
  simp only [stateOkB, Bool.and_eq_true] at hst
  cases stack with
  | nil =>
    show stateOkB ⟨[], acc ++ [n]⟩ = true
    simp only [stateOkB, List.all_nil, Bool.true_and, styleOkL_append]
    rw [hst.2]
    show (true && (styleOkN n && styleOkL [])) = true
    rw [hn]
    rfl
  | cons f fs =>
    show stateOkB ⟨{ f with children := f.children ++ [n] } :: fs, acc⟩ = true
    simp only [stateOkB, List.all_cons, Bool.and_eq_true] at hst ⊢
    refine ⟨⟨?_, hst.1.2⟩, hst.2⟩
    show styleOkL (f.children ++ [n]) = true
    rw [styleOkL_append, show (styleOkL f.children : Bool) = frameOkB f from rfl, hst.1.1]
    show (true && (styleOkN n && styleOkL [])) = true
    rw [hn]
    rfl

theorem frameNode_ok (f : Frame) (h : frameOkB f = true) :
    styleOkN (frameNode f) = true := by
  show styleOkN (mkOpen f.name f.attrs false f.scriptBlock f.children) = true
  rw [styleOk_mkOpen]
  exact h

theorem popFrames_ok : ∀ (k : Nat) (st : PState),
    stateOkB st = true → stateOkB (popFrames k st) = true
  | 0, st, h => h
  | k + 1, st, h => by
    rw [popFrames]
    split
    · exact h
    · rename_i f fs hst
      refine popFrames_ok k _ ?_
      obtain ⟨stack, acc⟩ := st
      simp only at hst
      subst hst
      simp only [stateOkB, List.all_cons, Bool.and_eq_true] at h
      refine pushChild_ok _ _ ?_ (frameNode_ok f h.1.1)
      simp only [stateOkB, Bool.and_eq_true]
      exact ⟨h.1.2, h.2⟩

theorem finAux_ok : ∀ (f : Frame) (gs : List Frame) (acc : List PNode),
    frameOkB f = true → gs.all frameOkB = true → styleOkL acc = true →
    styleOkN (finAux f gs acc) = true
  | f, [], acc, hf, _, hacc => by
    show styleOkN (mkRoot (acc ++ [frameNode f])) = true
    rw [styleOk_mkRoot, styleOkL_append, hacc]
    show (true && (styleOkN (frameNode f) && styleOkL [])) = true
    rw [frameNode_ok f hf]
    rfl
  | f, g :: gs, acc, hf, hgs, hacc => by
    show styleOkN (finAux { g with children := g.children ++ [frameNode f] } gs acc) = true
    simp only [List.all_cons, Bool.and_eq_true] at hgs
    refine finAux_ok _ gs acc ?_ hgs.2 hacc
    show styleOkL (g.children ++ [frameNode f]) = true
    rw [styleOkL_append, show (styleOkL g.children : Bool) = frameOkB g from rfl, hgs.1]
    show (true && (styleOkN (frameNode f) && styleOkL [])) = true
    rw [frameNode_ok f hf]
    rfl

theorem finalizeStack_ok (stack : List Frame) (acc : List PNode)
    (hs : stack.all frameOkB = true) (hacc : styleOkL acc = true) :
    styleOkN (finalizeStack stack acc) = true := by
  cases stack with
  | nil =>
    show styleOkN (mkRoot acc) = true
    rw [styleOk_mkRoot]
    exact hacc
  | cons f fs =>
    show styleOkN (finAux f fs acc) = true
    simp only [List.all_cons, Bool.and_eq_true] at hs
    exact finAux_ok f fs acc hs.1 hs.2 hacc

theorem parseStep_ok (sp : List Str) (st : PState) (cs : Str)
    (st2 : PState) (cs2 : Str) (h : parseStep sp st cs = some (st2, cs2))
    (hst : stateOkB st = true) : stateOkB st2 = true := by
  cases cs with
  | nil => rw [parseStep] at h; exact absurd h (by simp)
  | cons c rest =>
    rw [parseStep] at h
    split at h
    · -- comment branch
      cases hsp : splitOnSub (("-->").data) (c :: rest) with
      | none =>
        rw [hsp] at h
        dsimp only at h
        simp only [Option.some.injEq, Prod.mk.injEq] at h
        rw [← h.1]
        exact hst
      | some pr =>
        obtain ⟨pre, post⟩ := pr
        rw [hsp] at h
        dsimp only at h
        simp only [Option.some.injEq, Prod.mk.injEq] at h
        rw [← h.1]
        exact pushChild_ok _ _ hst (styleOk_mkComment _ _)
    · -- bogus-< branch
      split at h
      · cases hix : firstIdxCh '<' rest with
        | none =>
          rw [hix] at h
          dsimp only at h
          simp only [Option.some.injEq, Prod.mk.injEq] at h
          rw [← h.1]
          exact pushChild_ok _ _ hst (styleOk_mkText _)
        | some i =>
          rw [hix] at h
          dsimp only at h
          simp only [Option.some.injEq, Prod.mk.injEq] at h
          rw [← h.1]
          exact pushChild_ok _ _ hst (styleOk_mkText _)
      · split at h
        · -- opening-tag branch
          cases hix : firstIdxCh '>' (c :: rest) with
          | none =>
            rw [hix] at h
            dsimp only at h
            simp only [Option.some.injEq, Prod.mk.injEq] at h
            rw [← h.1]
            exact hst
          | some tagEnd =>
            rw [hix] at h
            dsimp only at h
            split at h
            · -- style element
              simp only [Option.some.injEq, Prod.mk.injEq] at h
              rw [← h.1]
              refine pushChild_ok _ _ (pushChild_ok _ _ hst ?_) (styleOk_mkClose _ _ _)
              rw [styleOk_styleNode]
              exact cssParse_children_ok _
            · split at h
              · -- special tag
                simp only [Option.some.injEq, Prod.mk.injEq] at h
                rw [← h.1]
                refine pushChild_ok _ _ (pushChild_ok _ _ hst ?_) (styleOk_mkClose _ _ _)
                rw [styleOk_specialNode]
                exact miniLex_ok _
              · split at h
                · -- void element
                  simp only [Option.some.injEq, Prod.mk.injEq] at h
                  rw [← h.1]
                  refine pushChild_ok _ _ hst ?_
                  rw [styleOk_mkOpen]
                  rfl
                · -- open frame push
                  simp only [Option.some.injEq, Prod.mk.injEq] at h
                  rw [← h.1]
                  obtain ⟨stack, acc⟩ := st
                  simp only [stateOkB, Bool.and_eq_true, List.all_cons] at hst ⊢
                  exact ⟨⟨rfl, hst.1⟩, hst.2⟩
        · split at h
          · -- closing-tag branch
            cases hix : firstIdxCh '>' (c :: rest) with
            | none =>
              rw [hix] at h
              dsimp only at h
              simp only [Option.some.injEq, Prod.mk.injEq] at h
              rw [← h.1]
              exact hst
            | some tagEnd =>
              rw [hix] at h
              dsimp only at h
              split at h
              · simp only [Option.some.injEq, Prod.mk.injEq] at h
                rw [← h.1]
                exact pushChild_ok _ _ (popFrames_ok _ _ hst) (styleOk_mkClose _ _ _)
              · simp only [Option.some.injEq, Prod.mk.injEq] at h
                rw [← h.1]
                exact pushChild_ok _ _ hst (styleOk_mkClose _ _ _)
          · -- text branch
            cases hix : firstIdxCh '<' (c :: rest) with
            | none =>
              rw [hix] at h
              dsimp only at h
              simp only [Option.some.injEq, Prod.mk.injEq] at h
              rw [← h.1]
              exact pushChild_ok _ _ hst (styleOk_mkText _)
            | some k =>
              rw [hix] at h
              dsimp only at h
              simp only [Option.some.injEq, Prod.mk.injEq] at h
              rw [← h.1]
              exact pushChild_ok _ _ hst (styleOk_mkText _)

theorem parseLoop_ok : ∀ (fuel : Nat) (sp : List Str) (st : PState) (cs : Str),
    stateOkB st = true → styleOkN (parseLoop sp fuel st cs) = true
  | 0, sp, st, cs, h => by
    show styleOkN (finalizeStack st.stack st.acc) = true
    simp only [stateOkB, Bool.and_eq_true] at h
    exact finalizeStack_ok _ _ h.1 h.2
  | fuel + 1, sp, st, cs, h => by
    rw [parseLoop]
    cases hs : parseStep sp st cs with
    | none =>
      show styleOkN (finalizeStack st.stack st.acc) = true
      simp only [stateOkB, Bool.and_eq_true] at h
      exact finalizeStack_ok _ _ h.1 h.2
    | some pr =>
      obtain ⟨st2, cs2⟩ := pr
      exact parseLoop_ok fuel sp st2 cs2 (parseStep_ok sp st cs st2 cs2 hs h)

/-- Every tree `parse` returns satisfies the style-flag discipline. -/
theorem styleOk_parseHtml (sp : List Str) (cs : Str) :
    styleOkN (parseHtml sp cs) = true :=
  parseLoop_ok _ sp _ cs rfl

/-- Reading past the end of the heap yields the default node. -/
theorem Heap.get_oob (h : Heap) (i : Nat) (hi : h.size ≤ i) : h.get i = {} :=
  List.getD_eq_default _ _ hi

/-- Updating past the end of the heap is a no-op. -/
theorem Heap.upd_oob (h : Heap) (i : Nat) (f : HNode → HNode) (hi : h.size ≤ i) :
    h.upd i f = h := by
  show Heap.mk (h.nodes.set i _) = h
  rw [List.set_eq_of_length_le hi]

/-- A node with a recorded parent is allocated (dangling reads default to a
parentless node). -/
theorem Heap.parent_some_lt (h : Heap) (i p : Nat) (hp : (h.get i).parent = some p) :
    i < h.size := by
  by_contra hge
  rw [Heap.get_oob h i (by omega)] at hp
  exact Option.noConfusion hp

/-- `splice(start, delCount)` leaves a sublist of the original array. -/
theorem jsSplice_sublist (l : List α) (a b : Nat) : List.Sublist (jsSplice l a b) l := by
  have h1 : List.Sublist (l.drop (a + b)) (l.drop a) := by
    have hdd : l.drop (a + b) = (l.drop a).drop b := by
      rw [List.drop_drop, Nat.add_comm]
    rw [hdd]
    exact List.drop_sublist b (l.drop a)
  have h2 := h1.append_left (l.take a)
  rw [List.take_append_drop a l] at h2
  exact h2

/-- Membership survives `splice` backwards. -/
theorem mem_of_mem_jsSplice (l : List α) (a b : Nat) (x : α)
    (hx : x ∈ jsSplice l a b) : x ∈ l :=
  (jsSplice_sublist l a b).mem hx

/-- `splice` keeps a duplicate-free array duplicate-free. -/
theorem nodup_jsSplice (l : List α) (a b : Nat) (hl : l.Nodup) : (jsSplice l a b).Nodup :=
  hl.sublist (jsSplice_sublist l a b)

/-- An element whose (only) position lies inside the deleted window is gone
after `splice`, provided the array has no duplicates. -/
theorem not_mem_jsSplice (l : List Nat) (x i a b : Nat) (hl : l.Nodup)
    (hi : i < l.length) (hx : l.getD i 0 = x) (ha : a ≤ i) (hb : i < a + b) :
    x ∉ jsSplice l a b := by
  intro hmem
  rw [List.getD_eq_getElem l 0 hi] at hx
  rcases List.mem_append.mp hmem with hmem | hmem
  · obtain ⟨j, hj, hje⟩ := List.mem_iff_getElem.mp hmem
    have hjl : j < l.length := by
      have := List.length_take_le a l
      omega
    have hja : j < a := by
      have := List.length_take a l
      omega
    rw [List.getElem_take] at hje
    have : j = i := (List.Nodup.getElem_inj_iff hl).mp (by rw [hje, hx])
    omega
  · obtain ⟨j, hj, hje⟩ := List.mem_iff_getElem.mp hmem
    have hjl : a + b + j < l.length := by
      rw [List.length_drop] at hj
      omega
    rw [List.getElem_drop] at hje
    have : a + b + j = i := (List.Nodup.getElem_inj_iff hl).mp (by rw [hje, hx])
    omega

/-- Membership through an insertion split `take n ++ a :: drop n`. -/
theorem mem_insert_split (l : List Nat) (n : Nat) (a x : Nat) :
    x ∈ l.take n ++ a :: l.drop n ↔ x = a ∨ x ∈ l := by
  simp only [List.mem_append, List.mem_cons]
  constructor
  · rintro (h | h | h)
    · exact Or.inr (List.mem_of_mem_take h)
    · exact Or.inl h
    · exact Or.inr (List.mem_of_mem_drop h)
  · rintro (h | h)
    · exact Or.inr (Or.inl h)
    · have h2 : x ∈ l.take n ++ l.drop n := by rw [List.take_append_drop n l]; exact h
      rcases List.mem_append.mp h2 with h2 | h2
      · exact Or.inl h2
      · exact Or.inr (Or.inr h2)

/-- An insertion split stays duplicate-free when the new element is fresh. -/
theorem nodup_insert_split (l : List Nat) (n : Nat) (a : Nat) (ha : a ∉ l)
    (hl : l.Nodup) : (l.take n ++ a :: l.drop n).Nodup := by
  have hl2 : (l.take n ++ l.drop n).Nodup := by rw [List.take_append_drop n l]; exact hl
  obtain ⟨ht, hd, hdisj⟩ := List.nodup_append.mp hl2
  refine List.nodup_append.mpr ⟨ht, ?_, ?_⟩
  · refine List.nodup_cons.mpr ⟨fun hc => ha (List.mem_of_mem_drop hc), hd⟩
  · intro y hy hyc
    rcases List.mem_cons.mp hyc with hyc | hyc
    · exact ha (by rw [← hyc]; exact List.mem_of_mem_take hy)
    · exact hdisj hy hyc

/-- Membership in the JS signed-index insertion. -/
theorem mem_jsInsertAt (l : List Nat) (i : Int) (a x : Nat) :
    x ∈ jsInsertAt l i a ↔ x = a ∨ x ∈ l :=
  mem_insert_split l _ a x

/-- `jsInsertAt` keeps a duplicate-free list duplicate-free when the new
element is fresh. -/
theorem nodup_jsInsertAt (l : List Nat) (i : Int) (a : Nat) (ha : a ∉ l)
    (hl : l.Nodup) : (jsInsertAt l i a).Nodup :=
  nodup_insert_split l _ a ha hl

/-- Membership in the plain splice insertion. -/
theorem mem_insertAt (l : List Nat) (i : Nat) (a x : Nat) :
    x ∈ insertAt l i a ↔ x = a ∨ x ∈ l :=
  mem_insert_split l _ a x

/-- `insertAt` keeps a duplicate-free list duplicate-free when the new
element is fresh. -/
theorem nodup_insertAt (l : List Nat) (i : Nat) (a : Nat) (ha : a ∉ l)
    (hl : l.Nodup) : (insertAt l i a).Nodup :=
  nodup_insert_split l _ a ha hl

/-- A successful `findIndex`-style search returns an in-range position
holding a matching element. -/
theorem findIdx?_beq_spec : ∀ (l : List Nat) (x i : Nat),
    l.findIdx? (fun y => y == x) = some i → i < l.length ∧ l.getD i 0 = x := by
  intro l
  induction l with
  | nil => intro x i h; exact Option.noConfusion h
  | cons a as ih =>
    intro x i h
    rw [List.findIdx?_cons] at h
    by_cases hax : a = x
    · have hb : ((fun y => y == x) a) = true := by simp [hax]
      rw [if_pos hb] at h
      have h0 : (0 : Nat) = i := Option.some.inj h
      rw [← h0]
      exact ⟨by simp, by simpa using hax⟩
    · have hb : ¬(((fun y => y == x) a) = true) := by simp [hax]
      rw [if_neg hb, List.findIdx?_succ] at h
      cases hfi : as.findIdx? (fun y => y == x) with
      | none => rw [hfi] at h; exact Option.noConfusion h
      | some j =>
        rw [hfi] at h
        simp only [Option.map_some'] at h
        have hij : j + 1 = i := Option.some.inj h
        obtain ⟨hj1, hj2⟩ := ih x j hfi
        rw [← hij]
        exact ⟨by simpa using Nat.succ_lt_succ hj1, by simpa using hj2⟩

/-- A failed `findIndex`-style search means no element matches. -/
theorem findIdx?_beq_none : ∀ (l : List Nat) (x : Nat),
    l.findIdx? (fun y => y == x) = none → x ∉ l := by
  intro l
  induction l with
  | nil => intro x _ hx; simp at hx
  | cons a as ih =>
    intro x h hx
    rw [List.findIdx?_cons] at h
    by_cases hax : a = x
    · have hb : ((fun y => y == x) a) = true := by simp [hax]
      rw [if_pos hb] at h
      exact Option.noConfusion h
    · have hb : ¬(((fun y => y == x) a) = true) := by simp [hax]
      rw [if_neg hb, List.findIdx?_succ] at h
      cases hfi : as.findIdx? (fun y => y == x) with
      | none =>
        rcases List.mem_cons.mp hx with hx | hx
        · exact hax hx.symm
        · exact ih x hfi hx
      | some j =>
        rw [hfi] at h
        simp at h

/-- A successful `get?` read returns the element at that position. -/
theorem get?_spec (l : List Nat) (n a : Nat) (h : l.get? n = some a) :
    ∃ hn : n < l.length, l[n] = a := by
  rw [List.get?_eq_some] at h
  obtain ⟨h1, h2⟩ := h
  exact ⟨h1, by simpa [List.get_eq_getElem] using h2⟩

/-- Each non-style-flagged node's child list holds no duplicate ids (the
style element is exempt: it shares its adopted CSS children with the
abandoned `css-root`). -/
def ChildNodup (h : Heap) : Prop :=
  ∀ p, p < h.size → (h.get p).styleBlock = false → (h.get p).children.Nodup

/-- Every recorded parent reference points at an allocated node that is not
style-flagged (a style element is never anyone's recorded parent: its
adopted CSS children record the `css-root` instead). -/
def NoStyleParent (h : Heap) : Prop :=
  ∀ n, n < h.size → ∀ p, (h.get n).parent = some p →
    p < h.size ∧ (h.get p).styleBlock = false

/-- The structural invariant of the reference heap: child ids are
allocated, every non-style node's children point back at it, no non-style
child list holds duplicates, and no parent reference targets a
style-flagged node. -/
def HeapInv (h : Heap) : Prop :=
  ChildrenBounded h ∧ CoherentExceptStyle h ∧ ChildNodup h ∧ NoStyleParent h

/-- Allocating a childless node preserves per-list uniqueness. -/
theorem ChildNodup_alloc (h : Heap) (n : HNode) (hn : n.children = [])
    (hd : ChildNodup h) : ChildNodup (h.alloc n) := by
  intro p hp hs
  rw [Heap.alloc_size] at hp
  by_cases hlt : p < h.size
  · rw [Heap.get_alloc_old _ _ _ hlt] at hs ⊢
    exact hd p hlt hs
  · have hpe : p = h.size := by omega
    rw [hpe, Heap.get_alloc_new, hn]
    exact List.nodup_nil

/-- Allocating a node whose parent reference (if any) targets an allocated
non-style node preserves the no-style-parent invariant. -/
theorem NoStyleParent_alloc (h : Heap) (n : HNode)
    (hp : ∀ q, n.parent = some q → q < h.size ∧ (h.get q).styleBlock = false)
    (hns : NoStyleParent h) : NoStyleParent (h.alloc n) := by
  intro m hm q hq
  rw [Heap.alloc_size] at hm ⊢
  by_cases hlt : m < h.size
  · rw [Heap.get_alloc_old _ _ _ hlt] at hq
    obtain ⟨h1, h2⟩ := hns m hlt q hq
    exact ⟨by omega, by rw [Heap.get_alloc_old _ _ _ h1]; exact h2⟩
  · have hme : m = h.size := by omega
    rw [hme, Heap.get_alloc_new] at hq
    obtain ⟨h1, h2⟩ := hp q hq
    exact ⟨by omega, by rw [Heap.get_alloc_old _ _ _ h1]; exact h2⟩

/-- Rewriting a node's child list preserves per-list uniqueness when the
new list is duplicate-free (no condition on style-flagged nodes). -/
theorem ChildNodup_updChildren (h : Heap) (id : Nat) (c : List Nat)
    (hid : id < h.size) (hnd : (h.get id).styleBlock = false → c.Nodup)
    (hd : ChildNodup h) :
    ChildNodup (h.upd id fun n => { n with children := c }) := by
  intro p hp hs
  rw [Heap.size_upd] at hp
  by_cases he : p = id
  · rw [he, Heap.get_upd_self _ _ _ hid] at hs ⊢
    exact hnd hs
  · rw [Heap.get_upd_ne _ _ _ _ (fun e => he e.symm)] at hs ⊢
    exact hd p hp hs

/-- Rewriting a node's child list touches no parent reference or style
flag, so it preserves the no-style-parent invariant. -/
theorem NoStyleParent_updChildren (h : Heap) (id : Nat) (c : List Nat)
    (hid : id < h.size) (hns : NoStyleParent h) :
    NoStyleParent (h.upd id fun n => { n with children := c }) := by
  have hpar : ∀ j, ((h.upd id fun n => { n with children := c }).get j).parent =
      (h.get j).parent := by
    intro j
    by_cases hj : j = id
    · rw [hj, Heap.get_upd_self _ _ _ hid]
    · rw [Heap.get_upd_ne _ _ _ _ (fun e => hj e.symm)]
  have hsb : ∀ j, ((h.upd id fun n => { n with children := c }).get j).styleBlock =
      (h.get j).styleBlock := by
    intro j
    by_cases hj : j = id
    · rw [hj, Heap.get_upd_self _ _ _ hid]
    · rw [Heap.get_upd_ne _ _ _ _ (fun e => hj e.symm)]
  intro m hm q hq
  rw [Heap.size_upd] at hm ⊢
  rw [hpar m] at hq
  obtain ⟨h1, h2⟩ := hns m hm q hq
  exact ⟨h1, by rw [hsb q]; exact h2⟩

/-- An update that leaves children, parent and style flag untouched
preserves the whole heap invariant. -/
theorem HeapInv_upd_scalar (h : Heap) (i : Nat) (f : HNode → HNode)
    (hf : ∀ n, (f n).children = n.children ∧ (f n).parent = n.parent ∧
      (f n).styleBlock = n.styleBlock)
    (hinv : HeapInv h) : HeapInv (h.upd i f) := by
  by_cases hi : i < h.size
  · obtain ⟨hb, hc, hd, hns⟩ := hinv
    have hch : ∀ j, ((h.upd i f).get j).children = (h.get j).children := by
      intro j
      by_cases hj : j = i
      · rw [hj, Heap.get_upd_self _ _ _ hi]; exact (hf _).1
      · rw [Heap.get_upd_ne _ _ _ _ (fun e => hj e.symm)]
    have hpar : ∀ j, ((h.upd i f).get j).parent = (h.get j).parent := by
      intro j
      by_cases hj : j = i
      · rw [hj, Heap.get_upd_self _ _ _ hi]; exact (hf _).2.1
      · rw [Heap.get_upd_ne _ _ _ _ (fun e => hj e.symm)]
    have hsb : ∀ j, ((h.upd i f).get j).styleBlock = (h.get j).styleBlock := by
      intro j
      by_cases hj : j = i
      · rw [hj, Heap.get_upd_self _ _ _ hi]; exact (hf _).2.2
      · rw [Heap.get_upd_ne _ _ _ _ (fun e => hj e.symm)]
    refine ⟨?_, ?_, ?_, ?_⟩
    · intro p hp cid hcid
      rw [Heap.size_upd] at hp ⊢
      rw [hch] at hcid
      exact hb p hp cid hcid
    · intro p hp hs cid hcid
      rw [Heap.size_upd] at hp
      rw [hsb] at hs
      rw [hch] at hcid
      rw [hpar]
      exact hc p hp hs cid hcid
    · intro p hp hs
      rw [Heap.size_upd] at hp
      rw [hsb] at hs
      rw [hch]
      exact hd p hp hs
    · intro m hm q hq
      rw [Heap.size_upd] at hm ⊢
      rw [hpar] at hq
      obtain ⟨h1, h2⟩ := hns m hm q hq
      exact ⟨h1, by rw [hsb]; exact h2⟩
  · rw [Heap.upd_oob h i f (by omega)]
    exact hinv

/-- `setAttribute` touches only the attribute map, hence preserves the
invariant. -/
theorem HeapInv_setAttribute (h : Heap) (nid : Nat) (name value : Str)
    (hinv : HeapInv h) : HeapInv (h.setAttribute nid name value) :=
  HeapInv_upd_scalar h nid _ (fun _ => ⟨rfl, rfl, rfl⟩) hinv

/-- The re-parent-and-splice pair of updates shared by the insertion loops
(`node.parent = targetParentNode` followed by
`targetParentNode.children.splice(insertIndex, 0, node)`). -/
def insStep (h : Heap) (x tp : Nat) (idx : Int) : Heap :=
  (h.upd x fun n => { n with parent := some tp }).upd tp
    fun p => { p with children := jsInsertAt p.children idx x }

/-- An insertion step does not change the heap size. -/
theorem insStep_size (h : Heap) (x tp : Nat) (idx : Int) :
    (insStep h x tp idx).size = h.size := by
  unfold insStep
  rw [Heap.size_upd, Heap.size_upd]

/-- Child lists after an insertion step: only the target parent's list
changes, by the insertion. -/
theorem insStep_children (h : Heap) (x tp : Nat) (idx : Int)
    (hx : x < h.size) (htp : tp < h.size) (j : Nat) :
    ((insStep h x tp idx).get j).children =
      if j = tp then jsInsertAt (h.get tp).children idx x else (h.get j).children := by
  have h1ch : ∀ k, ((h.upd x fun n => { n with parent := some tp }).get k).children =
      (h.get k).children := by
    intro k
    by_cases hk : k = x
    · rw [hk, Heap.get_upd_self _ _ _ hx]
    · rw [Heap.get_upd_ne _ _ _ _ (fun e => hk e.symm)]
  unfold insStep
  by_cases hj : j = tp
  · rw [hj, if_pos rfl, Heap.get_upd_self _ _ _ (by rw [Heap.size_upd]; exact htp)]
    dsimp only
    rw [h1ch tp]
  · rw [if_neg hj, Heap.get_upd_ne _ _ _ _ (fun e => hj e.symm)]
    exact h1ch j

/-- Parent references after an insertion step: only the inserted node's
parent changes, to the target parent. -/
theorem insStep_parent (h : Heap) (x tp : Nat) (idx : Int)
    (hx : x < h.size) (htp : tp < h.size) (j : Nat) :
    ((insStep h x tp idx).get j).parent =
      if j = x then some tp else (h.get j).parent := by
  have h1par : ∀ k, ((h.upd x fun n => { n with parent := some tp }).get k).parent =
      if k = x then some tp else (h.get k).parent := by
    intro k
    by_cases hk : k = x
    · rw [hk, if_pos rfl, Heap.get_upd_self _ _ _ hx]
    · rw [if_neg hk, Heap.get_upd_ne _ _ _ _ (fun e => hk e.symm)]
  unfold insStep
  by_cases hj : j = tp
  · rw [hj, Heap.get_upd_self _ _ _ (by rw [Heap.size_upd]; exact htp)]
    dsimp only
    rw [h1par tp]
  · rw [Heap.get_upd_ne _ _ _ _ (fun e => hj e.symm)]
    exact h1par j

/-- Style flags are untouched by an insertion step. -/
theorem insStep_styleBlock (h : Heap) (x tp : Nat) (idx : Int)
    (hx : x < h.size) (htp : tp < h.size) (j : Nat) :
    ((insStep h x tp idx).get j).styleBlock = (h.get j).styleBlock := by
  have h1sb : ∀ k, ((h.upd x fun n => { n with parent := some tp }).get k).styleBlock =
      (h.get k).styleBlock := by
    intro k
    by_cases hk : k = x
    · rw [hk, Heap.get_upd_self _ _ _ hx]
    · rw [Heap.get_upd_ne _ _ _ _ (fun e => hk e.symm)]
  unfold insStep
  by_cases hj : j = tp
  · rw [hj, Heap.get_upd_self _ _ _ (by rw [Heap.size_upd]; exact htp)]
    dsimp only
    rw [h1sb tp]
  · rw [Heap.get_upd_ne _ _ _ _ (fun e => hj e.symm)]
    exact h1sb j

/-- An insertion step preserves the heap invariant when the inserted node
is allocated, currently unowned, and the target parent is an allocated
non-style node. -/
theorem HeapInv_insStep (h : Heap) (x tp : Nat) (idx : Int)
    (hx : x < h.size) (htp : tp < h.size) (htps : (h.get tp).styleBlock = false)
    (hxfree : ∀ q, q < h.size → (h.get q).styleBlock = false → x ∉ (h.get q).children)
    (hinv : HeapInv h) : HeapInv (insStep h x tp idx) := by
  obtain ⟨hb, hc, hd, hns⟩ := hinv
  have hch := insStep_children h x tp idx hx htp
  have hpar := insStep_parent h x tp idx hx htp
  have hsb := insStep_styleBlock h x tp idx hx htp
  have hsz := insStep_size h x tp idx
  refine ⟨?_, ?_, ?_, ?_⟩
  · intro p hp cid hcid
    rw [hsz] at hp ⊢
    rw [hch p] at hcid
    by_cases hptp : p = tp
    · rw [if_pos hptp] at hcid
      rcases (mem_jsInsertAt _ _ _ _).mp hcid with hcid | hcid
      · rw [hcid]; exact hx
      · exact hb tp htp cid hcid
    · rw [if_neg hptp] at hcid
      exact hb p hp cid hcid
  · intro p hp hs cid hcid
    rw [hsz] at hp
    rw [hsb p] at hs
    rw [hch p] at hcid
    rw [hpar cid]
    by_cases hptp : p = tp
    · subst hptp
      rw [if_pos rfl] at hcid
      rcases (mem_jsInsertAt _ _ _ _).mp hcid with hcid | hcid
      · rw [if_pos hcid]
      · have hcx : cid ≠ x := fun e => hxfree p htp hs (e ▸ hcid)
        rw [if_neg hcx]
        exact hc p htp hs cid hcid
    · rw [if_neg hptp] at hcid
      have hcx : cid ≠ x := fun e => hxfree p hp hs (e ▸ hcid)
      rw [if_neg hcx]
      exact hc p hp hs cid hcid
  · intro p hp hs
    rw [hsz] at hp
    rw [hsb p] at hs
    rw [hch p]
    by_cases hptp : p = tp
    · subst hptp
      rw [if_pos rfl]
      exact nodup_jsInsertAt _ _ _ (hxfree p htp htps) (hd p htp htps)
    · rw [if_neg hptp]
      exact hd p hp hs
  · intro m hm q hq
    rw [hsz] at hm ⊢
    rw [hpar m] at hq
    by_cases hmx : m = x
    · rw [if_pos hmx] at hq
      have hqtp : tp = q := Option.some.inj hq
      exact ⟨hqtp ▸ htp, by rw [hsb q, ← hqtp]; exact htps⟩
    · rw [if_neg hmx] at hq
      obtain ⟨h1, h2⟩ := hns m hm q hq
      exact ⟨h1, by rw [hsb q]; exact h2⟩

/-- A node distinct from the inserted one and owned by no non-style list
stays owned by no non-style list across an insertion step. -/
theorem insStep_free_pres (h : Heap) (x tp : Nat) (idx : Int) (y : Nat)
    (hx : x < h.size) (htp : tp < h.size) (hyx : y ≠ x)
    (hy : ∀ q, q < h.size → (h.get q).styleBlock = false → y ∉ (h.get q).children) :
    ∀ q, q < (insStep h x tp idx).size →
      ((insStep h x tp idx).get q).styleBlock = false →
      y ∉ ((insStep h x tp idx).get q).children := by
  intro q hq hs hmem
  rw [insStep_size] at hq
  rw [insStep_styleBlock h x tp idx hx htp q] at hs
  rw [insStep_children h x tp idx hx htp q] at hmem
  by_cases hqtp : q = tp
  · rw [if_pos hqtp] at hmem
    rcases (mem_jsInsertAt _ _ _ _).mp hmem with he | hmem
    · exact hyx he
    · exact hy tp htp (hqtp ▸ hs) hmem
  · rw [if_neg hqtp] at hmem
    exact hy q hq hs hmem

/-- The trailing parent-clearing updates of `remove`/`#extractNode`
(`node.parent = null` for each detached node), as a fold. -/
def nullParents (h : Heap) : List Nat → Heap
  | [] => h
  | n :: ns => nullParents (h.upd n fun x => { x with parent := none }) ns

/-- Clearing parents does not change the heap size. -/
theorem nullParents_size (ids : List Nat) : ∀ (h : Heap), (nullParents h ids).size = h.size := by
  induction ids with
  | nil => intro h; rfl
  | cons n ns ih =>
    intro h
    rw [nullParents, ih, Heap.size_upd]

/-- Clearing parents touches no child list. -/
theorem nullParents_children (ids : List Nat) : ∀ (h : Heap) (j : Nat),
    ((nullParents h ids).get j).children = (h.get j).children := by
  induction ids with
  | nil => intro h j; rfl
  | cons n ns ih =>
    intro h j
    rw [nullParents, ih]
    by_cases hn : n < h.size
    · by_cases hj : j = n
      · rw [hj, Heap.get_upd_self _ _ _ hn]
      · rw [Heap.get_upd_ne _ _ _ _ (fun e => hj e.symm)]
    · rw [Heap.upd_oob _ _ _ (by omega)]

/-- Clearing parents touches no style flag. -/
theorem nullParents_styleBlock (ids : List Nat) : ∀ (h : Heap) (j : Nat),
    ((nullParents h ids).get j).styleBlock = (h.get j).styleBlock := by
  induction ids with
  | nil => intro h j; rfl
  | cons n ns ih =>
    intro h j
    rw [nullParents, ih]
    by_cases hn : n < h.size
    · by_cases hj : j = n
      · rw [hj, Heap.get_upd_self _ _ _ hn]
      · rw [Heap.get_upd_ne _ _ _ _ (fun e => hj e.symm)]
    · rw [Heap.upd_oob _ _ _ (by omega)]

/-- Clearing parents leaves untouched the parent of any node not in the
list. -/
theorem nullParents_parent_not_mem (ids : List Nat) : ∀ (h : Heap) (j : Nat), j ∉ ids →
    ((nullParents h ids).get j).parent = (h.get j).parent := by
  induction ids with
  | nil => intro h j _; rfl
  | cons n ns ih =>
    intro h j hj
    have hjn : j ≠ n := fun e => hj (e ▸ List.mem_cons_self n ns)
    have hjns : j ∉ ns := fun e => hj (List.mem_cons_of_mem n e)
    rw [nullParents, ih _ _ hjns]
    by_cases hn : n < h.size
    · rw [Heap.get_upd_ne _ _ _ _ (fun e => hjn e.symm)]
    · rw [Heap.upd_oob _ _ _ (by omega)]

/-- A cleared parent stays cleared through further clearing. -/
theorem nullParents_parent_pres (ids : List Nat) : ∀ (h : Heap) (j : Nat),
    (h.get j).parent = none → ((nullParents h ids).get j).parent = none := by
  induction ids with
  | nil => intro h j hj; exact hj
  | cons n ns ih =>
    intro h j hj
    rw [nullParents]
    apply ih
    by_cases hn : n < h.size
    · by_cases hjn : j = n
      · rw [hjn, Heap.get_upd_self _ _ _ hn]
      · rw [Heap.get_upd_ne _ _ _ _ (fun e => hjn e.symm)]
        exact hj
    · rw [Heap.upd_oob _ _ _ (by omega)]
      exact hj

/-- Every node in the cleared list ends with no parent. -/
theorem nullParents_parent_mem (ids : List Nat) : ∀ (h : Heap) (j : Nat), j ∈ ids →
    ((nullParents h ids).get j).parent = none := by
  induction ids with
  | nil => intro h j hj; simp at hj
  | cons n ns ih =>
    intro h j hj
    rcases List.mem_cons.mp hj with hj | hj
    · subst hj
      rw [nullParents]
      apply nullParents_parent_pres
      by_cases hn : j < h.size
      · rw [Heap.get_upd_self _ _ _ hn]
      · rw [Heap.upd_oob _ _ _ (by omega), Heap.get_oob _ _ (by omega)]
    · rw [nullParents]
      exact ih _ _ hj

/-- Distinct positions of a duplicate-free list hold distinct elements. -/
theorem nodup_getD_ne (l : List Nat) (hl : l.Nodup) (i j : Nat) (hi : i < l.length)
    (hj : j < l.length) (hij : i ≠ j) : l.getD i 0 ≠ l.getD j 0 := by
  rw [List.getD_eq_getElem l 0 hi, List.getD_eq_getElem l 0 hj]
  intro he
  exact hij ((List.Nodup.getElem_inj_iff hl).mp he)

/-- Core of `remove`/`#extractNode`: splicing a window out of a non-style
parent's child list and clearing the parents of nodes that all sit inside
the window preserves the heap invariant, and afterwards none of those
nodes is owned by any non-style list. -/
theorem splice_null_inv (h : Heap) (p start cnt : Nat) (ids : List Nat)
    (hple : p < h.size) (hpns : (h.get p).styleBlock = false)
    (hids : ∀ x, x ∈ ids → ∃ i, i < (h.get p).children.length ∧
      (h.get p).children.getD i 0 = x ∧ start ≤ i ∧ i < start + cnt)
    (hinv : HeapInv h) :
    HeapInv (nullParents
      (h.upd p fun q => { q with children := jsSplice q.children start cnt }) ids) ∧
    (nullParents
      (h.upd p fun q => { q with children := jsSplice q.children start cnt }) ids).size
      = h.size ∧
    (∀ j, ((nullParents
      (h.upd p fun q => { q with children := jsSplice q.children start cnt }) ids).get
        j).styleBlock = (h.get j).styleBlock) ∧
    (∀ x, x ∈ ids → ∀ q, q < h.size → (h.get q).styleBlock = false →
      x ∉ ((nullParents
        (h.upd p fun q => { q with children := jsSplice q.children start cnt }) ids).get
          q).children) := by
  obtain ⟨hb, hc, hd, hns⟩ := hinv
  have hpnd : (h.get p).children.Nodup := hd p hple hpns
  have hmemp : ∀ x, x ∈ ids → x ∈ (h.get p).children := by
    intro x hx
    obtain ⟨i, hi, hgi, _, _⟩ := hids x hx
    rw [List.getD_eq_getElem _ 0 hi] at hgi
    rw [← hgi]
    exact List.getElem_mem hi
  have hparp : ∀ x, x ∈ ids → (h.get x).parent = some p := by
    intro x hx
    exact hc p hple hpns x (hmemp x hx)
  have hchu : ∀ j, ((h.upd p fun q =>
      { q with children := jsSplice q.children start cnt }).get j).children =
      if j = p then jsSplice (h.get p).children start cnt else (h.get j).children := by
    intro j
    by_cases hj : j = p
    · rw [hj, if_pos rfl, Heap.get_upd_self _ _ _ hple]
    · rw [if_neg hj, Heap.get_upd_ne _ _ _ _ (fun e => hj e.symm)]
  have hparu : ∀ j, ((h.upd p fun q =>
      { q with children := jsSplice q.children start cnt }).get j).parent =
      (h.get j).parent := by
    intro j
    by_cases hj : j = p
    · rw [hj, Heap.get_upd_self _ _ _ hple]
    · rw [Heap.get_upd_ne _ _ _ _ (fun e => hj e.symm)]
  have hsbu : ∀ j, ((h.upd p fun q =>
      { q with children := jsSplice q.children start cnt }).get j).styleBlock =
      (h.get j).styleBlock := by
    intro j
    by_cases hj : j = p
    · rw [hj, Heap.get_upd_self _ _ _ hple]
    · rw [Heap.get_upd_ne _ _ _ _ (fun e => hj e.symm)]
  have hch : ∀ j, ((nullParents
      (h.upd p fun q => { q with children := jsSplice q.children start cnt }) ids).get
        j).children =
      if j = p then jsSplice (h.get p).children start cnt else (h.get j).children := by
    intro j
    rw [nullParents_children, hchu]
  have hsb : ∀ j, ((nullParents
      (h.upd p fun q => { q with children := jsSplice q.children start cnt }) ids).get
        j).styleBlock = (h.get j).styleBlock := by
    intro j
    rw [nullParents_styleBlock, hsbu]
  have hsz : (nullParents
      (h.upd p fun q => { q with children := jsSplice q.children start cnt }) ids).size
      = h.size := by
    rw [nullParents_size, Heap.size_upd]
  have hparnm : ∀ j, j ∉ ids → ((nullParents
      (h.upd p fun q => { q with children := jsSplice q.children start cnt }) ids).get
        j).parent = (h.get j).parent := by
    intro j hj
    rw [nullParents_parent_not_mem _ _ _ hj, hparu]
  have hnotmem : ∀ x, x ∈ ids → x ∉ jsSplice (h.get p).children start cnt := by
    intro x hx
    obtain ⟨i, hi, hgi, hs1, hs2⟩ := hids x hx
    exact not_mem_jsSplice _ x i start cnt hpnd hi hgi hs1 hs2
  refine ⟨⟨?_, ?_, ?_, ?_⟩, hsz, hsb, ?_⟩
  · -- bounded
    intro q hq cid hcid
    rw [hsz] at hq ⊢
    rw [hch q] at hcid
    by_cases hqp : q = p
    · rw [if_pos hqp] at hcid
      exact hb p hple cid (mem_of_mem_jsSplice _ _ _ _ hcid)
    · rw [if_neg hqp] at hcid
      exact hb q hq cid hcid
  · -- coherent
    intro q hq hqs cid hcid
    rw [hsz] at hq
    rw [hsb q] at hqs
    rw [hch q] at hcid
    by_cases hcin : cid ∈ ids
    · exfalso
      by_cases hqp : q = p
      · rw [if_pos hqp] at hcid
        exact hnotmem cid hcin hcid
      · rw [if_neg hqp] at hcid
        have h1 : (h.get cid).parent = some q := hc q hq hqs cid hcid
        have h2 : (h.get cid).parent = some p := hparp cid hcin
        rw [h1] at h2
        exact hqp (Option.some.inj h2)
    · rw [hparnm cid hcin]
      by_cases hqp : q = p
      · rw [if_pos hqp] at hcid
        rw [hqp]
        exact hc p hple (hqp ▸ hqs) cid (mem_of_mem_jsSplice _ _ _ _ hcid)
      · rw [if_neg hqp] at hcid
        exact hc q hq hqs cid hcid
  · -- nodup
    intro q hq hqs
    rw [hsz] at hq
    rw [hsb q] at hqs
    rw [hch q]
    by_cases hqp : q = p
    · rw [if_pos hqp]
      exact nodup_jsSplice _ _ _ hpnd
    · rw [if_neg hqp]
      exact hd q hq hqs
  · -- no style parent
    intro m hm q hq
    rw [hsz] at hm ⊢
    by_cases hmin : m ∈ ids
    · rw [nullParents_parent_mem _ _ _ hmin] at hq
      exact Option.noConfusion hq
    · rw [hparnm m hmin] at hq
      obtain ⟨h1, h2⟩ := hns m hm q hq
      exact ⟨h1, by rw [hsb q]; exact h2⟩
  · -- detached nodes are owned nowhere
    intro x hx q hq hqs hmem
    rw [hch q] at hmem
    by_cases hqp : q = p
    · rw [if_pos hqp] at hmem
      exact hnotmem x hx hmem
    · rw [if_neg hqp] at hmem
      have h1 : (h.get x).parent = some q := hc q hq hqs x hmem
      have h2 : (h.get x).parent = some p := hparp x hx
      rw [h1] at h2
      exact hqp (Option.some.inj h2)

/-- `remove()` preserves the heap invariant: the spliced window always
covers the found position, so per-list uniqueness removes the detached
pair from its parent and coherence keeps every other list untouched. -/
theorem HeapInv_remove (h : Heap) (nid : Nat) (hinv : HeapInv h) :
    HeapInv (h.remove nid) := by
  rw [Heap.remove]
  cases hp : (h.get nid).parent with
  | none => exact hinv
  | some p =>
    dsimp only
    cases hfi : (h.get p).children.findIdx? (fun x => x == nid) with
    | none => exact hinv
    | some index =>
      dsimp only
      have hnlt : nid < h.size := Heap.parent_some_lt h nid p hp
      obtain ⟨hple, hpns⟩ := hinv.2.2.2 nid hnlt p hp
      obtain ⟨hil, hig⟩ := findIdx?_beq_spec _ _ _ hfi
      by_cases hco : (h.get nid).ntype = .tagOpen ∧
          index + 1 < (h.get p).children.length ∧
          (h.get ((h.get p).children.getD (index + 1) 0)).ntype = .tagClose ∧
          (h.get ((h.get p).children.getD (index + 1) 0)).name = (h.get nid).name
      · rw [if_pos hco]
        exact (splice_null_inv h p index 2 [nid] hple hpns
          (by
            intro x hx
            rcases List.mem_singleton.mp hx with hx
            exact ⟨index, hil, hx ▸ hig, by omega, by omega⟩) hinv).1
      · rw [if_neg hco]
        by_cases hcc : (h.get nid).ntype = .tagClose ∧ 0 < index ∧
            (h.get ((h.get p).children.getD (index - 1) 0)).ntype = .tagOpen ∧
            (h.get ((h.get p).children.getD (index - 1) 0)).name = (h.get nid).name
        · rw [if_pos hcc]
          exact (splice_null_inv h p (index - 1) 2 [nid] hple hpns
            (by
              intro x hx
              rcases List.mem_singleton.mp hx with hx
              exact ⟨index, hil, hx ▸ hig, by omega, by omega⟩) hinv).1
        · rw [if_neg hcc]
          exact (splice_null_inv h p index 1 [nid] hple hpns
            (by
              intro x hx
              rcases List.mem_singleton.mp hx with hx
              exact ⟨index, hil, hx ▸ hig, by omega, by omega⟩) hinv).1

/-- A successful `#findClosingTag` under a recorded parent returns the
sibling immediately after the opening tag's found position. -/
theorem findClosingTag_pos (h : Heap) (nid p index c : Nat)
    (hp : (h.get nid).parent = some p)
    (hfi : (h.get p).children.findIdx? (fun x => x == nid) = some index)
    (hfc : h.findClosingTag nid = some c) :
    index + 1 < (h.get p).children.length ∧
    (h.get p).children.getD (index + 1) 0 = c := by
  rw [Heap.findClosingTag, hp] at hfc
  dsimp only at hfc
  by_cases hnt : (h.get nid).ntype ≠ .tagOpen
  · rw [if_pos hnt] at hfc
    exact Option.noConfusion hfc
  · rw [if_neg hnt, hfi] at hfc
    dsimp only at hfc
    cases hg : (h.get p).children.get? (index + 1) with
    | none => rw [hg] at hfc; exact Option.noConfusion hfc
    | some cand =>
      rw [hg] at hfc
      dsimp only at hfc
      by_cases hcond : (h.get cand).ntype = .tagClose ∧ (h.get cand).name = (h.get nid).name
      · rw [if_pos hcond] at hfc
        have hcc : cand = c := Option.some.inj hfc
        obtain ⟨hlen, hgel⟩ := get?_spec _ _ _ hg
        refine ⟨hlen, ?_⟩
        rw [List.getD_eq_getElem _ 0 hlen, hgel, hcc]
      · rw [if_neg hcond] at hfc
        exact Option.noConfusion hfc

set_option maxHeartbeats 1000000 in
/-- `#extractNode` preserves the heap invariant; the extracted node, its
carried closing tag and its carried whitespace end up owned by no
non-style child list, are pairwise distinct, and are allocated. -/
theorem extractNode_inv (h : Heap) (nid : Nat) (hn : nid < h.size) (hinv : HeapInv h) :
    HeapInv (h.extractNode nid).1 ∧
    (h.extractNode nid).1.size = h.size ∧
    (∀ q, q < h.size → ((h.extractNode nid).1.get q).styleBlock = false →
      nid ∉ ((h.extractNode nid).1.get q).children) ∧
    (∀ c, (h.extractNode nid).2.closing = some c → c < h.size ∧ c ≠ nid ∧
      ∀ q, q < h.size → ((h.extractNode nid).1.get q).styleBlock = false →
        c ∉ ((h.extractNode nid).1.get q).children) ∧
    (∀ w, (h.extractNode nid).2.whitespace = some w → w < h.size ∧ w ≠ nid ∧
      (∀ c, (h.extractNode nid).2.closing = some c → w ≠ c) ∧
      ∀ q, q < h.size → ((h.extractNode nid).1.get q).styleBlock = false →
        w ∉ ((h.extractNode nid).1.get q).children) := by
  rw [Heap.extractNode]
  cases hp : (h.get nid).parent with
  | none =>
    dsimp only
    refine ⟨hinv, rfl, ?_, ?_, ?_⟩
    · intro q hq hqs hmem
      have h1 := hinv.2.1 q hq hqs nid hmem
      rw [hp] at h1
      exact Option.noConfusion h1
    · intro c hc; exact Option.noConfusion hc
    · intro w hw; exact Option.noConfusion hw
  | some p =>
    dsimp only
    cases hfi : (h.get p).children.findIdx? (fun x => x == nid) with
    | none =>
      dsimp only
      have hnmem : nid ∉ (h.get p).children := findIdx?_beq_none _ _ hfi
      refine ⟨hinv, rfl, ?_, ?_, ?_⟩
      · intro q hq hqs hmem
        by_cases hqp : q = p
        · exact hnmem (hqp ▸ hmem)
        · have h1 := hinv.2.1 q hq hqs nid hmem
          rw [hp] at h1
          exact hqp (Option.some.inj h1).symm
      · intro c hc; exact Option.noConfusion hc
      · intro w hw; exact Option.noConfusion hw
    | some index =>
      dsimp only
      obtain ⟨hple, hpns⟩ := hinv.2.2.2 nid hn p hp
      have hnd : (h.get p).children.Nodup := hinv.2.2.1 p hple hpns
      obtain ⟨hil, hig⟩ := findIdx?_beq_spec _ _ _ hfi
      cases hws : (if 0 < index then
          match (h.get p).children.get? (index - 1) with
          | some prevN =>
            if (h.get prevN).ntype = .text ∧ jsTrim (h.get prevN).content = [] then
              some prevN
            else none
          | none => none
        else none : Option Nat) with
      | some w =>
        -- whitespace carried: it sits at position index - 1
        have hwpos : 0 < index ∧ index - 1 < (h.get p).children.length ∧
            (h.get p).children.getD (index - 1) 0 = w := by
          by_cases h0 : 0 < index
          · rw [if_pos h0] at hws
            cases hg : (h.get p).children.get? (index - 1) with
            | none => rw [hg] at hws; exact Option.noConfusion hws
            | some prevN =>
              rw [hg] at hws
              dsimp only at hws
              by_cases hcond : (h.get prevN).ntype = .text ∧
                  jsTrim (h.get prevN).content = []
              · rw [if_pos hcond] at hws
                have hpw : prevN = w := Option.some.inj hws
                obtain ⟨hlen, hgel⟩ := get?_spec _ _ _ hg
                exact ⟨h0, hlen, by rw [List.getD_eq_getElem _ 0 hlen, hgel, hpw]⟩
              · rw [if_neg hcond] at hws
                exact Option.noConfusion hws
          · rw [if_neg h0] at hws
            exact Option.noConfusion hws
        obtain ⟨h0, hwl, hwg⟩ := hwpos
        cases hcl : (if (h.get nid).ntype = .tagOpen then h.findClosingTag nid
            else none : Option Nat) with
        | some c =>
          have hcpos : index + 1 < (h.get p).children.length ∧
              (h.get p).children.getD (index + 1) 0 = c := by
            by_cases hop : (h.get nid).ntype = .tagOpen
            · rw [if_pos hop] at hcl
              exact findClosingTag_pos h nid p index c hp hfi hcl
            · rw [if_neg hop] at hcl
              exact Option.noConfusion hcl
          obtain ⟨hcl1, hcg⟩ := hcpos
          dsimp only
          have hsn := splice_null_inv h p (index - 1) 3 [nid, c, w] hple hpns
            (by
              intro x hx
              rcases List.mem_cons.mp hx with hx | hx
              · exact ⟨index, hil, hx ▸ hig, by omega, by omega⟩
              rcases List.mem_cons.mp hx with hx | hx
              · exact ⟨index + 1, hcl1, hx ▸ hcg, by omega, by omega⟩
              rcases List.mem_singleton.mp hx with hx
              · exact ⟨index - 1, hwl, hx ▸ hwg, by omega, by omega⟩) hinv
          obtain ⟨hsinv, hssz, hssb, hsfree⟩ := hsn
          have hcne : c ≠ nid := by
            have := nodup_getD_ne _ hnd (index + 1) index hcl1 hil (by omega)
            rw [hcg, hig] at this
            exact this
          have hwne : w ≠ nid := by
            have := nodup_getD_ne _ hnd (index - 1) index hwl hil (by omega)
            rw [hwg, hig] at this
            exact this
          have hwnc : w ≠ c := by
            have := nodup_getD_ne _ hnd (index - 1) (index + 1) hwl hcl1 (by omega)
            rw [hwg, hcg] at this
            exact this
          have hclt : c < h.size := by
            apply hinv.1 p hple
            rw [← hcg, List.getD_eq_getElem _ 0 hcl1]
            exact List.getElem_mem hcl1
          have hwlt : w < h.size := by
            apply hinv.1 p hple
            rw [← hwg, List.getD_eq_getElem _ 0 hwl]
            exact List.getElem_mem hwl
          refine ⟨hsinv, hssz, ?_, ?_, ?_⟩
          · intro q hq hqs
            exact hsfree nid (by simp) q hq (by rw [← hssb q]; exact hqs)
          · intro c2 hc2
            have hcc : c = c2 := Option.some.inj hc2
            subst hcc
            refine ⟨hclt, hcne, ?_⟩
            intro q hq hqs
            exact hsfree c (by simp) q hq (by rw [← hssb q]; exact hqs)
          · intro w2 hw2
            have hww : w = w2 := Option.some.inj hw2
            subst hww
            refine ⟨hwlt, hwne, ?_, ?_⟩
            · intro c2 hc2
              have hcc : c = c2 := Option.some.inj hc2
              subst hcc
              exact hwnc
            · intro q hq hqs
              exact hsfree w (by simp) q hq (by rw [← hssb q]; exact hqs)
        | none =>
          dsimp only
          have hsn := splice_null_inv h p (index - 1) 2 [nid, w] hple hpns
            (by
              intro x hx
              rcases List.mem_cons.mp hx with hx | hx
              · exact ⟨index, hil, hx ▸ hig, by omega, by omega⟩
              rcases List.mem_singleton.mp hx with hx
              · exact ⟨index - 1, hwl, hx ▸ hwg, by omega, by omega⟩) hinv
          obtain ⟨hsinv, hssz, hssb, hsfree⟩ := hsn
          have hwne : w ≠ nid := by
            have := nodup_getD_ne _ hnd (index - 1) index hwl hil (by omega)
            rw [hwg, hig] at this
            exact this
          have hwlt : w < h.size := by
            apply hinv.1 p hple
            rw [← hwg, List.getD_eq_getElem _ 0 hwl]
            exact List.getElem_mem hwl
          refine ⟨hsinv, hssz, ?_, ?_, ?_⟩
          · intro q hq hqs
            exact hsfree nid (by simp) q hq (by rw [← hssb q]; exact hqs)
          · intro c2 hc2
            exact Option.noConfusion hc2
          · intro w2 hw2
            have hww : w = w2 := Option.some.inj hw2
            subst hww
            refine ⟨hwlt, hwne, fun c2 hc2 => Option.noConfusion hc2, ?_⟩
            intro q hq hqs
            exact hsfree w (by simp) q hq (by rw [← hssb q]; exact hqs)
      | none =>
        cases hcl : (if (h.get nid).ntype = .tagOpen then h.findClosingTag nid
            else none : Option Nat) with
        | some c =>
          have hcpos : index + 1 < (h.get p).children.length ∧
              (h.get p).children.getD (index + 1) 0 = c := by
            by_cases hop : (h.get nid).ntype = .tagOpen
            · rw [if_pos hop] at hcl
              exact findClosingTag_pos h nid p index c hp hfi hcl
            · rw [if_neg hop] at hcl
              exact Option.noConfusion hcl
          obtain ⟨hcl1, hcg⟩ := hcpos
          dsimp only
          have hsn := splice_null_inv h p index 2 [nid, c] hple hpns
            (by
              intro x hx
              rcases List.mem_cons.mp hx with hx | hx
              · exact ⟨index, hil, hx ▸ hig, by omega, by omega⟩
              rcases List.mem_singleton.mp hx with hx
              · exact ⟨index + 1, hcl1, hx ▸ hcg, by omega, by omega⟩) hinv
          obtain ⟨hsinv, hssz, hssb, hsfree⟩ := hsn
          have hcne : c ≠ nid := by
            have := nodup_getD_ne _ hnd (index + 1) index hcl1 hil (by omega)
            rw [hcg, hig] at this
            exact this
          have hclt : c < h.size := by
            apply hinv.1 p hple
            rw [← hcg, List.getD_eq_getElem _ 0 hcl1]
            exact List.getElem_mem hcl1
          refine ⟨hsinv, hssz, ?_, ?_, ?_⟩
          · intro q hq hqs
            exact hsfree nid (by simp) q hq (by rw [← hssb q]; exact hqs)
          · intro c2 hc2
            have hcc : c = c2 := Option.some.inj hc2
            subst hcc
            refine ⟨hclt, hcne, ?_⟩
            intro q hq hqs
            exact hsfree c (by simp) q hq (by rw [← hssb q]; exact hqs)
          · intro w2 hw2
            exact Option.noConfusion hw2
        | none =>
          dsimp only
          have hsn := splice_null_inv h p index 1 [nid] hple hpns
            (by
              intro x hx
              rcases List.mem_singleton.mp hx with hx
              · exact ⟨index, hil, hx ▸ hig, by omega, by omega⟩) hinv
          obtain ⟨hsinv, hssz, hssb, hsfree⟩ := hsn
          refine ⟨hsinv, hssz, ?_, ?_, ?_⟩
          · intro q hq hqs
            exact hsfree nid (by simp) q hq (by rw [← hssb q]; exact hqs)
          · intro c2 hc2
            exact Option.noConfusion hc2
          · intro w2 hw2
            exact Option.noConfusion hw2

/-- Folding the literal two-update sequence of the insertion loops into
`insStep`. -/
theorem insStep_fold (h : Heap) (x tp : Nat) (idx : Int) :
    ((h.upd x fun n => { n with parent := some tp }).upd tp
      fun p => { p with children := jsInsertAt p.children idx x }) = insStep h x tp idx :=
  rfl

set_option maxHeartbeats 2000000 in
/-- The per-argument insertion loop preserves the heap invariant:
each argument is extracted first (or is already unowned), so the
re-parent-and-splice steps for whitespace, node and closing tag keep
every list duplicate-free and every non-style edge coherent. -/
theorem HeapInv_insertNodesAt : ∀ (nids : List Nat) (h : Heap) (t : Nat)
    (idx : Int) (hfin : Heap), HeapInv h → (∀ n, n ∈ nids → n < h.size) →
    h.insertNodesAt t idx nids = .ok hfin → HeapInv hfin
  | [], h, t, idx, hfin, hinv, _, hok => by
    rw [Heap.insertNodesAt] at hok
    cases hok
    exact hinv
  | nid :: rest, h, t, idx, hfin, hinv, hn, hok => by
    have hnlt : nid < h.size := hn nid (List.mem_cons_self _ _)
    rw [Heap.insertNodesAt] at hok
    cases hp : (h.get nid).parent with
    | none =>
      rw [hp] at hok
      dsimp only at hok
      have hfree : ∀ q, q < h.size → (h.get q).styleBlock = false →
          nid ∉ (h.get q).children := by
        intro q hq hqs hmem
        have h1 := hinv.2.1 q hq hqs nid hmem
        rw [hp] at h1
        exact Option.noConfusion h1
      split at hok
      · exact Except.noConfusion hok
      · rename_i tp hpt
        obtain ⟨htp, htps⟩ := hinv.2.2.2 t (Heap.parent_some_lt _ t tp hpt) tp hpt
        dsimp only at hok
        rw [insStep_fold] at hok
        refine HeapInv_insertNodesAt rest _ t _ hfin
          (HeapInv_insStep h nid tp idx hnlt htp htps hfree hinv) ?_ hok
        intro n hm
        rw [insStep_size]
        exact hn n (List.mem_cons_of_mem _ hm)
    | some pp =>
      rw [hp] at hok
      dsimp only at hok
      obtain ⟨hinv1, hsz1, hfree1, hclo1, hws1⟩ := extractNode_inv h nid hnlt hinv
      have hnlt1 : nid < (h.extractNode nid).1.size := by rw [hsz1]; exact hnlt
      have hfree1s : ∀ q, q < (h.extractNode nid).1.size →
          ((h.extractNode nid).1.get q).styleBlock = false →
          nid ∉ ((h.extractNode nid).1.get q).children := by
        rw [hsz1]; exact hfree1
      split at hok
      · exact Except.noConfusion hok
      · rename_i tp hpt
        obtain ⟨htp, htps⟩ := hinv1.2.2.2 t (Heap.parent_some_lt _ t tp hpt) tp hpt
        cases hwsx : (h.extractNode nid).2.whitespace with
        | none =>
          rw [hwsx] at hok
          dsimp only at hok
          rw [hpt] at hok
          dsimp only at hok
          cases hclx : (h.extractNode nid).2.closing with
          | none =>
            rw [hclx] at hok
            dsimp only at hok
            rw [insStep_fold] at hok
            refine HeapInv_insertNodesAt rest _ t _ hfin
              (HeapInv_insStep _ nid tp _ hnlt1 htp htps hfree1s hinv1) ?_ hok
            intro n hm
            rw [insStep_size, hsz1]
            exact hn n (List.mem_cons_of_mem _ hm)
          | some ct =>
            rw [hclx] at hok
            dsimp only at hok
            try simp only [insStep_fold] at hok
            obtain ⟨hctlt, hctnid, hctfree⟩ := hclo1 ct hclx
            have hctlt1 : ct < (h.extractNode nid).1.size := by rw [hsz1]; exact hctlt
            have hctfree1 : ∀ q, q < (h.extractNode nid).1.size →
                ((h.extractNode nid).1.get q).styleBlock = false →
                ct ∉ ((h.extractNode nid).1.get q).children := by
              rw [hsz1]; exact hctfree
            split at hok
            · exact Except.noConfusion hok
            · rename_i tp3 hpt3
              obtain ⟨htp3, htps3⟩ := (HeapInv_insStep _ nid tp _ hnlt1 htp htps hfree1s
                hinv1).2.2.2 t (Heap.parent_some_lt _ t tp3 hpt3) tp3 hpt3
              refine HeapInv_insertNodesAt rest _ t _ hfin
                (HeapInv_insStep _ ct tp3 _ ?_ htp3 htps3 ?_ ?_) ?_ hok
              · rw [insStep_size]
                exact hctlt1
              · exact insStep_free_pres _ nid tp _ ct hnlt1 htp hctnid hctfree1
              · exact HeapInv_insStep _ nid tp _ hnlt1 htp htps hfree1s hinv1
              · intro n hm
                rw [insStep_size, insStep_size, hsz1]
                exact hn n (List.mem_cons_of_mem _ hm)
        | some w =>
          rw [hwsx] at hok
          dsimp only at hok
          try simp only [insStep_fold] at hok
          obtain ⟨hwlt, hwnid, hwct, hwfree⟩ := hws1 w hwsx
          have hwlt1 : w < (h.extractNode nid).1.size := by rw [hsz1]; exact hwlt
          have hwfree1 : ∀ q, q < (h.extractNode nid).1.size →
              ((h.extractNode nid).1.get q).styleBlock = false →
              w ∉ ((h.extractNode nid).1.get q).children := by
            rw [hsz1]; exact hwfree
          split at hok
          · exact Except.noConfusion hok
          · rename_i tp2 hpt2
            obtain ⟨htp2, htps2⟩ := (HeapInv_insStep _ w tp _ hwlt1 htp htps hwfree1
              hinv1).2.2.2 t (Heap.parent_some_lt _ t tp2 hpt2) tp2 hpt2
            cases hclx : (h.extractNode nid).2.closing with
            | none =>
              rw [hclx] at hok
              dsimp only at hok
              try simp only [insStep_fold] at hok
              refine HeapInv_insertNodesAt rest _ t _ hfin
                (HeapInv_insStep _ nid tp2 _ ?_ htp2 htps2 ?_ ?_) ?_ hok
              · rw [insStep_size]
                exact hnlt1
              · exact insStep_free_pres _ w tp _ nid hwlt1 htp
                  (fun e => hwnid e.symm) hfree1s
              · exact HeapInv_insStep _ w tp _ hwlt1 htp htps hwfree1 hinv1
              · intro n hm
                rw [insStep_size, insStep_size, hsz1]
                exact hn n (List.mem_cons_of_mem _ hm)
            | some ct =>
              rw [hclx] at hok
              dsimp only at hok
              try simp only [insStep_fold] at hok
              obtain ⟨hctlt, hctnid, hctfree⟩ := hclo1 ct hclx
              have hctw : ct ≠ w := fun e => (hwct ct hclx) e.symm
              have hctlt1 : ct < (h.extractNode nid).1.size := by rw [hsz1]; exact hctlt
              have hctfree1 : ∀ q, q < (h.extractNode nid).1.size →
                  ((h.extractNode nid).1.get q).styleBlock = false →
                  ct ∉ ((h.extractNode nid).1.get q).children := by
                rw [hsz1]; exact hctfree
              split at hok
              · exact Except.noConfusion hok
              · rename_i tp4 hpt4
                obtain ⟨htp4, htps4⟩ := (HeapInv_insStep _ nid tp2 _
                  (by rw [insStep_size]; exact hnlt1) htp2 htps2
                  (insStep_free_pres _ w tp _ nid hwlt1 htp (fun e => hwnid e.symm)
                    hfree1s)
                  (HeapInv_insStep _ w tp _ hwlt1 htp htps hwfree1 hinv1)).2.2.2 t
                  (Heap.parent_some_lt _ t tp4 hpt4) tp4 hpt4
                refine HeapInv_insertNodesAt rest _ t _ hfin
                  (HeapInv_insStep _ ct tp4 _ ?_ htp4 htps4 ?_ ?_) ?_ hok
                · rw [insStep_size, insStep_size]
                  exact hctlt1
                · refine insStep_free_pres _ nid tp2 _ ct ?_ htp2 hctnid
                    (insStep_free_pres _ w tp _ ct hwlt1 htp hctw hctfree1)
                  rw [insStep_size]
                  exact hnlt1
                · refine HeapInv_insStep _ nid tp2 _ ?_ htp2 htps2 ?_
                    (HeapInv_insStep _ w tp _ hwlt1 htp htps hwfree1 hinv1)
                  · rw [insStep_size]
                    exact hnlt1
                  · exact insStep_free_pres _ w tp _ nid hwlt1 htp
                      (fun e => hwnid e.symm) hfree1s
                · intro n hm
                  rw [insStep_size, insStep_size, insStep_size, hsz1]
                  exact hn n (List.mem_cons_of_mem _ hm)

/-- `insertAfter` preserves the heap invariant on success. -/
theorem HeapInv_insertAfter (h : Heap) (selfId : Nat) (nids : List Nat) (hfin : Heap)
    (hinv : HeapInv h) (hn : ∀ n, n ∈ nids → n < h.size)
    (hok : h.insertAfter selfId nids = .ok hfin) : HeapInv hfin := by
  rw [Heap.insertAfter] at hok
  cases hsp : (h.get selfId).parent with
  | none => rw [hsp] at hok; exact Except.noConfusion hok
  | some sp =>
    rw [hsp] at hok
    dsimp only at hok
    split at hok
    · exact Except.noConfusion hok
    · split at hok
      · exact Except.noConfusion hok
      · exact HeapInv_insertNodesAt nids h _ _ hfin hinv hn hok

/-- `insertBefore` preserves the heap invariant on success. -/
theorem HeapInv_insertBefore (h : Heap) (selfId : Nat) (nids : List Nat) (hfin : Heap)
    (hinv : HeapInv h) (hn : ∀ n, n ∈ nids → n < h.size)
    (hok : h.insertBefore selfId nids = .ok hfin) : HeapInv hfin := by
  rw [Heap.insertBefore] at hok
  cases hsp : (h.get selfId).parent with
  | none => rw [hsp] at hok; exact Except.noConfusion hok
  | some sp =>
    rw [hsp] at hok
    dsimp only at hok
    split at hok
    · exact Except.noConfusion hok
    · split at hok
      · exact Except.noConfusion hok
      · split at hok
        · exact Except.noConfusion hok
        · exact HeapInv_insertNodesAt nids h _ _ hfin hinv hn hok

mutual

/-- Reifying one style-disciplined pure node into an invariant-satisfying
heap under a valid (allocated, non-style) owner yields an
invariant-satisfying heap: ordinary nodes own duplicate-free fresh
children; the style branch hands the adopted CSS children to the
(non-style) `css-root`, while the style element's copied list is exempt
from uniqueness and coherence. -/
theorem loadNode_inv : ∀ (t : PNode) (h : Heap) (pid : Option Nat),
    HeapInv h →
    (∀ q, pid = some q → q < h.size ∧ (h.get q).styleBlock = false) →
    styleOkN t = true →
    HeapInv (loadNode h pid t).1
  | .node nt nm a c ct sb scb sel d cn cp ch, h, pid, hinv, hpid, hsok => by
    obtain ⟨hb, hc, hd, hns⟩ := hinv
    have hsokch : styleOkL ch = true := by
      rw [styleOkN] at hsok
      simp only [Bool.and_eq_true] at hsok
      exact hsok.2
    have hbase : ∀ q : Option Nat,
        (hnodeOf q (.node nt nm a c ct sb scb sel d cn cp ch)).children = [] := by
      intro q; rfl
    by_cases hsty : nt = NType.tagOpen ∧ sb = true
    · rw [loadNode.eq_1, if_pos hsty]
      have hb1 := ChildrenBounded_alloc h _ (hbase pid) hb
      have hc1 := CoherentExceptStyle_alloc h _ (hbase pid) hb hc
      have hd1 := ChildNodup_alloc h _ (hbase pid) hd
      have hns1 := NoStyleParent_alloc h
        (hnodeOf pid (.node nt nm a c ct sb scb sel d cn cp ch))
        (fun q hq => hpid q hq) hns
      have hb2 := ChildrenBounded_alloc _ { ntype := .cssRoot, parent := none } rfl hb1
      have hc2 := CoherentExceptStyle_alloc _ { ntype := .cssRoot, parent := none } rfl
        hb1 hc1
      have hd2 := ChildNodup_alloc _ { ntype := .cssRoot, parent := none } rfl hd1
      have hns2 := NoStyleParent_alloc _ { ntype := .cssRoot, parent := none }
        (fun q hq => Option.noConfusion hq) hns1
      have hsz2 : ((h.alloc (hnodeOf pid (.node nt nm a c ct sb scb sel d cn cp ch))).alloc
          { ntype := .cssRoot, parent := none }).size = h.size + 2 := by
        rw [Heap.alloc_size, Heap.alloc_size]
      have hroot : (((h.alloc (hnodeOf pid (.node nt nm a c ct sb scb sel d cn cp
          ch))).alloc { ntype := .cssRoot, parent := none }).get (h.size + 1)) =
          { ntype := .cssRoot, parent := none } := by
        have he : (h.alloc (hnodeOf pid (.node nt nm a c ct sb scb sel d cn cp ch))).size
            = h.size + 1 := Heap.alloc_size _ _
        rw [← he, Heap.get_alloc_new]
      have hspec := loadForest_spec ch
        ((h.alloc (hnodeOf pid (.node nt nm a c ct sb scb sel d cn cp ch))).alloc
          { ntype := .cssRoot, parent := none }) (some (h.size + 1)) hb2 hc2
      have hIH := loadForest_inv ch
        ((h.alloc (hnodeOf pid (.node nt nm a c ct sb scb sel d cn cp ch))).alloc
          { ntype := .cssRoot, parent := none }) (some (h.size + 1))
        ⟨hb2, hc2, hd2, hns2⟩
        (Or.inl (by
          intro q hq
          have hqe : q = h.size + 1 := (Option.some.inj hq).symm
          subst hqe
          refine ⟨by rw [hsz2]; omega, ?_⟩
          rw [hroot]))
        hsokch
      split
      rename_i h3 kidIds hlf
      rw [hlf] at hspec hIH
      simp only [hsz2] at hspec
      obtain ⟨hs3, hpres3, hids3, hb3, hc3⟩ := hspec
      obtain ⟨⟨hb3i, hc3i, hd3i, hns3i⟩, hndk⟩ := hIH
      dsimp only
      have hup1b := ChildrenBounded_updChildren h3 (h.size + 1) kidIds (by omega)
        (fun k hk => (hids3 k hk).2.1) hb3i
      have hup1c := CoherentExceptStyle_updChildren h3 (h.size + 1) kidIds (by omega)
        (fun _ k hk => ⟨by have := (hids3 k hk).1; omega, (hids3 k hk).2.2⟩) hc3i
      have hup1d := ChildNodup_updChildren h3 (h.size + 1) kidIds (by omega)
        (fun _ => hndk) hd3i
      have hup1ns := NoStyleParent_updChildren h3 (h.size + 1) kidIds (by omega) hns3i
      have hstysb : ((h3.upd (h.size + 1) fun n => { n with children := kidIds }).get
          h.size).styleBlock = true := by
        rw [Heap.get_upd_ne _ _ _ _ (by omega), hpres3 h.size (by omega),
          Heap.get_alloc_old _ _ _ (by rw [Heap.alloc_size]; omega), Heap.get_alloc_new]
        exact hsty.2
      refine ⟨?_, ?_, ?_, ?_⟩
      · refine ChildrenBounded_updChildren _ _ _ ?_ ?_ hup1b
        · rw [Heap.size_upd]; omega
        · intro k hk
          rw [Heap.size_upd]
          exact (hids3 k hk).2.1
      · refine CoherentExceptStyle_updChildren _ _ _ ?_ ?_ hup1c
        · rw [Heap.size_upd]; omega
        · intro hsb0
          rw [hsb0] at hstysb
          exact Bool.noConfusion hstysb
      · refine ChildNodup_updChildren _ _ _ ?_ ?_ hup1d
        · rw [Heap.size_upd]; omega
        · intro hsb0
          rw [hsb0] at hstysb
          exact Bool.noConfusion hstysb
      · refine NoStyleParent_updChildren _ _ _ ?_ hup1ns
        rw [Heap.size_upd]; omega
    · rw [loadNode.eq_1, if_neg hsty]
      have hb1 := ChildrenBounded_alloc h _ (hbase pid) hb
      have hc1 := CoherentExceptStyle_alloc h _ (hbase pid) hb hc
      have hd1 := ChildNodup_alloc h _ (hbase pid) hd
      have hns1 := NoStyleParent_alloc h
        (hnodeOf pid (.node nt nm a c ct sb scb sel d cn cp ch))
        (fun q hq => hpid q hq) hns
      have hsz1 : (h.alloc (hnodeOf pid (.node nt nm a c ct sb scb sel d cn cp ch))).size
          = h.size + 1 := Heap.alloc_size _ _
      have hspec := loadForest_spec ch
        (h.alloc (hnodeOf pid (.node nt nm a c ct sb scb sel d cn cp ch)))
        (some h.size) hb1 hc1
      have hIH := loadForest_inv ch
        (h.alloc (hnodeOf pid (.node nt nm a c ct sb scb sel d cn cp ch)))
        (some h.size) ⟨hb1, hc1, hd1, hns1⟩
        (by
          by_cases hsb : sb = false
          · refine Or.inl ?_
            intro q hq
            have hqe : q = h.size := (Option.some.inj hq).symm
            subst hqe
            refine ⟨by rw [hsz1]; omega, ?_⟩
            rw [Heap.get_alloc_new]
            exact hsb
          · refine Or.inr ?_
            have hnto : nt ≠ NType.tagOpen := fun he =>
              hsty ⟨he, by rwa [Bool.not_eq_false] at hsb⟩
            rw [styleOkN] at hsok
            simp only [Bool.and_eq_true, Bool.or_eq_true] at hsok
            rcases hsok.1 with (h2 | h2) | h2
            · exact absurd (of_decide_eq_true h2) hsb
            · exact absurd (of_decide_eq_true h2) hnto
            · exact List.isEmpty_iff.mp h2)
        hsokch
      split
      rename_i h1 kidIds hlf
      rw [hlf] at hspec hIH
      simp only [hsz1] at hspec
      obtain ⟨hs1, hpres1, hids1, hb1s, hc1s⟩ := hspec
      obtain ⟨⟨hb1i, hc1i, hd1i, hns1i⟩, hndk⟩ := hIH
      dsimp only
      refine ⟨?_, ?_, ?_, ?_⟩
      · exact ChildrenBounded_updChildren _ _ _ (by omega)
          (fun k hk => (hids1 k hk).2.1) hb1i
      · refine CoherentExceptStyle_updChildren _ _ _ (by omega) ?_ hc1i
        intro _ k hk
        exact ⟨by have := (hids1 k hk).1; omega, (hids1 k hk).2.2⟩
      · exact ChildNodup_updChildren _ _ _ (by omega) (fun _ => hndk) hd1i
      · exact NoStyleParent_updChildren _ _ _ (by omega) hns1i

/-- Reifying a style-disciplined forest preserves the heap invariant and
returns duplicate-free (strictly increasing) fresh ids. -/
theorem loadForest_inv : ∀ (ts : List PNode) (h : Heap) (pid : Option Nat),
    HeapInv h →
    ((∀ q, pid = some q → q < h.size ∧ (h.get q).styleBlock = false) ∨ ts = []) →
    styleOkL ts = true →
    (HeapInv (loadForest h pid ts).1 ∧ (loadForest h pid ts).2.Nodup)
  | [], h, pid, hinv, _, _ => ⟨hinv, List.nodup_nil⟩
  | t :: ts, h, pid, hinv, hpid, hsok => by
    have hpidl : ∀ q, pid = some q → q < h.size ∧ (h.get q).styleBlock = false := by
      rcases hpid with hpid | hnil
      · exact hpid
      · exact absurd hnil (by simp)
    have hsokb : styleOkN t = true ∧ styleOkL ts = true := by
      rw [styleOkL] at hsok
      simp only [Bool.and_eq_true] at hsok
      exact hsok
    have hn := loadNode_spec t h pid hinv.1 hinv.2.1
    have hni := loadNode_inv t h pid hinv hpidl hsokb.1
    rw [loadForest.eq_2]
    split
    rename_i h1 id1 hln
    rw [hln] at hn hni
    dsimp only at hn hni
    obtain ⟨hle1, hlt1, hsz1, hpres1, hpar1, hb1, hc1⟩ := hn
    have hf := loadForest_spec ts h1 pid hb1 hc1
    have hfi := loadForest_inv ts h1 pid hni
      (Or.inl (by
        intro q hq
        obtain ⟨hq1, hq2⟩ := hpidl q hq
        exact ⟨by omega, by rw [hpres1 q hq1]; exact hq2⟩))
      hsokb.2
    split
    rename_i h2 ids2 hlf
    rw [hlf] at hf hfi
    dsimp only at hf hfi
    obtain ⟨hs2, hpres2, hids2, hbx, hcx⟩ := hf
    obtain ⟨hinv2, hnd2⟩ := hfi
    dsimp only
    refine ⟨hinv2, List.nodup_cons.mpr ⟨?_, hnd2⟩⟩
    intro hidin
    have := (hids2 id1 hidin).1
    omega

end

/-- On every input, the reference heap built by `parse` satisfies the
structural invariant: the parse output obeys the style discipline
(`styleOk_parseHtml`), the empty heap satisfies the invariant vacuously,
and reification preserves it. -/
theorem parse_heapInv (sp : List Str) (cs : Str) : HeapInv (Heap.parseHtmlRef sp cs).1 := by
  have hinv0 : HeapInv ({} : Heap) :=
    ⟨fun p hp => absurd hp (Nat.not_lt_zero p),
     fun p hp => absurd hp (Nat.not_lt_zero p),
     fun p hp => absurd hp (Nat.not_lt_zero p),
     fun n hn => absurd hn (Nat.not_lt_zero n)⟩
  exact loadNode_inv (parseHtml sp cs) {} none hinv0
    (fun q hq => Option.noConfusion hq) (styleOk_parseHtml sp cs)

/-- The heap after `root.appendChild(text)` on the parse of
`<div>Hi</div>`: the text node is re-parented onto the root without being
removed from the `div`'s child list. -/
def c5appHeap : Heap := ⟨[
  { ntype := .root, children := [1, 3, 2] },
  { ntype := .tagOpen, name := ("div").data, parent := some 0, children := [2] },
  { ntype := .text, content := ("Hi").data, parent := some 0 },
  { ntype := .tagClose, name := ("div").data, parent := some 0 }]⟩

set_option maxHeartbeats 4000000 in
/-- C5 (amended): parent-child coherence after parse and after every
documented mutation operation.  (1) For every input, the reference heap
built by `parse` satisfies the structural invariant `HeapInv` — in
particular every child of a non-style-flagged node records that node as
its parent; the children of a style-flagged `tag-open` are the sole
exception (they keep the CSS parser's `css-root` as parent, as the
counterexample exhibits).  (2) The invariant — hence coherence away from
style nodes — is preserved by `remove`, by `setAttribute`, and by every
successful `insertBefore`/`insertAfter` call whose arguments are allocated
nodes.  (3) The two remaining documented mutations break coherence even
away from style nodes: `appendChild` re-parents without extracting, so
appending a node onto a new parent leaves it on the old parent's child
list while its parent reference points elsewhere (shown on the parse of
`<div>Hi</div>`); and `replaceWith` leaves the deleted subtree's interior
incoherent — a deleted node keeps its child list while the children's
parent references are nulled (shown on the parse of the nested-div input,
where detached `outer` still lists `middle` whose parent is `null`). -/
theorem c5_coherence_amended :
    (∀ (sp : List Str) (cs : Str), HeapInv (Heap.parseHtmlRef sp cs).1) ∧
    (∀ (h : Heap) (nid : Nat), HeapInv h → HeapInv (h.remove nid)) ∧
    (∀ (h : Heap) (nid : Nat) (name value : Str), HeapInv h →
      HeapInv (h.setAttribute nid name value)) ∧
    (∀ (h : Heap) (selfId : Nat) (nids : List Nat) (hfin : Heap), HeapInv h →
      (∀ n, n ∈ nids → n < h.size) → h.insertBefore selfId nids = .ok hfin →
      HeapInv hfin) ∧
    (∀ (h : Heap) (selfId : Nat) (nids : List Nat) (hfin : Heap), HeapInv h →
      (∀ n, n ∈ nids → n < h.size) → h.insertAfter selfId nids = .ok hfin →
      HeapInv hfin) ∧
    (Heap.parseHtmlRef defaultSpecialTags c2input = (c2heap0, 0) ∧
      CoherentExceptStyle c2heap0 ∧
      Heap.appendChild c2heap0 0 [2] = c5appHeap ∧
      (c5appHeap.get 1).children = [2] ∧ (c5appHeap.get 2).parent = some 0 ∧
      ¬ CoherentExceptStyle c5appHeap) ∧
    (Heap.parseHtmlRef defaultSpecialTags c3input = (c3heap0, 0) ∧
      CoherentExceptStyle c3heap0 ∧
      Heap.replaceWith c3heap0 1 [3] = .ok c3heap1 ∧
      (c3heap1.get 1).children = [2, 8] ∧ (c3heap1.get 2).parent = none ∧
      ¬ CoherentExceptStyle c3heap1) := by
  refine ⟨parse_heapInv, HeapInv_remove, HeapInv_setAttribute,
    HeapInv_insertBefore, HeapInv_insertAfter,
    ⟨?_, by unfold CoherentExceptStyle; decide, by decide, by decide, by decide,
      by unfold CoherentExceptStyle; decide⟩,
    ⟨?_, by unfold CoherentExceptStyle; decide, by decide, by decide, by decide,
      by unfold CoherentExceptStyle; decide⟩⟩
  · have hp : parseHtml defaultSpecialTags c2input = c2tree := pnodeBEq_eq (by decide)
    show loadNode {} none (parseHtml defaultSpecialTags c2input) = (c2heap0, 0)
    rw [hp]
    decide
  · have hp : parseHtml defaultSpecialTags c3input = c3tree := pnodeBEq_eq (by decide)
    show loadNode {} none (parseHtml defaultSpecialTags c3input) = (c3heap0, 0)
    rw [hp]
    decide
